import Mathlib

/-!
# 6502SnakeBot: game engine, board encoder and memory bus

A shallow embedding of `src/emulator/Game.cpp` and `src/emulator/Emulator.cpp`.

Conventions of the embedding:

* `std::vector<T>` is a `List T`; an access outside the vector is undefined
  behaviour in C++ and is `none` here.
* `int` coordinates are `Int`. Signed overflow is undefined behaviour in C++
  and is not modelled: every coordinate that occurs is taken to be far inside
  the `int` range (boards have at most 4096 cells).
* the tick counter is a `Nat`. Its declaration (`Game.h`) is not among the
  sources; it starts at 0 and grows by one per tick, so a wrap-around is out of
  reach and is not modelled.
* the two cycle counters are 64-bit unsigned (`Emulator::cycle` compares
  `iteration_clock_cycles` with the `uint64_t` budget and passes it by
  reference to the core): they are `Nat` values reduced modulo `2 ^ 64` where
  the source stores into them. The `uint32_t` board size of
  `Emulator::Emulator` is reduced modulo `2 ^ 32`.
* `double` arithmetic is a parameter (`DoubleOps`): the theorems hold for every
  interpretation of the arithmetic. `binary64Ops` is IEEE-754 binary64 on
  explicit integers, the arithmetic of the program, in which concrete runs are
  computed; the result of `std::pow`, which the standard does not fix, is its
  parameter. `floatOps` is the same arithmetic on the `Float` of Lean, and
  `realOps` the exact-real idealisation in which the spec words the half-life
  of `food_value`.
* the CPU core (`mos6502`) is external: it is a parameter (`Core`), a pair of
  functions `Run` and `IRQ` on its own state and the emulator.
* bytes (`uint8_t`) and addresses (`uint16_t`) are `Nat`; the bus theorems hold
  for every `Nat`, the bytes and the 16-bit addresses among them.
* `std::printf` output of the bus callbacks is collected in the field `out`.
-/

namespace SnakeBot

/-! ## Data model (Game.h) -/

/-- Modelled from the spec: the enumeration `Direction` is declared in `Game.h`,
which is not part of the sources at hand; the spec gives the heading as
"one of {UP, DOWN, LEFT, RIGHT}" and the sources use exactly these four
enumerators. -/
inductive Direction
  | DIR_UP
  | DIR_DOWN
  | DIR_LEFT
  | DIR_RIGHT
  deriving DecidableEq, Repr

/-- Modelled from the spec: `GameVec2` is declared in `Game.h`; the sources
build it as `(GameVec2){x, y}` from two `int`s. -/
structure GameVec2 where
  x : Int
  y : Int
  deriving DecidableEq, Repr

/-- The `double` operations the game uses (`+`, `*`, `/`, `std::pow`, the
conversion from `int` and the literals `0.0`, `0.5`, `1.0`), as a parameter. -/
structure DoubleOps (F : Type) where
  zero : F
  half : F
  one : F
  add : F → F → F
  mul : F → F → F
  div : F → F → F
  pow : F → F → F
  ofInt : Int → F

/-- IEEE-754 binary64 reading of `DoubleOps`. -/
def floatOps : DoubleOps Float where
  zero := 0.0
  half := 0.5
  one := 1.0
  add := fun a b => a + b
  mul := fun a b => a * b
  div := fun a b => a / b
  pow := Float.pow
  ofInt := Float.ofInt

/-- Unevaluated `double` expressions: the free interpretation of `DoubleOps`,
with decidable equality, used to run the embedding on concrete inputs. -/
inductive DExpr
  | zero
  | half
  | one
  | ofInt (i : Int)
  | add (a b : DExpr)
  | mul (a b : DExpr)
  | div (a b : DExpr)
  | pow (a b : DExpr)
  deriving DecidableEq, Repr

/-- The free interpretation of the `double` operations. -/
def symOps : DoubleOps DExpr where
  zero := DExpr.zero
  half := DExpr.half
  one := DExpr.one
  add := DExpr.add
  mul := DExpr.mul
  div := DExpr.div
  pow := DExpr.pow
  ofInt := DExpr.ofInt

/-- Modelled from the spec: `GameState` is declared in `Game.h`; its fields are
the ones the sources read and write (`snake`, `snakeDirection`, `food`,
`score`, `food_value`, `total_ticks`, `total_clock_cycles`,
`iteration_clock_cycles`). -/
structure GameState (F : Type) where
  snake : List GameVec2
  snakeDirection : Direction
  food : GameVec2
  score : F
  food_value : F
  total_ticks : Nat
  total_clock_cycles : Nat
  iteration_clock_cycles : Nat
  deriving DecidableEq, Repr

/-- Modelled from the spec: the class `Game` is declared in `Game.h`; the
sources use its members `board_width`, `board_height`, `state`, `state_lock`
and `rng`. The mutex is not modelled and the random engine is passed to the
operations that draw from it (see `RngOutcome`). -/
structure Game (F : Type) where
  board_width : Int
  board_height : Int
  state : GameState F
  deriving DecidableEq, Repr

/-- What `std::uniform_int_distribution<size_t> dist(0, hi); dist(rng)` may
return: for every upper bound `hi` some value in `[0, hi]`. -/
abbrev RngOutcome := (hi : Nat) → Fin (hi + 1)

/-- The outcome that always draws the smallest value. -/
def rngFirst : RngOutcome := fun _ => 0

/-- The outcome that always draws the largest value. -/
def rngLast : RngOutcome := fun hi => Fin.last hi

/-- Value of `T{}` for a position, used only where an index is in range. -/
def origin : GameVec2 := ⟨0, 0⟩

/-! ## Game.cpp -/

/-- `Game::flipDirection`. -/
def flipDirection (d : Direction) : Direction :=
  match d with
  | .DIR_DOWN => .DIR_UP
  | .DIR_LEFT => .DIR_RIGHT
  | .DIR_RIGHT => .DIR_LEFT
  | .DIR_UP => .DIR_DOWN

/-- The inner loop of `Game::spawnFood` (lines 136-142): is `(x, y)` a snake
segment? -/
def tileFound (snake : List GameVec2) (x y : Int) : Bool :=
  snake.any (fun s => decide (s.x = x ∧ s.y = y))

/-- The two outer loops of `Game::spawnFood` (lines 133-148): the open tiles
in the order the source pushes them (`x` outer, `y` inner). -/
def openTiles (board_width board_height : Int) (snake : List GameVec2) : List GameVec2 :=
  (List.range board_width.toNat).flatMap (fun (x : Nat) =>
    (List.range board_height.toNat).filterMap (fun (y : Nat) =>
      if tileFound snake (x : Int) (y : Int) then none
      else some (GameVec2.mk (x : Int) (y : Int))))

/-- `Game::spawnFood`. -/
def Game.spawnFood {F : Type} (ops : DoubleOps F) (g : Game F) (rng : RngOutcome)
    (state : GameState F) : GameState F :=
  let open_tiles := openTiles g.board_width g.board_height state.snake
  if open_tiles.length = 0 then
    state
  else
    let pos := open_tiles.getD (rng (open_tiles.length - 1)).val origin
    { state with food := pos, food_value := ops.one }

/-- The loop of lines 80-82, `for (i = k; i > 0; --i) snake[i] = snake[i-1]`,
started at `i = k`. -/
def shiftLoop : Nat → List GameVec2 → List GameVec2
  | 0, snake => snake
  | i + 1, snake => shiftLoop i (snake.set (i + 1) (snake.getD i origin))

/-- Lines 79-83 of `Game::tick`: move every bit of body forward. -/
def shiftBody (snake : List GameVec2) : List GameVec2 :=
  if 2 ≤ snake.length then shiftLoop (snake.length - 1) snake else snake

/-- Lines 86-94 of `Game::tick`: move the head one cell. -/
def moveHead (player_control : Direction) (head_pos : GameVec2) : GameVec2 :=
  if player_control = .DIR_LEFT then { head_pos with x := head_pos.x - 1 }
  else if player_control = .DIR_RIGHT then { head_pos with x := head_pos.x + 1 }
  else if player_control = .DIR_UP then { head_pos with y := head_pos.y - 1 }
  else { head_pos with y := head_pos.y + 1 }

/-- Lines 102-106 of `Game::tick`: does some `snake[i]`, `1 ≤ i < size`, sit on
`head_pos`? -/
def hitsSnake (snake : List GameVec2) (head_pos : GameVec2) : Bool :=
  (List.range' 1 (snake.length - 1)).any (fun i =>
    decide ((snake.getD i origin).x = head_pos.x ∧ (snake.getD i origin).y = head_pos.y))

/-- Lines 69-73 of `Game::tick`: the heading after reversal suppression. -/
def effectiveDirection (current player_control : Direction) : Direction :=
  if player_control = flipDirection current then current else player_control

/-- `Game::tick`. The result is `none` when the source reads `snake[0]` of an
empty vector; otherwise the returned flag and the game afterwards (the stored
state is replaced only by the `setState` of line 126). -/
def Game.tick {F : Type} (ops : DoubleOps F) (g : Game F) (rng : RngOutcome)
    (player_control : Direction) : Option (Bool × Game F) :=
  let state := g.state
  let state := { state with total_ticks := state.total_ticks + 1 }
  let player_control := effectiveDirection state.snakeDirection player_control
  let state := { state with snakeDirection := player_control }
  match state.snake.head?, state.snake.getLast? with
  | some head_pos, some tail_pos =>
    let state := { state with snake := shiftBody state.snake }
    let head_pos := moveHead player_control head_pos
    if head_pos.x < 0 ∨ head_pos.x ≥ g.board_width ∨ head_pos.y < 0 ∨
        head_pos.y ≥ g.board_height then
      some (false, g)
    else if hitsSnake state.snake head_pos then
      some (false, g)
    else
      let state := { state with snake := state.snake.set 0 head_pos }
      if head_pos.x = state.food.x ∧ head_pos.y = state.food.y then
        let state := { state with snake := state.snake ++ [tail_pos] }
        let state := { state with score := ops.add state.score state.food_value }
        let state := g.spawnFood ops rng state
        some (true, { g with state := state })
      else
        let w := ops.ofInt g.board_width
        let h := ops.ofInt g.board_height
        let mhat_dist := ops.add w h
        let state := { state with
          food_value := ops.mul state.food_value (ops.pow ops.half (ops.div ops.one mhat_dist)) }
        some (true, { g with state := state })
  | _, _ => none

/-- `Game::newState`. `fresh` is the default-constructed `GameState new_state`
of line 27, whose scalar members depend on `Game.h`; the stores of lines 41-45
go to the member `state`, which line 47 then replaces. -/
def Game.newState {F : Type} (ops : DoubleOps F) (g : Game F) (rng : RngOutcome)
    (fresh : GameState F) : Game F :=
  let new_state := { fresh with snake := [] }
  let pos : GameVec2 := ⟨Int.tdiv g.board_width 2, Int.tdiv g.board_height 2⟩
  let new_state := { new_state with
    snake := new_state.snake ++ (List.range 4).map (fun i => GameVec2.mk (pos.x - (i : Int)) pos.y) }
  let new_state := { new_state with snakeDirection := .DIR_RIGHT }
  let new_state := g.spawnFood ops rng new_state
  let g := { g with state := { g.state with
    score := ops.zero, food_value := ops.zero, total_ticks := 0,
    total_clock_cycles := 0, iteration_clock_cycles := 0 } }
  { g with state := new_state }

/-! ## Emulator.cpp -/

/-! The macros of lines 22-37. -/

def TILE_TYPE_EMPTY : Nat := 0 <<< 4
def TILE_TYPE_SNAKE_HEAD : Nat := 1 <<< 4
def TILE_TYPE_SNAKE_BODY : Nat := 2 <<< 4
def TILE_TYPE_SNAKE_TAIL : Nat := 3 <<< 4
def TILE_TYPE_FOOD : Nat := 4 <<< 4

def TILE_DIRECTIN_LEFT : Nat := 1 <<< 0
def TILE_DIRECTIN_RIGHT : Nat := 1 <<< 1
def TILE_DIRECTIN_UP : Nat := 1 <<< 2
def TILE_DIRECTIN_DOWN : Nat := 1 <<< 3

def STATE_CONTROL : Nat := 0
def STATE_SNAKE_DIRECTION : Nat := 1

def STATE_IRQ : Nat := 1 <<< 0
def STATE_DONE : Nat := 1 <<< 1

/-- A line the bus callbacks print with `std::printf`. -/
inductive Printed
  | dbg (value : Nat)
  | oobWrite (addr value : Nat)
  | oobRead (addr : Nat)
  deriving DecidableEq, Repr

/-- Modelled from the spec: the class `Emulator` is declared in `Emulator.h`;
the sources use its members `m_game`, `max_clock_cycles`, `core` and the five
backing stores `RAM`, `BOARD`, `STATE`, `ROM`, `ISR`. The CPU core is external
and not a field here; `out` collects the lines printed so far. -/
structure Emulator (F : Type) where
  m_game : Game F
  max_clock_cycles : Nat
  RAM : List Nat
  BOARD : List Nat
  STATE : List Nat
  ROM : List Nat
  ISR : List Nat
  out : List Printed
  deriving DecidableEq, Repr

/-- `Emulator::Emulator`, up to `core.Reset()` (the CPU core is external). The
product of the two `int`s is converted to `uint32_t`. -/
def Emulator.new {F : Type} (game : Game F) (max_clock_cycles : Nat) :
    Except String (Emulator F) :=
  let board_size : Nat := ((game.board_width * game.board_height) % 2 ^ 32).toNat
  if board_size > 0x1000 then
    .error "Board memory size exceeds 0x1000."
  else
    let RAM := List.replicate 0x4000 0
    let BOARD := List.replicate board_size 0
    let STATE := List.replicate 3 0
    let ISR := List.replicate 0x10 0
    let ISR := (ISR.set 0xB 0x80).set 0xA 0x00
    let ISR := (ISR.set 0xD 0x80).set 0xC 0x00
    let ISR := (ISR.set 0xF 0x80).set 0xE 0x00
    .ok { m_game := game, max_clock_cycles := max_clock_cycles, RAM := RAM, BOARD := BOARD,
          STATE := STATE, ROM := [], ISR := ISR, out := [] }

/-- `Emulator::load_rom`, with the file given by its content (`none`: the file
cannot be opened). -/
def Emulator.load_rom {F : Type} (th : Emulator F) (file : Option (List Nat)) :
    Except String (Emulator F) :=
  match file with
  | none => .error "Failed to open file"
  | some bytes =>
    if bytes.length > 32752 then .error "File too large. Max size is 32,752 bytes"
    else .ok { th with ROM := bytes }

/-- Lines 113-121 of `Emulator::cycle`: decode the direction register. -/
def decodeDirection (dir : Nat) : Direction :=
  if dir &&& TILE_DIRECTIN_LEFT ≠ 0 then .DIR_LEFT
  else if dir &&& TILE_DIRECTIN_UP ≠ 0 then .DIR_UP
  else if dir &&& TILE_DIRECTIN_DOWN ≠ 0 then .DIR_DOWN
  else .DIR_RIGHT

/-- The board index `p.x + p.y * board_width` of a position. -/
def cellIndex (board_width : Int) (p : GameVec2) : Int :=
  p.x + p.y * board_width

/-- `BOARD[index] = value` for an `int index`; outside the vector the source
has undefined behaviour. -/
def storeAt (board : List Nat) (index : Int) (value : Nat) : Option (List Nat) :=
  if 0 ≤ index ∧ index < board.length then some (board.set index.toNat value) else none

/-- `BOARD[index] |= bits` for an `int index`. -/
def orAt (board : List Nat) (index : Int) (bits : Nat) : Option (List Nat) :=
  if 0 ≤ index ∧ index < board.length then
    some (board.set index.toNat (board.getD index.toNat 0 ||| bits))
  else none

/-- Lines 149-165 of `Emulator::setup_state`. -/
def headDir (d : Direction) : Nat :=
  match d with
  | .DIR_UP => TILE_DIRECTIN_UP
  | .DIR_DOWN => TILE_DIRECTIN_DOWN
  | .DIR_LEFT => TILE_DIRECTIN_LEFT
  | .DIR_RIGHT => TILE_DIRECTIN_RIGHT

/-- One iteration of the loop of lines 169-186, for segment `i`. -/
def dirStep (board_width : Int) (snake : List GameVec2) (board : List Nat) (i : Nat) :
    Option (List Nat) := do
  let index := cellIndex board_width (snake.getD i origin)
  let dx := (snake.getD i origin).x - (snake.getD (i - 1) origin).x
  let dy := (snake.getD i origin).y - (snake.getD (i - 1) origin).y
  let board ← (if dx < 0 then orAt board index TILE_DIRECTIN_RIGHT else some board)
  let board ← (if dx > 0 then orAt board index TILE_DIRECTIN_LEFT else some board)
  let board ← (if dy < 0 then orAt board index TILE_DIRECTIN_DOWN else some board)
  let board ← (if dy > 0 then orAt board index TILE_DIRECTIN_UP else some board)
  some board

/-- `Emulator::setup_state`; `none` where the source indexes a vector outside
its bounds (empty snake, or a cell index outside `BOARD`). -/
def Emulator.setup_state {F : Type} (th : Emulator F) (state : GameState F) :
    Option (Emulator F) := do
  let w := th.m_game.board_width
  let board := List.replicate th.BOARD.length 0
  let board ← storeAt board (cellIndex w state.food) TILE_TYPE_FOOD
  let _ ← (if state.snake.length = 0 then none else some ())
  let end_ := state.snake.length - 1
  let board ← storeAt board (cellIndex w (state.snake.getD 0 origin)) TILE_TYPE_SNAKE_HEAD
  let board ← storeAt board (cellIndex w (state.snake.getD end_ origin)) TILE_TYPE_SNAKE_TAIL
  let board ← (List.range' 1 (state.snake.length - 2)).foldlM
    (fun board i => storeAt board (cellIndex w (state.snake.getD i origin)) TILE_TYPE_SNAKE_BODY)
    board
  let head_dir := headDir state.snakeDirection
  let board ← orAt board (cellIndex w (state.snake.getD 0 origin)) head_dir
  let board ← (List.range' 1 (state.snake.length - 1)).foldlM (dirStep w state.snake) board
  let STATE ← storeAt th.STATE STATE_CONTROL 0
  some { th with BOARD := board, STATE := STATE }

/-- `Emulator::BusWrite`. -/
def Emulator.BusWrite {F : Type} (th : Emulator F) (addr value : Nat) : Emulator F :=
  if addr < th.RAM.length + 0x0000 then
    { th with RAM := th.RAM.set (addr - 0x0000) value }
  else if addr ≥ 0x5000 ∧ addr < th.STATE.length + 0x5000 then
    let th := { th with STATE := th.STATE.set (addr - 0x5000) value }
    if addr = 0x5002 then { th with out := th.out ++ [Printed.dbg value] } else th
  else if addr ≥ 0xFFF0 ∧ addr < th.ISR.length + 0xFFF0 then
    { th with ISR := th.ISR.set (addr - 0xFFF0) value }
  else
    { th with out := th.out ++ [Printed.oobWrite addr value] }

/-- `Emulator::BusRead`: the byte returned and the emulator afterwards. -/
def Emulator.BusRead {F : Type} (th : Emulator F) (addr : Nat) : Nat × Emulator F :=
  if addr < th.RAM.length + 0x0000 then
    (th.RAM.getD (addr - 0x0000) 0, th)
  else if addr ≥ 0x4000 ∧ addr < th.BOARD.length + 0x4000 then
    (th.BOARD.getD (addr - 0x4000) 0, th)
  else if addr ≥ 0x5000 ∧ addr < th.STATE.length + 0x5000 then
    (th.STATE.getD (addr - 0x5000) 0, th)
  else if addr ≥ 0x8000 ∧ addr < th.ROM.length + 0x8000 then
    (th.ROM.getD (addr - 0x8000) 0, th)
  else if addr ≥ 0xFFF0 ∧ addr < th.ISR.length + 0xFFF0 then
    (th.ISR.getD (addr - 0xFFF0) 0, th)
  else
    (0, { th with out := th.out ++ [Printed.oobRead addr] })

/-- Lines 112-123 of `Emulator::cycle`: decode the direction register and
submit the direction to `Game::tick` of the shared game. -/
def Emulator.submitDirection {F : Type} (ops : DoubleOps F) (th : Emulator F)
    (rng : RngOutcome) : Option (Bool × Emulator F) :=
  let dir := th.STATE.getD STATE_SNAKE_DIRECTION 0
  let new_dir := decodeDirection dir
  (th.m_game.tick ops rng new_dir).map (fun r => (r.1, { th with m_game := r.2 }))

/-- Modelled from the spec: the CPU execution core (`core`, the external
`mos6502` interpreter) is a black box with the operations `Run` and `IRQ`. It
has a state of its own (`C`) and reaches the emulator only through the bus
callbacks; `Run(1, cycles, CYCLE_COUNT)` also updates the cycle counter it is
passed by reference: `Run` returns the value it computes for the counter, and
`coreStep` stores it in the 64-bit variable. Any function of the emulator
covers what a sequence of bus reads and writes can do. -/
structure Core (C F : Type) where
  Run : C → Emulator F → Nat → C × Emulator F × Nat
  IRQ : C → Emulator F → Bool → C × Emulator F

/-- Lines 98-100 of `Emulator::cycle`, one pass through the loop body up to the
DONE test: `core.Run(1, iteration_clock_cycles, CYCLE_COUNT)` and
`core.IRQ(!(STATE[STATE_CONTROL] & STATE_IRQ))`. The state is the core, the
emulator and `iteration_clock_cycles`. The counter is a 64-bit unsigned
variable passed by reference: what the core leaves in it is reduced modulo
`2 ^ 64`. -/
def coreStep {C F : Type} (core : Core C F) (s : C × Emulator F × Nat) : C × Emulator F × Nat :=
  let r := core.Run s.1 s.2.1 s.2.2
  let q := core.IRQ r.1 r.2.1 (!(decide (r.2.1.STATE.getD STATE_CONTROL 0 &&& STATE_IRQ ≠ 0)))
  (q.1, q.2, r.2.2 % 2 ^ 64)

/-- The `while` loop of lines 97-106 of `Emulator::cycle`, with fuel: `none`
when the fuel runs out before the loop ends. -/
def cycleLoop {C F : Type} (core : Core C F) (max_clock_cycles : Nat) :
    Nat → C × Emulator F × Nat → Option (C × Emulator F × Nat)
  | 0, _ => none
  | fuel + 1, s =>
    if s.2.2 < max_clock_cycles then
      if (coreStep core s).2.1.STATE.getD STATE_CONTROL 0 &&& STATE_DONE ≠ 0 then
        some (coreStep core s)
      else
        cycleLoop core max_clock_cycles fuel (coreStep core s)
    else
      some s

/-- `Emulator::cycle`: the flag returned, the core and the emulator afterwards
(the shared game included). `none` where `setup_state` or `Game::tick` are
undefined, or when the fuel does not suffice for the loop. The sum of line 108
is taken in 64-bit unsigned arithmetic. -/
def Emulator.cycle {C F : Type} (ops : DoubleOps F) (core : Core C F) (fuel : Nat) (c : C)
    (th : Emulator F) (rng : RngOutcome) : Option (Bool × C × Emulator F) := do
  let state := th.m_game.state
  let th ← th.setup_state state
  let STATE ← storeAt th.STATE STATE_CONTROL STATE_IRQ
  let th := { th with STATE := STATE }
  let state := { state with iteration_clock_cycles := 0 }
  let s ← cycleLoop core th.max_clock_cycles fuel (c, th, state.iteration_clock_cycles)
  let state := { state with iteration_clock_cycles := s.2.2 }
  let state := { state with
    total_clock_cycles := (state.total_clock_cycles + state.iteration_clock_cycles) % 2 ^ 64 }
  let th := { s.2.1 with m_game := { s.2.1.m_game with state := state } }
  let r ← th.submitDirection ops rng
  some (r.1, s.1, r.2)

/-- The core, emulator and cycle counter after `k` passes through the loop
body, whatever the loop tests say. -/
def coreTrace {C F : Type} (core : Core C F) (s : C × Emulator F × Nat) (k : Nat) :
    C × Emulator F × Nat :=
  (coreStep core)^[k] s

/-- A core that spends three cycles per step and never touches the bus. -/
def idleCore : Core Unit DExpr where
  Run := fun c th cycles => (c, th, cycles + 3)
  IRQ := fun c th _ => (c, th)

/-- A core that spends two cycles per step and never touches the bus. -/
def evenCore : Core Unit DExpr where
  Run := fun c th cycles => (c, th, cycles + 2)
  IRQ := fun c th _ => (c, th)

/-- A core whose step writes the byte `b` to the direction register `0x5001`
and then DONE to the control register `0x5000`, through the bus, in eight
cycles. -/
def steerCore (b : Nat) : Core Unit DExpr where
  Run := fun c th cycles => (c, (th.BusWrite 0x5001 b).BusWrite 0x5000 STATE_DONE, cycles + 8)
  IRQ := fun c th _ => (c, th)

/-! ## Derived definitions: store sizes, cells, and the encoder as a pure function -/

/-- The sizes the backing stores have after `Emulator::Emulator` and
`Emulator::load_rom`, which no other operation changes. -/
structure Emulator.Sized {F : Type} (th : Emulator F) : Prop where
  ram : th.RAM.length = 0x4000
  board : th.BOARD.length ≤ 0x1000
  state : th.STATE.length = 3
  rom : th.ROM.length ≤ 32752
  isr : th.ISR.length = 0x10

/-- A position inside the board `[0, w) x [0, h)`. -/
def inBoard (w h : Int) (p : GameVec2) : Prop :=
  (0 ≤ p.x ∧ p.x < w) ∧ (0 ≤ p.y ∧ p.y < h)

instance (w h : Int) (p : GameVec2) : Decidable (inBoard w h p) := by
  unfold inBoard; infer_instance

/-- The byte of the board snapshot at the cell of position `p`, index
`p.x + p.y * board_width`. -/
def Emulator.cellAt {F : Type} (th : Emulator F) (p : GameVec2) : Nat :=
  th.BOARD.getD (cellIndex th.m_game.board_width p).toNat 0

/-- The direction bits one iteration of lines 171-185 ORs into a cell. -/
def dirBits (dx dy : Int) : Nat :=
  (if dx < 0 then TILE_DIRECTIN_RIGHT else 0) ||| (if dx > 0 then TILE_DIRECTIN_LEFT else 0) |||
    (if dy < 0 then TILE_DIRECTIN_DOWN else 0) ||| (if dy > 0 then TILE_DIRECTIN_UP else 0)

/-- `BOARD[k] |= bits` for an index inside the vector. -/
def orCell (board : List Nat) (k bits : Nat) : List Nat :=
  board.set k (board.getD k 0 ||| bits)

/-- The board `Emulator::setup_state` leaves when every index it computes is
inside the vector: the stores of lines 128-186 in order, on a board of `N`
bytes. -/
def encodedBoard (w : Int) (N : Nat) (snake : List GameVec2) (food : GameVec2)
    (d : Direction) : List Nat :=
  let c := fun i : Nat => (cellIndex w (snake.getD i origin)).toNat
  let b := List.replicate N 0
  let b := b.set (cellIndex w food).toNat TILE_TYPE_FOOD
  let b := b.set (c 0) TILE_TYPE_SNAKE_HEAD
  let b := b.set (c (snake.length - 1)) TILE_TYPE_SNAKE_TAIL
  let b := (List.range' 1 (snake.length - 2)).foldl (fun b i => b.set (c i) TILE_TYPE_SNAKE_BODY) b
  let b := orCell b (c 0) (headDir d)
  (List.range' 1 (snake.length - 1)).foldl (fun b i => orCell b (c i)
    (dirBits ((snake.getD i origin).x - (snake.getD (i - 1) origin).x)
      ((snake.getD i origin).y - (snake.getD (i - 1) origin).y))) b

/-- The tile type stored last at the cell of segment `m` of a snake of `n`
segments: body for `1 ≤ m ≤ n-2`, else tail for `m = n-1`, else head. -/
def segType (n m : Nat) : Nat :=
  if 1 ≤ m ∧ m + 1 < n then TILE_TYPE_SNAKE_BODY
  else if m + 1 = n then TILE_TYPE_SNAKE_TAIL
  else TILE_TYPE_SNAKE_HEAD

/-- The direction bits ORed into the cell of segment `m`. -/
def segBits (snake : List GameVec2) (d : Direction) (m : Nat) : Nat :=
  if m = 0 then headDir d
  else dirBits ((snake.getD m origin).x - (snake.getD (m - 1) origin).x)
    ((snake.getD m origin).y - (snake.getD (m - 1) origin).y)

/-! ## The spec's wording of the heading rule and of the direction bits -/

/-- The spec's "exact opposite" of two headings: UP/DOWN and LEFT/RIGHT. -/
def specOpposite (d h : Direction) : Bool :=
  match d, h with
  | .DIR_UP, .DIR_DOWN => true
  | .DIR_DOWN, .DIR_UP => true
  | .DIR_LEFT, .DIR_RIGHT => true
  | .DIR_RIGHT, .DIR_LEFT => true
  | _, _ => false

/-- The spec's effective heading: the current one when the request is its
exact opposite, the request otherwise. -/
def specHeading (h d : Direction) : Direction :=
  if specOpposite d h then h else d

/-- The spec's one-cell move: LEFT `x-1`, RIGHT `x+1`, UP `y-1`, DOWN `y+1`. -/
def specMove (e : Direction) (p : GameVec2) : GameVec2 :=
  match e with
  | .DIR_LEFT => ⟨p.x - 1, p.y⟩
  | .DIR_RIGHT => ⟨p.x + 1, p.y⟩
  | .DIR_UP => ⟨p.x, p.y - 1⟩
  | .DIR_DOWN => ⟨p.x, p.y + 1⟩

/-- The spec's direction bitmask: LEFT `0x1`, RIGHT `0x2`, UP `0x4`, DOWN `0x8`. -/
def specDirBit (d : Direction) : Nat :=
  match d with
  | .DIR_LEFT => 0x1
  | .DIR_RIGHT => 0x2
  | .DIR_UP => 0x4
  | .DIR_DOWN => 0x8

/-! ## Concrete inputs -/

/-- A 3x1 board with a two-segment snake heading right and the food on the
last free cell. -/
def wallGame : Game DExpr :=
  ⟨3, 1, ⟨[⟨1, 0⟩, ⟨0, 0⟩], .DIR_RIGHT, ⟨2, 0⟩, .zero, .half, 5, 0, 0⟩⟩

/-- A 4x4 board with a four-segment snake coiled in the top-left corner, its
head at `(0, 0)` right above its tail at `(0, 1)`. -/
def squareGame : Game DExpr :=
  ⟨4, 4, ⟨[⟨0, 0⟩, ⟨1, 0⟩, ⟨1, 1⟩, ⟨0, 1⟩], .DIR_LEFT, ⟨3, 3⟩, .zero, .half, 5, 0, 0⟩⟩

/-- A 4x4 board with a five-segment snake heading down whose head at `(1, 1)`
has segment 3 of 5 on its left, at `(0, 1)`. -/
def coilGame : Game DExpr :=
  ⟨4, 4, ⟨[⟨1, 1⟩, ⟨1, 0⟩, ⟨0, 0⟩, ⟨0, 1⟩, ⟨0, 2⟩], .DIR_DOWN, ⟨3, 3⟩, .zero, .half, 5, 0, 0⟩⟩

/-- A 4x4 board with a two-segment snake heading right and the food on the
cell in front of the head. -/
def eatGame : Game DExpr :=
  ⟨4, 4, ⟨[⟨1, 0⟩, ⟨0, 0⟩], .DIR_RIGHT, ⟨2, 0⟩, .zero, .half, 5, 0, 0⟩⟩

/-- The emulator `Emulator::Emulator` builds for `wallGame`, with a four-byte
ROM loaded. -/
def busEmu : Emulator DExpr where
  m_game := wallGame
  max_clock_cycles := 100
  RAM := List.replicate 0x4000 0
  BOARD := List.replicate 3 0
  STATE := List.replicate 3 0
  ROM := [0xA9, 0x02, 0x8D, 0x00]
  ISR := [0, 0, 0, 0, 0, 0, 0, 0, 0, 0, 0x00, 0x80, 0x00, 0x80, 0x00, 0x80]
  out := []

/-- The emulator of `squareGame` (4x4 board) with stale bytes in the board
region. -/
def encEmu : Emulator DExpr where
  m_game := squareGame
  max_clock_cycles := 100
  RAM := List.replicate 0x4000 0
  BOARD := List.replicate 16 0xFF
  STATE := [1, 4, 0]
  ROM := []
  ISR := [0, 0, 0, 0, 0, 0, 0, 0, 0, 0, 0x00, 0x80, 0x00, 0x80, 0x00, 0x80]
  out := []

/-- A 2x1 board with a one-segment snake heading right and the food on the
only other cell. -/
def tinyGame : Game DExpr :=
  ⟨2, 1, ⟨[⟨0, 0⟩], .DIR_RIGHT, ⟨1, 0⟩, .zero, .half, 0, 0, 0⟩⟩

/-- Two positions are orthogonal neighbours: their Manhattan distance is 1. -/
def adjacent (p q : GameVec2) : Prop :=
  (p.x - q.x).natAbs + (p.y - q.y).natAbs = 1

instance (p q : GameVec2) : Decidable (adjacent p q) :=
  inferInstanceAs (Decidable ((p.x - q.x).natAbs + (p.y - q.y).natAbs = 1))

/-- Geometric well-formedness of the stored state: every segment and the food
are inside the board and consecutive segments are orthogonal neighbours. -/
def Game.WellFormed {F : Type} (g : Game F) : Prop :=
  (∀ p ∈ g.state.snake, inBoard g.board_width g.board_height p) ∧
  inBoard g.board_width g.board_height g.state.food ∧
  g.state.snake.Chain' adjacent
/-- A 6x1 board, the smallest on which `Game::newState` places the whole snake
inside the board; the stored state is a placeholder that `newState` replaces. -/
def sixGame : Game DExpr :=
  ⟨6, 1, ⟨[], .DIR_UP, ⟨0, 0⟩, .zero, .zero, 0, 0, 0⟩⟩

/-- A game whose board is 65536 x 65536 cells, with an arbitrary stored state. -/
def hugeGame : Game DExpr :=
  ⟨65536, 65536, ⟨[⟨0, 0⟩], .DIR_RIGHT, ⟨1, 0⟩, .zero, .one, 0, 0, 0⟩⟩

/-- A finite binary64 number, the integer `m` times `2 ^ e`. The results of the
operations are zero (`m = 0`, `e = 0`) or normalised, `2 ^ 52 ≤ |m| < 2 ^ 53`. -/
structure Dyadic where
  m : Int
  e : Int
  deriving DecidableEq, Repr

/-- The number of binary digits of `k`, by at most `fuel` halvings. -/
def bitLengthAux : Nat → Nat → Nat
  | 0, _ => 0
  | fuel + 1, k => if k = 0 then 0 else bitLengthAux fuel (k / 2) + 1

/-- The number of binary digits of `n`. -/
def bitLength (n : Nat) : Nat := bitLengthAux n n

/-- IEEE 754 rounding of the exact value `m * 2 ^ e` to binary64: to nearest,
ties to even, on 53 significant bits. `none` stands for every result outside
the normal range: an overflow to infinity, a subnormal, and (as the result of
an operation on `none`) a NaN. -/
def roundBinary64 (m e : Int) : Option Dyadic :=
  if m = 0 then some ⟨0, 0⟩
  else
    let a := m.natAbs
    let k := bitLength a
    let r : Nat × Int :=
      if k ≤ 53 then (a * 2 ^ (53 - k), e - ((53 - k : Nat) : Int))
      else
        let s := k - 53
        let q := a / 2 ^ s
        let rest := a % 2 ^ s
        let half := 2 ^ (s - 1)
        let q := if rest > half ∨ (rest = half ∧ q % 2 = 1) then q + 1 else q
        if q = 2 ^ 53 then (2 ^ 52, e + (s : Int) + 1) else (q, e + (s : Int))
    if -1074 ≤ r.2 ∧ r.2 ≤ 971 then
      some ⟨if m < 0 then -(r.1 : Int) else (r.1 : Int), r.2⟩
    else none

/-- The binary64 sum: the exact sum, rounded once. -/
def Dyadic.add (x y : Dyadic) : Option Dyadic :=
  let e := min x.e y.e
  roundBinary64 (x.m * 2 ^ (x.e - e).toNat + y.m * 2 ^ (y.e - e).toNat) e

/-- The binary64 product: the exact product, rounded once. -/
def Dyadic.mul (x y : Dyadic) : Option Dyadic :=
  roundBinary64 (x.m * y.m) (x.e + y.e)

/-- The binary64 quotient: the integer quotient with at least 64 significant
bits and a sticky bit for a non-zero remainder, rounded once; `none` (an
infinity or a NaN) for a zero divisor. -/
def Dyadic.div (x y : Dyadic) : Option Dyadic :=
  if y.m = 0 then none
  else
    let shift := bitLength y.m.natAbs + 64
    let n := x.m.natAbs * 2 ^ shift
    let q := n / y.m.natAbs
    let sticky := if n % y.m.natAbs = 0 then 0 else 1
    let sign : Int := if (x.m < 0) = (y.m < 0) then 1 else -1
    roundBinary64 (sign * ((2 * q + sticky : Nat) : Int)) (x.e - y.e - (shift : Int) - 1)

/-- IEEE 754 binary64, the arithmetic of `double`, on explicit integers, so
that its results can be computed in a proof: `+`, `*`, `/` and the conversion
from `int` are correctly rounded, as the standard requires; `0.5` is
`2^52 * 2^-53` and `1.0` is `2^52 * 2^-52`. `std::pow` is not an operation of
the standard and its accuracy is left to the C library, so its result is a
parameter. -/
def binary64Ops (pow : Option Dyadic → Option Dyadic → Option Dyadic) :
    DoubleOps (Option Dyadic) where
  zero := some ⟨0, 0⟩
  half := some ⟨4503599627370496, -53⟩
  one := some ⟨4503599627370496, -52⟩
  add := fun a b => a.bind (fun x => b.bind (fun y => x.add y))
  mul := fun a b => a.bind (fun x => b.bind (fun y => x.mul y))
  div := fun a b => a.bind (fun x => b.bind (fun y => x.div y))
  pow := pow
  ofInt := fun i => roundBinary64 i 0

/-- A `std::pow` that returns the double `r * 2 ^ -53` for `pow(0.5, 0.2)`, the
one call a 3x2 board makes (`0.2` is the double `1.0 / 5.0`,
`0x1.999999999999ap-3`), and is undefined elsewhere. -/
def powFifth (r : Nat) (x y : Option Dyadic) : Option Dyadic :=
  if x = some ⟨4503599627370496, -53⟩ ∧ y = some ⟨7205759403792794, -55⟩ then
    some ⟨(r : Int), -53⟩
  else none

/-- The double the C library returns for `pow(0.5, 0.2)`,
`0x1.bdb8cdadbe120p-1`, as a multiple of `2 ^ -53`: the binary64 number nearest
to the fifth root of `1/2`. -/
def fifthRoot : Nat := 7841222384935200

/-- Following the spec's words: exact real arithmetic as an interpretation of
`DoubleOps`, the idealisation in which the half-life of `food_value` is exact
(`0.5` is `1/2`, `std::pow` is the real power). It is not the arithmetic of the
program, which is `binary64Ops`. -/
noncomputable def realOps : DoubleOps ℝ where
  zero := 0
  half := 1 / 2
  one := 1
  add := fun a b => a + b
  mul := fun a b => a * b
  div := fun a b => a / b
  pow := fun a b => a ^ b
  ofInt := fun i => (i : ℝ)

/-- The game `g₂` is reached from `g₁` by `n` consecutive ticks that each
return `true` without eating (the snake keeps its length), with any requested
directions and RNG outcomes. -/
inductive QuietRun {F : Type} (ops : DoubleOps F) : Nat → Game F → Game F → Prop
  | refl (g : Game F) : QuietRun ops 0 g g
  | step {n : Nat} {g g₁ g₂ : Game F} (rng : RngOutcome) (d : Direction) :
      g.tick ops rng d = some (true, g₁) →
      g₁.state.snake.length = g.state.snake.length →
      QuietRun ops n g₁ g₂ → QuietRun ops (n + 1) g g₂

/-- The factor of line 123, `std::pow(0.5, 1.0 / (w + h))`. -/
def decayFactor {F : Type} (ops : DoubleOps F) (g : Game F) : F :=
  ops.pow ops.half (ops.div ops.one (ops.add (ops.ofInt g.board_width) (ops.ofInt g.board_height)))

/-- A 3x2 board with a one-segment snake at `(0,0)` and the food, worth `1.0`, at
`(2,1)`. -/
def loopGame {F : Type} (ops : DoubleOps F) : Game F :=
  ⟨3, 2, ⟨[⟨0, 0⟩], .DIR_UP, ⟨2, 1⟩, ops.zero, ops.one, 0, 0, 0⟩⟩

/-- The game after the decay branch of `Game::tick` (lines 108, 115-126) for the
requested direction `d`; the game itself when the snake is empty. -/
def Game.decayStep {F : Type} (ops : DoubleOps F) (g : Game F) (d : Direction) : Game F :=
  match g.state.snake with
  | [] => g
  | a :: l =>
    Game.mk g.board_width g.board_height
      { g.state with
        total_ticks := g.state.total_ticks + 1
        snakeDirection := effectiveDirection g.state.snakeDirection d
        snake := moveHead (effectiveDirection g.state.snakeDirection d) a :: (a :: l).dropLast
        food_value := ops.mul g.state.food_value
          (ops.pow ops.half (ops.div ops.one
            (ops.add (ops.ofInt g.board_width) (ops.ofInt g.board_height)))) }

/-- The tests under which `Game::tick` takes the decay branch: the new head is
inside the board, on no segment of the shifted body, and not on the food. -/
def Game.quietOk {F : Type} (g : Game F) (d : Direction) : Bool :=
  match g.state.snake with
  | [] => false
  | a :: l =>
    decide (inBoard g.board_width g.board_height
        (moveHead (effectiveDirection g.state.snakeDirection d) a) ∧
      moveHead (effectiveDirection g.state.snakeDirection d) a ∉ (a :: l).dropLast ∧
      moveHead (effectiveDirection g.state.snakeDirection d) a ≠ g.state.food)

/-- The game `g` after the five quiet ticks right, down, left, up, right. -/
def Game.fiveSteps {F : Type} (ops : DoubleOps F) (g : Game F) : Game F :=
  ((((g.decayStep ops .DIR_RIGHT).decayStep ops .DIR_DOWN).decayStep ops .DIR_LEFT).decayStep
    ops .DIR_UP).decayStep ops .DIR_RIGHT

/-- Following the spec's words: the neighbouring cell in the direction of a low
nibble that carries exactly one direction bit, LEFT = `x-1`, RIGHT = `x+1`,
UP = `y-1`, DOWN = `y+1`; `none` for a nibble with no bit or several. -/
def specNeighbour (bits : Nat) (p : GameVec2) : Option GameVec2 :=
  if bits = TILE_DIRECTIN_LEFT then some ⟨p.x - 1, p.y⟩
  else if bits = TILE_DIRECTIN_RIGHT then some ⟨p.x + 1, p.y⟩
  else if bits = TILE_DIRECTIN_UP then some ⟨p.x, p.y - 1⟩
  else if bits = TILE_DIRECTIN_DOWN then some ⟨p.x, p.y + 1⟩
  else none

/-- Following the spec's words: `k` steps of following the direction bit of
the current cell of the board snapshot, starting from position `p`. -/
def followBits {F : Type} (th : Emulator F) : Nat → GameVec2 → Option GameVec2
  | 0, p => some p
  | k + 1, p => (specNeighbour (th.cellAt p % 16) p).bind (followBits th k)

/-- The emulator `encEmu` with the budget `main.cpp` uses when none is given
on the command line, `0xFFFFFFFFFFFFFFFF`. -/
def budgetEmu : Emulator DExpr :=
  { encEmu with max_clock_cycles := 0xFFFFFFFFFFFFFFFF }

/-! ## Lemmas on the game engine -/

theorem shiftLoop_length (k : Nat) (s : List GameVec2) : (shiftLoop k s).length = s.length := by
  induction k generalizing s with
  | zero => rfl
  | succ k ih => simp [shiftLoop, ih]

theorem shiftLoop_getElem? (k : Nat) (s : List GameVec2) (hk : k < s.length) (j : Nat) :
    (shiftLoop k s)[j]? = if 1 ≤ j ∧ j ≤ k then s[j - 1]? else s[j]? := by
  induction k generalizing s with
  | zero =>
    have : ¬ (1 ≤ j ∧ j ≤ 0) := by omega
    rw [shiftLoop, if_neg this]
  | succ k ih =>
    have hk' : k < (s.set (k + 1) (s.getD k origin)).length := by simp; omega
    rw [shiftLoop, ih _ hk']
    have hget : s.getD k origin = s[k] := by
      simp [List.getD_eq_getElem?_getD, List.getElem?_eq_getElem (show k < s.length by omega)]
    by_cases h1 : 1 ≤ j ∧ j ≤ k
    · have h2 : 1 ≤ j ∧ j ≤ k + 1 := by omega
      rw [if_pos h1, if_pos h2, List.getElem?_set_ne (by omega)]
    · rw [if_neg h1]
      by_cases h3 : j = k + 1
      · subst h3
        have h2 : 1 ≤ k + 1 ∧ k + 1 ≤ k + 1 := by omega
        rw [if_pos h2, List.getElem?_set_self hk, hget]
        simp [List.getElem?_eq_getElem (show k < s.length by omega)]
      · have h2 : ¬ (1 ≤ j ∧ j ≤ k + 1) := by omega
        rw [if_neg h2, List.getElem?_set_ne (by omega)]

theorem shiftBody_cons (a : GameVec2) (l : List GameVec2) :
    shiftBody (a :: l) = a :: (a :: l).dropLast := by
  unfold shiftBody
  split
  · rename_i h
    apply List.ext_getElem?
    intro j
    rw [shiftLoop_getElem? _ _ (by simp)]
    cases j with
    | zero => simp
    | succ j =>
      simp only [List.length_cons, Nat.add_sub_cancel, List.getElem?_cons_succ]
      rw [List.dropLast_eq_take]
      by_cases hj : j + 1 ≤ l.length
      · rw [if_pos ⟨by omega, hj⟩]
        simp only [List.getElem?_take]
        rw [if_pos (by simp; omega)]
      · rw [if_neg (by omega)]
        rw [List.getElem?_eq_none (by omega), List.getElem?_eq_none (by simp; omega)]
  · rename_i h
    cases l with
    | nil => simp
    | cons b l => simp at h

theorem hitsSnake_cons (a p : GameVec2) (l : List GameVec2) :
    hitsSnake (a :: l) p = true ↔ p ∈ l := by
  unfold hitsSnake
  simp only [List.any_eq_true, List.mem_range'_1, decide_eq_true_eq, List.length_cons, Nat.add_sub_cancel]
  constructor
  · rintro ⟨i, ⟨h1, h2⟩, hx, hy⟩
    obtain ⟨i, rfl⟩ : ∃ k, i = k + 1 := ⟨i - 1, by omega⟩
    have hi : i < l.length := by omega
    have : p = l[i] := by
      simp [List.getD_eq_getElem?_getD, List.getElem?_eq_getElem hi] at hx hy
      cases p; cases h : l[i]; simp_all
    rw [this]; exact List.getElem_mem hi
  · intro hp
    obtain ⟨i, hi, rfl⟩ := List.getElem_of_mem hp
    exact ⟨i + 1, by omega, by simp [List.getD_eq_getElem?_getD, List.getElem?_eq_getElem hi]⟩

theorem hitsSnake_shiftBody (a p : GameVec2) (l : List GameVec2) :
    hitsSnake (shiftBody (a :: l)) p = true ↔ p ∈ (a :: l).dropLast := by
  rw [shiftBody_cons, hitsSnake_cons]

theorem tick_cons {F : Type} (ops : DoubleOps F) (g : Game F) (rng : RngOutcome) (d : Direction)
    (a : GameVec2) (l : List GameVec2) (hs : g.state.snake = a :: l) :
    g.tick ops rng d =
      if (moveHead (effectiveDirection g.state.snakeDirection d) a).x < 0 ∨
          (moveHead (effectiveDirection g.state.snakeDirection d) a).x ≥ g.board_width ∨
          (moveHead (effectiveDirection g.state.snakeDirection d) a).y < 0 ∨
          (moveHead (effectiveDirection g.state.snakeDirection d) a).y ≥ g.board_height then
        some (false, g)
      else if moveHead (effectiveDirection g.state.snakeDirection d) a ∈ (a :: l).dropLast then
        some (false, g)
      else if (moveHead (effectiveDirection g.state.snakeDirection d) a).x = g.state.food.x ∧
          (moveHead (effectiveDirection g.state.snakeDirection d) a).y = g.state.food.y then
        some (true, Game.mk g.board_width g.board_height (g.spawnFood ops rng
          { g.state with
            total_ticks := g.state.total_ticks + 1
            snakeDirection := effectiveDirection g.state.snakeDirection d
            snake := moveHead (effectiveDirection g.state.snakeDirection d) a ::
              ((a :: l).dropLast ++ [(a :: l).getLast (List.cons_ne_nil a l)])
            score := ops.add g.state.score g.state.food_value }))
      else
        some (true, Game.mk g.board_width g.board_height
          { g.state with
            total_ticks := g.state.total_ticks + 1
            snakeDirection := effectiveDirection g.state.snakeDirection d
            snake := moveHead (effectiveDirection g.state.snakeDirection d) a :: (a :: l).dropLast
            food_value := ops.mul g.state.food_value
              (ops.pow ops.half (ops.div ops.one
                (ops.add (ops.ofInt g.board_width) (ops.ofInt g.board_height)))) }) := by
  have hlast : (a :: l).getLast? = some ((a :: l).getLast (List.cons_ne_nil a l)) :=
    List.getLast?_eq_getLast _ _
  unfold Game.tick
  simp only [hs, List.head?_cons, hlast]
  by_cases hw : (moveHead (effectiveDirection g.state.snakeDirection d) a).x < 0 ∨
          (moveHead (effectiveDirection g.state.snakeDirection d) a).x ≥ g.board_width ∨
          (moveHead (effectiveDirection g.state.snakeDirection d) a).y < 0 ∨
          (moveHead (effectiveDirection g.state.snakeDirection d) a).y ≥ g.board_height
  · rw [if_pos hw, if_pos hw]
  · rw [if_neg hw, if_neg hw]
    by_cases hh : moveHead (effectiveDirection g.state.snakeDirection d) a ∈ (a :: l).dropLast
    · rw [if_pos ((hitsSnake_shiftBody a _ l).mpr hh), if_pos hh]
    · have hh2 : ¬ hitsSnake (shiftBody (a :: l)) (moveHead (effectiveDirection g.state.snakeDirection d) a) = true :=
        fun h => hh ((hitsSnake_shiftBody a _ l).mp h)
      rw [if_neg hh2, if_neg hh]
      simp only [shiftBody_cons, List.set_cons_zero, List.cons_append]

theorem moveHead_ne (e : Direction) (a : GameVec2) : moveHead e a ≠ a := by
  cases a with
  | mk x y =>
    cases e <;> simp [moveHead]

theorem mem_openTiles (w h : Int) (snake : List GameVec2) (q : GameVec2) :
    q ∈ openTiles w h snake ↔
      (0 ≤ q.x ∧ q.x < w) ∧ (0 ≤ q.y ∧ q.y < h) ∧ q ∉ snake := by
  unfold openTiles tileFound
  simp only [List.mem_flatMap, List.mem_range, List.mem_filterMap]
  constructor
  · rintro ⟨x, hx, y, hy, hq⟩
    split at hq
    · simp at hq
    · rename_i hnf
      simp only [Option.some.injEq] at hq
      subst hq
      refine ⟨⟨by simp, by simp; omega⟩, ⟨by simp, by simp; omega⟩, ?_⟩
      intro hmem
      apply hnf
      simp only [List.any_eq_true, decide_eq_true_eq]
      exact ⟨_, hmem, rfl, rfl⟩
  · rintro ⟨⟨hx0, hx1⟩, ⟨hy0, hy1⟩, hq⟩
    refine ⟨q.x.toNat, by omega, q.y.toNat, by omega, ?_⟩
    have hx : ((q.x.toNat : Nat) : Int) = q.x := Int.toNat_of_nonneg hx0
    have hy : ((q.y.toNat : Nat) : Int) = q.y := Int.toNat_of_nonneg hy0
    rw [hx, hy]
    have : ¬ (snake.any (fun s => decide (s.x = q.x ∧ s.y = q.y)) = true) := by
      simp only [List.any_eq_true, decide_eq_true_eq, not_exists, not_and]
      intro s hs hsx hsy
      apply hq
      have : s = q := by cases s; cases q; simp_all
      rw [← this]; exact hs
    rw [if_neg this]

theorem effectiveDirection_eq_spec (h d : Direction) :
    effectiveDirection h d = specHeading h d := by
  cases h <;> cases d <;> rfl

theorem moveHead_eq_spec (e : Direction) (p : GameVec2) : moveHead e p = specMove e p := by
  cases e <;> rfl

theorem spawnFood_snake {F : Type} (ops : DoubleOps F) (g : Game F) (rng : RngOutcome)
    (s : GameState F) : (g.spawnFood ops rng s).snake = s.snake := by
  unfold Game.spawnFood
  dsimp only
  split <;> rfl

theorem spawnFood_snakeDirection {F : Type} (ops : DoubleOps F) (g : Game F) (rng : RngOutcome)
    (s : GameState F) : (g.spawnFood ops rng s).snakeDirection = s.snakeDirection := by
  unfold Game.spawnFood
  dsimp only
  split <;> rfl

theorem spawnFood_food_value {F : Type} (ops : DoubleOps F) (g : Game F) (rng : RngOutcome)
    (s : GameState F) :
    (g.spawnFood ops rng s).food_value =
      if openTiles g.board_width g.board_height s.snake = [] then s.food_value else ops.one := by
  unfold Game.spawnFood
  dsimp only
  by_cases h : openTiles g.board_width g.board_height s.snake = []
  · simp [h]
  · have h2 : ¬ (openTiles g.board_width g.board_height s.snake).length = 0 := by
      simpa [List.length_eq_zero] using h
    rw [if_neg h2, if_neg h]

/-! ## Lemmas on the emulator -/

theorem and_two_pow_ne_zero (b i : Nat) : b &&& 2 ^ i ≠ 0 ↔ b.testBit i = true := by
  constructor
  · intro h
    by_contra hb
    apply h
    apply Nat.eq_of_testBit_eq
    intro j
    rw [Nat.testBit_and, Nat.testBit_two_pow, Nat.zero_testBit]
    by_cases hij : i = j
    · subst hij; simp [hb]
    · simp [hij]
  · intro hb h
    have : (b &&& 2 ^ i).testBit i = true := by
      rw [Nat.testBit_and, Nat.testBit_two_pow, hb]; simp
    rw [h, Nat.zero_testBit] at this
    cases this

theorem new_sized {F : Type} (game : Game F) (m : Nat) (th : Emulator F)
    (h : Emulator.new game m = .ok th) : th.Sized := by
  unfold Emulator.new at h
  dsimp only at h
  split at h
  · cases h
  · rename_i hb
    cases h
    exact ⟨List.length_replicate _ _, by simpa only [List.length_replicate, not_lt] using hb,
      List.length_replicate _ _, Nat.zero_le _,
      by simp only [List.length_set, List.length_replicate]⟩

theorem load_rom_sized {F : Type} (th th' : Emulator F) (file : Option (List Nat))
    (hs : th.Sized) (h : th.load_rom file = .ok th') : th'.Sized := by
  unfold Emulator.load_rom at h
  split at h
  · cases h
  · split at h
    · cases h
    · rename_i hb
      cases h
      exact ⟨hs.ram, hs.board, hs.state, by simpa using hb, hs.isr⟩

theorem busWrite_sized {F : Type} (th : Emulator F) (a v : Nat) (hs : th.Sized) :
    (th.BusWrite a v).Sized := by
  unfold Emulator.BusWrite
  split
  · exact ⟨by simp [hs.ram], hs.board, hs.state, hs.rom, hs.isr⟩
  · split
    · split
      · exact ⟨hs.ram, hs.board, by simp [hs.state], hs.rom, hs.isr⟩
      · exact ⟨hs.ram, hs.board, by simp [hs.state], hs.rom, hs.isr⟩
    · split
      · exact ⟨hs.ram, hs.board, hs.state, hs.rom, by simp [hs.isr]⟩
      · exact ⟨hs.ram, hs.board, hs.state, hs.rom, hs.isr⟩

theorem busEmu_sized : busEmu.Sized :=
  ⟨List.length_replicate _ _, by decide, by decide, by decide, by decide⟩

theorem busEmu_eq_new :
    (Emulator.new wallGame 100).bind (fun th => th.load_rom (some [0xA9, 0x02, 0x8D, 0x00])) =
      .ok busEmu := by
  rfl

/-- The byte `Emulator::BusRead` returns, by region. -/
theorem busRead_fst {F : Type} (th : Emulator F) (a : Nat) (hs : th.Sized) :
    (th.BusRead a).1 =
      if a < 0x4000 then th.RAM.getD a 0
      else if a < 0x4000 + th.BOARD.length then th.BOARD.getD (a - 0x4000) 0
      else if 0x5000 ≤ a ∧ a ≤ 0x5002 then th.STATE.getD (a - 0x5000) 0
      else if 0x8000 ≤ a ∧ a < 0x8000 + th.ROM.length then th.ROM.getD (a - 0x8000) 0
      else if 0xFFF0 ≤ a ∧ a ≤ 0xFFFF then th.ISR.getD (a - 0xFFF0) 0
      else 0 := by
  have h1 := hs.ram
  have h2 := hs.board
  have h3 := hs.state
  have h4 := hs.rom
  have h5 := hs.isr
  unfold Emulator.BusRead
  by_cases c1 : a < 0x4000
  · rw [if_pos (by omega), if_pos c1]; rfl
  · rw [if_neg (by omega), if_neg c1]
    by_cases c2 : a < 0x4000 + th.BOARD.length
    · rw [if_pos (by omega), if_pos c2]
    · rw [if_neg (by omega), if_neg c2]
      by_cases c3 : 0x5000 ≤ a ∧ a ≤ 0x5002
      · rw [if_pos (by omega), if_pos c3]
      · rw [if_neg (by omega), if_neg c3]
        by_cases c4 : 0x8000 ≤ a ∧ a < 0x8000 + th.ROM.length
        · rw [if_pos (by omega), if_pos c4]
        · rw [if_neg (by omega), if_neg c4]
          by_cases c5 : 0xFFF0 ≤ a ∧ a ≤ 0xFFFF
          · rw [if_pos (by omega), if_pos c5]
          · rw [if_neg (by omega), if_neg c5]

/-- A read changes no backing store (it may print). -/
theorem busRead_snd {F : Type} (th : Emulator F) (a : Nat) :
    (th.BusRead a).2.RAM = th.RAM ∧ (th.BusRead a).2.BOARD = th.BOARD ∧
    (th.BusRead a).2.STATE = th.STATE ∧ (th.BusRead a).2.ROM = th.ROM ∧
    (th.BusRead a).2.ISR = th.ISR ∧ (th.BusRead a).2.m_game = th.m_game := by
  unfold Emulator.BusRead
  split_ifs <;> exact ⟨rfl, rfl, rfl, rfl, rfl, rfl⟩

theorem getD_set_self (l : List Nat) (i v : Nat) (hi : i < l.length) :
    (l.set i v).getD i 0 = v := by
  rw [List.getD_eq_getElem?_getD, List.getElem?_set_self hi]; rfl

theorem getD_set_ne (l : List Nat) (i j v : Nat) (hij : i ≠ j) :
    (l.set i v).getD j 0 = l.getD j 0 := by
  rw [List.getD_eq_getElem?_getD, List.getD_eq_getElem?_getD, List.getElem?_set_ne hij]

/-- The backing stores after `Emulator::BusWrite`, by region. -/
theorem busWrite_stores {F : Type} (th : Emulator F) (a v : Nat) (hs : th.Sized) :
    (th.BusWrite a v).RAM = (if a < 0x4000 then th.RAM.set a v else th.RAM) ∧
    (th.BusWrite a v).BOARD = th.BOARD ∧
    (th.BusWrite a v).STATE =
      (if 0x5000 ≤ a ∧ a ≤ 0x5002 then th.STATE.set (a - 0x5000) v else th.STATE) ∧
    (th.BusWrite a v).ROM = th.ROM ∧
    (th.BusWrite a v).ISR =
      (if 0xFFF0 ≤ a ∧ a ≤ 0xFFFF then th.ISR.set (a - 0xFFF0) v else th.ISR) ∧
    (th.BusWrite a v).m_game = th.m_game := by
  have h1 := hs.ram
  have h3 := hs.state
  have h5 := hs.isr
  unfold Emulator.BusWrite
  split_ifs <;> first | exact ⟨rfl, rfl, rfl, rfl, rfl, rfl⟩ | omega

/-! ## Lemmas on the board encoder -/

theorem cellIndex_range (w h : Int) (p : GameVec2) (hp : inBoard w h p) :
    0 ≤ cellIndex w p ∧ cellIndex w p < w * h := by
  obtain ⟨⟨hx0, hx1⟩, hy0, hy1⟩ := hp
  unfold cellIndex
  have hw : 0 < w := by omega
  constructor
  · have := Int.mul_nonneg hy0 (Int.le_of_lt hw)
    omega
  · have h1 : p.y * w ≤ (h - 1) * w := Int.mul_le_mul_of_nonneg_right (by omega) (Int.le_of_lt hw)
    have h2 : (h - 1) * w = w * h - w := by ring
    omega

theorem cellIndex_inj (w h : Int) (p q : GameVec2) (hp : inBoard w h p) (hq : inBoard w h q)
    (he : cellIndex w p = cellIndex w q) : p = q := by
  obtain ⟨⟨hx0, hx1⟩, -, -⟩ := hp
  obtain ⟨⟨qx0, qx1⟩, -, -⟩ := hq
  unfold cellIndex at he
  have hw : 0 < w := by omega
  have e1 : (p.x + p.y * w) % w = p.x := by
    rw [Int.add_mul_emod_self, Int.emod_eq_of_lt hx0 hx1]
  have e2 : (q.x + q.y * w) % w = q.x := by
    rw [Int.add_mul_emod_self, Int.emod_eq_of_lt qx0 qx1]
  have hx : p.x = q.x := by rw [← e1, ← e2, he]
  have hy : p.y = q.y := by
    have : p.y * w = q.y * w := by omega
    exact Int.eq_of_mul_eq_mul_right (by omega) this
  cases p; cases q; simp_all

theorem storeAt_eq (b : List Nat) (idx : Int) (v : Nat) (h0 : 0 ≤ idx)
    (h1 : idx < b.length) : storeAt b idx v = some (b.set idx.toNat v) := by
  unfold storeAt
  rw [if_pos ⟨h0, h1⟩]

theorem orAt_eq (b : List Nat) (idx : Int) (v : Nat) (h0 : 0 ≤ idx)
    (h1 : idx < b.length) : orAt b idx v = some (orCell b idx.toNat v) := by
  unfold orAt orCell
  rw [if_pos ⟨h0, h1⟩]

theorem orCell_length (b : List Nat) (k v : Nat) : (orCell b k v).length = b.length := by
  unfold orCell; simp

theorem orCell_getD_self (b : List Nat) (k v : Nat) (hk : k < b.length) :
    (orCell b k v).getD k 0 = b.getD k 0 ||| v := by
  unfold orCell
  exact getD_set_self _ _ _ hk

theorem orCell_getD_ne (b : List Nat) (k j v : Nat) (hkj : k ≠ j) :
    (orCell b k v).getD j 0 = b.getD j 0 := by
  unfold orCell
  exact getD_set_ne _ _ _ _ hkj

theorem orCell_orCell (b : List Nat) (k u v : Nat) (hk : k < b.length) :
    orCell (orCell b k u) k v = orCell b k (u ||| v) := by
  unfold orCell
  rw [getD_set_self _ _ _ hk, List.set_set, Nat.or_assoc]

theorem orCell_zero (b : List Nat) (k : Nat) (hk : k < b.length) : orCell b k 0 = b := by
  unfold orCell
  apply List.ext_getElem?
  intro j
  by_cases hj : k = j
  · subst hj
    rw [List.getElem?_set_self hk, Nat.or_zero, List.getD_eq_getElem?_getD,
      List.getElem?_eq_getElem hk]
    rfl
  · rw [List.getElem?_set_ne hj]

theorem condOr_eq (b : List Nat) (idx : Int) (c : Prop) [Decidable c] (v : Nat)
    (h0 : 0 ≤ idx) (h1 : idx < b.length) :
    (if c then orAt b idx v else some b) = some (orCell b idx.toNat (if c then v else 0)) := by
  split
  · exact orAt_eq b idx v h0 h1
  · rw [orCell_zero b _ (by omega)]

theorem dirStep_eq (w : Int) (snake : List GameVec2) (b : List Nat) (i : Nat)
    (h0 : 0 ≤ cellIndex w (snake.getD i origin))
    (h1 : cellIndex w (snake.getD i origin) < b.length) :
    dirStep w snake b i = some (orCell b (cellIndex w (snake.getD i origin)).toNat
      (dirBits ((snake.getD i origin).x - (snake.getD (i - 1) origin).x)
        ((snake.getD i origin).y - (snake.getD (i - 1) origin).y))) := by
  unfold dirStep dirBits
  simp only [Option.bind_eq_bind]
  generalize cellIndex w (snake.getD i origin) = idx at h0 h1 ⊢
  have hk : idx.toNat < b.length := by omega
  have hl : ∀ u : Nat, idx < ((orCell b idx.toNat u).length : Int) := by
    intro u; rw [orCell_length]; exact h1
  rw [condOr_eq b idx _ _ h0 h1, Option.some_bind,
    condOr_eq _ idx _ _ h0 (hl _), Option.some_bind, orCell_orCell _ _ _ _ hk,
    condOr_eq _ idx _ _ h0 (hl _), Option.some_bind, orCell_orCell _ _ _ _ hk,
    condOr_eq _ idx _ _ h0 (hl _), Option.some_bind, orCell_orCell _ _ _ _ hk]

theorem foldlM_eq_foldl (f : List Nat → Nat → Option (List Nat))
    (g : List Nat → Nat → List Nat) (N : Nat) (is : List Nat)
    (hstep : ∀ b i, i ∈ is → b.length = N → f b i = some (g b i) ∧ (g b i).length = N) :
    ∀ b : List Nat, b.length = N →
      is.foldlM f b = some (is.foldl g b) ∧ (is.foldl g b).length = N := by
  induction is with
  | nil => intro b hb; exact ⟨rfl, hb⟩
  | cons i is ih =>
    intro b hb
    obtain ⟨h1, h2⟩ := hstep b i (List.mem_cons_self _ _) hb
    have ih' := ih (fun b j hj hb => hstep b j (List.mem_cons_of_mem _ hj) hb) (g b i) h2
    rw [List.foldlM_cons, h1, List.foldl_cons]
    exact ih'

theorem getD_mem (snake : List GameVec2) (i : Nat) (hi : i < snake.length) :
    snake.getD i origin ∈ snake := by
  rw [List.getD_eq_getElem?_getD, List.getElem?_eq_getElem hi]
  exact List.getElem_mem hi

theorem setup_state_eq_encoded {F : Type} (th : Emulator F) (s : GameState F)
    (hst : 0 < th.STATE.length) (hne : s.snake ≠ [])
    (hseg : ∀ p ∈ s.snake, 0 ≤ cellIndex th.m_game.board_width p ∧
      cellIndex th.m_game.board_width p < th.BOARD.length)
    (hfood : 0 ≤ cellIndex th.m_game.board_width s.food ∧
      cellIndex th.m_game.board_width s.food < th.BOARD.length) :
    th.setup_state s = some { th with
      BOARD := encodedBoard th.m_game.board_width th.BOARD.length s.snake s.food s.snakeDirection
      STATE := th.STATE.set 0 0 } := by
  have hlen : 0 < s.snake.length := List.length_pos.mpr hne
  have hlen' : ¬ s.snake.length = 0 := by omega
  have hc : ∀ i, i < s.snake.length →
      0 ≤ cellIndex th.m_game.board_width (s.snake.getD i origin) ∧
      cellIndex th.m_game.board_width (s.snake.getD i origin) < th.BOARD.length :=
    fun i hi => hseg _ (getD_mem _ _ hi)
  have hN : ∀ b : List Nat, b.length = th.BOARD.length → ∀ i, i < s.snake.length →
      0 ≤ cellIndex th.m_game.board_width (s.snake.getD i origin) ∧
      cellIndex th.m_game.board_width (s.snake.getD i origin) < (b.length : Int) := by
    intro b hb i hi; rw [hb]; exact hc i hi
  -- the stores of the tile types
  have hb0 : (List.replicate th.BOARD.length 0).length = th.BOARD.length :=
    List.length_replicate _ _
  have e1 := storeAt_eq (List.replicate th.BOARD.length 0)
    (cellIndex th.m_game.board_width s.food) TILE_TYPE_FOOD hfood.1 (by rw [hb0]; exact hfood.2)
  generalize hB1 : (List.replicate th.BOARD.length 0).set
    (cellIndex th.m_game.board_width s.food).toNat TILE_TYPE_FOOD = B1 at e1
  have hb1 : B1.length = th.BOARD.length := by rw [← hB1, List.length_set, hb0]
  have e2 := storeAt_eq B1 (cellIndex th.m_game.board_width (s.snake.getD 0 origin))
    TILE_TYPE_SNAKE_HEAD (hN B1 hb1 0 hlen).1 (hN B1 hb1 0 hlen).2
  generalize hB2 : B1.set (cellIndex th.m_game.board_width (s.snake.getD 0 origin)).toNat
    TILE_TYPE_SNAKE_HEAD = B2 at e2
  have hb2 : B2.length = th.BOARD.length := by rw [← hB2, List.length_set, hb1]
  have e3 := storeAt_eq B2
    (cellIndex th.m_game.board_width (s.snake.getD (s.snake.length - 1) origin))
    TILE_TYPE_SNAKE_TAIL (hN B2 hb2 _ (by omega)).1 (hN B2 hb2 _ (by omega)).2
  generalize hB3 : B2.set
    (cellIndex th.m_game.board_width (s.snake.getD (s.snake.length - 1) origin)).toNat
    TILE_TYPE_SNAKE_TAIL = B3 at e3
  have hb3 : B3.length = th.BOARD.length := by rw [← hB3, List.length_set, hb2]
  have e4 := foldlM_eq_foldl
    (fun board i => storeAt board (cellIndex th.m_game.board_width (s.snake.getD i origin))
      TILE_TYPE_SNAKE_BODY)
    (fun b i => b.set (cellIndex th.m_game.board_width (s.snake.getD i origin)).toNat
      TILE_TYPE_SNAKE_BODY)
    th.BOARD.length (List.range' 1 (s.snake.length - 2))
    (by
      intro b i hi hb
      rw [List.mem_range'_1] at hi
      have hr := hN b hb i (by omega)
      exact ⟨storeAt_eq b _ _ hr.1 hr.2, by rw [List.length_set, hb]⟩)
    B3 hb3
  generalize hB4 : (List.range' 1 (s.snake.length - 2)).foldl
    (fun b i => b.set (cellIndex th.m_game.board_width (s.snake.getD i origin)).toNat
      TILE_TYPE_SNAKE_BODY) B3 = B4 at e4
  obtain ⟨e4, hb4⟩ := e4
  have e5 := orAt_eq B4 (cellIndex th.m_game.board_width (s.snake.getD 0 origin))
    (headDir s.snakeDirection) (hN B4 hb4 0 hlen).1 (hN B4 hb4 0 hlen).2
  generalize hB5 : orCell B4 (cellIndex th.m_game.board_width (s.snake.getD 0 origin)).toNat
    (headDir s.snakeDirection) = B5 at e5
  have hb5 : B5.length = th.BOARD.length := by rw [← hB5, orCell_length, hb4]
  have e6 := foldlM_eq_foldl (dirStep th.m_game.board_width s.snake)
    (fun b i => orCell b (cellIndex th.m_game.board_width (s.snake.getD i origin)).toNat
      (dirBits ((s.snake.getD i origin).x - (s.snake.getD (i - 1) origin).x)
        ((s.snake.getD i origin).y - (s.snake.getD (i - 1) origin).y)))
    th.BOARD.length (List.range' 1 (s.snake.length - 1))
    (by
      intro b i hi hb
      rw [List.mem_range'_1] at hi
      have hr := hN b hb i (by omega)
      exact ⟨dirStep_eq _ _ b i hr.1 hr.2, by rw [orCell_length, hb]⟩)
    B5 hb5
  have e7 := storeAt_eq th.STATE (STATE_CONTROL : Nat) 0 (by simp [STATE_CONTROL])
    (by simp only [STATE_CONTROL]; omega)
  unfold Emulator.setup_state encodedBoard
  simp only [Option.bind_eq_bind]
  rw [e1, Option.some_bind, if_neg hlen', Option.some_bind, e2, Option.some_bind, e3,
    Option.some_bind, e4, Option.some_bind, e5, Option.some_bind, e6.1, Option.some_bind, e7,
    Option.some_bind, hB1, hB2, hB3, hB4, hB5]
  rfl

theorem foldl_set_length (c : Nat → Nat) (v : Nat) (is : List Nat) (b : List Nat) :
    (is.foldl (fun b i => b.set (c i) v) b).length = b.length := by
  induction is generalizing b with
  | nil => rfl
  | cons i is ih => rw [List.foldl_cons, ih, List.length_set]

theorem foldl_set_getD_not_mem (c : Nat → Nat) (v : Nat) (is : List Nat) (b : List Nat)
    (j : Nat) (h : ∀ i ∈ is, c i ≠ j) :
    (is.foldl (fun b i => b.set (c i) v) b).getD j 0 = b.getD j 0 := by
  induction is generalizing b with
  | nil => rfl
  | cons i is ih =>
    rw [List.foldl_cons, ih _ (fun i' hi' => h i' (List.mem_cons_of_mem _ hi')),
      getD_set_ne _ _ _ _ (h i (List.mem_cons_self _ _))]

theorem foldl_set_getD_mem (c : Nat → Nat) (v : Nat) (is : List Nat) (b : List Nat)
    (j : Nat) (hj : j < b.length) (h : ∃ i ∈ is, c i = j) :
    (is.foldl (fun b i => b.set (c i) v) b).getD j 0 = v := by
  induction is generalizing b with
  | nil => obtain ⟨i, hi, -⟩ := h; cases hi
  | cons i is ih =>
    rw [List.foldl_cons]
    by_cases h' : ∃ i' ∈ is, c i' = j
    · exact ih _ (by rw [List.length_set]; exact hj) h'
    · have hall : ∀ i' ∈ is, c i' ≠ j := fun i' hi' he => h' ⟨i', hi', he⟩
      obtain ⟨i0, hi0, he0⟩ := h
      have hci : c i = j := by
        rcases List.mem_cons.mp hi0 with e | e
        · rw [← e]; exact he0
        · exact absurd he0 (hall i0 e)
      rw [foldl_set_getD_not_mem c v is _ j hall, hci]
      exact getD_set_self _ _ _ hj

theorem foldl_orCell_length (c bits : Nat → Nat) (is : List Nat) (b : List Nat) :
    (is.foldl (fun b i => orCell b (c i) (bits i)) b).length = b.length := by
  induction is generalizing b with
  | nil => rfl
  | cons i is ih => rw [List.foldl_cons, ih, orCell_length]

theorem foldl_orCell_getD_not_mem (c bits : Nat → Nat) (is : List Nat) (b : List Nat)
    (j : Nat) (h : ∀ i ∈ is, c i ≠ j) :
    (is.foldl (fun b i => orCell b (c i) (bits i)) b).getD j 0 = b.getD j 0 := by
  induction is generalizing b with
  | nil => rfl
  | cons i is ih =>
    rw [List.foldl_cons, ih _ (fun i' hi' => h i' (List.mem_cons_of_mem _ hi')),
      orCell_getD_ne _ _ _ _ (h i (List.mem_cons_self _ _))]

theorem foldl_orCell_getD_unique (c bits : Nat → Nat) (is : List Nat) (b : List Nat)
    (m : Nat) (hm : m ∈ is) (hnd : is.Nodup) (hu : ∀ i ∈ is, c i = c m → i = m)
    (hlt : c m < b.length) :
    (is.foldl (fun b i => orCell b (c i) (bits i)) b).getD (c m) 0 =
      b.getD (c m) 0 ||| bits m := by
  induction is generalizing b with
  | nil => cases hm
  | cons i is ih =>
    rw [List.foldl_cons]
    rw [List.nodup_cons] at hnd
    by_cases him : i = m
    · subst him
      have hall : ∀ i' ∈ is, c i' ≠ c i := by
        intro i' hi' he
        have := hu i' (List.mem_cons_of_mem _ hi') he
        rw [this] at hi'
        exact hnd.1 hi'
      rw [foldl_orCell_getD_not_mem c bits is _ _ hall, orCell_getD_self _ _ _ hlt]
    · have hm' : m ∈ is := by
        rcases List.mem_cons.mp hm with e | e
        · exact absurd e.symm him
        · exact e
      have hne : c i ≠ c m := fun he => him (hu i (List.mem_cons_self _ _) he)
      rw [ih _ hm' hnd.2 (fun i' hi' => hu i' (List.mem_cons_of_mem _ hi'))
        (by rw [orCell_length]; exact hlt), orCell_getD_ne _ _ _ _ hne]

theorem getD_replicate_zero (N j : Nat) : (List.replicate N 0).getD j 0 = 0 := by
  rw [List.getD_eq_getElem?_getD]
  by_cases h : j < N
  · rw [List.getElem?_eq_getElem (by simpa using h)]; simp
  · rw [List.getElem?_eq_none (by simpa using h)]; rfl

theorem getD_inj_of_nodup (snake : List GameVec2) (hnd : snake.Nodup) (i j : Nat)
    (hi : i < snake.length) (hj : j < snake.length)
    (he : snake.getD i origin = snake.getD j origin) : i = j := by
  rw [List.getD_eq_getElem?_getD, List.getD_eq_getElem?_getD, List.getElem?_eq_getElem hi,
    List.getElem?_eq_getElem hj] at he
  exact (List.Nodup.getElem_inj_iff hnd).mp he

theorem cell_lt (w h : Int) (N : Nat) (hN : (N : Int) = w * h) (snake : List GameVec2)
    (hin : ∀ p ∈ snake, inBoard w h p) (i : Nat) (hi : i < snake.length) :
    (cellIndex w (snake.getD i origin)).toNat < N := by
  have := cellIndex_range w h _ (hin _ (getD_mem snake i hi))
  omega

theorem cell_inj (w h : Int) (snake : List GameVec2) (hnd : snake.Nodup)
    (hin : ∀ p ∈ snake, inBoard w h p) (i j : Nat) (hi : i < snake.length)
    (hj : j < snake.length)
    (he : (cellIndex w (snake.getD i origin)).toNat = (cellIndex w (snake.getD j origin)).toNat) :
    i = j := by
  have h1 := cellIndex_range w h _ (hin _ (getD_mem snake i hi))
  have h2 := cellIndex_range w h _ (hin _ (getD_mem snake j hj))
  have he' : cellIndex w (snake.getD i origin) = cellIndex w (snake.getD j origin) := by omega
  exact getD_inj_of_nodup snake hnd i j hi hj
    (cellIndex_inj w h _ _ (hin _ (getD_mem snake i hi)) (hin _ (getD_mem snake j hj)) he')

theorem encodedBoard_length (w : Int) (N : Nat) (snake : List GameVec2) (food : GameVec2)
    (d : Direction) : (encodedBoard w N snake food d).length = N := by
  unfold encodedBoard
  simp only [foldl_orCell_length, orCell_length, foldl_set_length, List.length_set,
    List.length_replicate]

theorem encodedBoard_segment (w h : Int) (N : Nat) (hN : (N : Int) = w * h)
    (snake : List GameVec2) (food : GameVec2) (d : Direction) (hnd : snake.Nodup)
    (hin : ∀ p ∈ snake, inBoard w h p) (m : Nat) (hm : m < snake.length) :
    (encodedBoard w N snake food d).getD (cellIndex w (snake.getD m origin)).toNat 0 =
      segType snake.length m ||| segBits snake d m := by
  have hlt := cell_lt w h N hN snake hin
  have hinj := cell_inj w h snake hnd hin
  have hl1 : ((List.replicate N 0).set (cellIndex w food).toNat TILE_TYPE_FOOD).length = N := by
    rw [List.length_set, List.length_replicate]
  unfold encodedBoard segType segBits
  dsimp only
  generalize hB1 : (List.replicate N 0).set (cellIndex w food).toNat TILE_TYPE_FOOD = B1 at hl1
  by_cases hm0 : m = 0
  · subst hm0
    rw [if_neg (by omega), if_pos rfl]
    rw [foldl_orCell_getD_not_mem (fun i => (cellIndex w (snake.getD i origin)).toNat) _ _ _ _
      (by
        intro i hi he
        rw [List.mem_range'_1] at hi
        have := hinj i 0 (by omega) hm he
        omega)]
    rw [orCell_getD_self _ _ _ (by
      rw [foldl_set_length, List.length_set, List.length_set, hl1]; exact hlt 0 hm)]
    rw [foldl_set_getD_not_mem (fun i => (cellIndex w (snake.getD i origin)).toNat) _ _ _ _
      (by
        intro i hi he
        rw [List.mem_range'_1] at hi
        have := hinj i 0 (by omega) hm he
        omega)]
    by_cases hn1 : 0 + 1 = snake.length
    · rw [if_pos hn1]
      have : snake.length - 1 = 0 := by omega
      rw [this, getD_set_self _ _ _ (by rw [List.length_set, hl1]; exact hlt 0 hm)]
    · rw [if_neg hn1]
      rw [getD_set_ne _ _ _ _ (by
        intro he
        have := hinj (snake.length - 1) 0 (by omega) hm he
        omega)]
      rw [getD_set_self _ _ _ (by rw [hl1]; exact hlt 0 hm)]
  · rw [if_neg hm0]
    rw [foldl_orCell_getD_unique (fun i => (cellIndex w (snake.getD i origin)).toNat)
      (fun i => dirBits ((snake.getD i origin).x - (snake.getD (i - 1) origin).x)
        ((snake.getD i origin).y - (snake.getD (i - 1) origin).y))
      (List.range' 1 (snake.length - 1)) _ m
      (by rw [List.mem_range'_1]; omega) (List.nodup_range' _ _)
      (by
        intro i hi he
        rw [List.mem_range'_1] at hi
        exact hinj i m (by omega) hm he)
      (by
        rw [orCell_length, foldl_set_length, List.length_set, List.length_set, hl1]
        exact hlt m hm)]
    congr 1
    rw [orCell_getD_ne _ _ _ _ (by
      intro he
      exact hm0 (hinj 0 m (by omega) hm he).symm)]
    by_cases hb : 1 ≤ m ∧ m + 1 < snake.length
    · rw [if_pos hb]
      exact foldl_set_getD_mem (fun i => (cellIndex w (snake.getD i origin)).toNat) _ _ _ _
        (by rw [List.length_set, List.length_set, hl1]; exact hlt m hm)
        ⟨m, by rw [List.mem_range'_1]; omega, rfl⟩
    · rw [if_neg hb, if_pos (by omega)]
      rw [foldl_set_getD_not_mem (fun i => (cellIndex w (snake.getD i origin)).toNat) _ _ _ _
        (by
          intro i hi he
          rw [List.mem_range'_1] at hi
          have := hinj i m (by omega) hm he
          omega)]
      have : snake.length - 1 = m := by omega
      rw [this, getD_set_self _ _ _ (by rw [List.length_set, hl1]; exact hlt m hm)]

theorem encodedBoard_off_snake (w : Int) (N : Nat) (snake : List GameVec2) (food : GameVec2)
    (d : Direction) (j : Nat) (hn : 0 < snake.length)
    (hj : ∀ i, i < snake.length → (cellIndex w (snake.getD i origin)).toNat ≠ j) :
    (encodedBoard w N snake food d).getD j 0 =
      if (cellIndex w food).toNat = j ∧ j < N then TILE_TYPE_FOOD else 0 := by
  unfold encodedBoard
  dsimp only
  · rw [foldl_orCell_getD_not_mem (fun i => (cellIndex w (snake.getD i origin)).toNat) _ _ _ _
      (by
        intro i hi
        rw [List.mem_range'_1] at hi
        exact hj i (by omega))]
    rw [orCell_getD_ne _ _ _ _ (hj 0 (by omega))]
    rw [foldl_set_getD_not_mem (fun i => (cellIndex w (snake.getD i origin)).toNat) _ _ _ _
      (by
        intro i hi
        rw [List.mem_range'_1] at hi
        exact hj i (by omega))]
    rw [getD_set_ne _ _ _ _ (hj _ (by omega)), getD_set_ne _ _ _ _ (hj 0 (by omega))]
    by_cases hf : (cellIndex w food).toNat = j ∧ j < N
    · rw [if_pos hf, hf.1]
      exact getD_set_self _ _ _ (by rw [List.length_replicate]; exact hf.2)
    · rw [if_neg hf]
      by_cases hf' : (cellIndex w food).toNat = j
      · have : ¬ j < N := fun h => hf ⟨hf', h⟩
        rw [List.getD_eq_getElem?_getD, List.getElem?_eq_none
          (by rw [List.length_set, List.length_replicate]; omega)]
        rfl
      · rw [getD_set_ne _ _ _ _ hf', getD_replicate_zero]

theorem encEmu_sized : encEmu.Sized :=
  ⟨List.length_replicate _ _, by decide, by decide, by decide, by decide⟩

theorem type_or_bits_div (t b : Nat) (ht : t = 16 ∨ t = 32 ∨ t = 48) (hb : b < 16) :
    (t ||| b) / 16 = t / 16 ∧ (t ||| b) % 16 = b := by
  have h16 : ∀ b : Fin 16, ((16 ||| b.val) / 16 = 1 ∧ (16 ||| b.val) % 16 = b.val) ∧
      ((32 ||| b.val) / 16 = 2 ∧ (32 ||| b.val) % 16 = b.val) ∧
      ((48 ||| b.val) / 16 = 3 ∧ (48 ||| b.val) % 16 = b.val) := by decide
  have := h16 ⟨b, hb⟩
  rcases ht with rfl | rfl | rfl
  · exact this.1
  · exact this.2.1
  · exact this.2.2

theorem segType_cases (n m : Nat) :
    segType n m = 16 ∨ segType n m = 32 ∨ segType n m = 48 := by
  unfold segType
  split_ifs
  · right; left; rfl
  · right; right; rfl
  · left; rfl

theorem dirBits_lt (dx dy : Int) : dirBits dx dy < 16 := by
  unfold dirBits
  split_ifs <;> decide

theorem headDir_eq_spec (d : Direction) : headDir d = specDirBit d := by
  cases d <;> rfl

theorem headDir_lt (d : Direction) : headDir d < 16 := by
  cases d <;> decide

theorem segBits_lt (snake : List GameVec2) (d : Direction) (m : Nat) :
    segBits snake d m < 16 := by
  unfold segBits
  split
  · exact headDir_lt d
  · exact dirBits_lt _ _

theorem dirBits_testBit (dx dy : Int) :
    ((dirBits dx dy).testBit 1 = true ↔ dx < 0) ∧ ((dirBits dx dy).testBit 0 = true ↔ dx > 0) ∧
    ((dirBits dx dy).testBit 3 = true ↔ dy < 0) ∧ ((dirBits dx dy).testBit 2 = true ↔ dy > 0) := by
  by_cases h1 : dx < 0 <;> by_cases h2 : dx > 0 <;> by_cases h3 : dy < 0 <;>
    by_cases h4 : dy > 0 <;>
    simp only [dirBits, h1, h2, h3, h4, ↓reduceIte, iff_true, iff_false] <;> decide

theorem testBit_low (c i : Nat) (hi : i < 4) : c.testBit i = (c % 16).testBit i := by
  have : (16 : Nat) = 2 ^ 4 := rfl
  rw [this, Nat.testBit_mod_two_pow]
  simp [hi]

theorem storeAt_length (b b' : List Nat) (idx : Int) (v : Nat) (h : storeAt b idx v = some b') :
    b'.length = b.length := by
  unfold storeAt at h
  split at h
  · cases h; exact List.length_set _ _ _
  · cases h

theorem orAt_length (b b' : List Nat) (idx : Int) (v : Nat) (h : orAt b idx v = some b') :
    b'.length = b.length := by
  unfold orAt at h
  split at h
  · cases h; exact List.length_set _ _ _
  · cases h

theorem condOr_length (b b' : List Nat) (idx : Int) (c : Prop) [Decidable c] (v : Nat)
    (h : (if c then orAt b idx v else some b) = some b') : b'.length = b.length := by
  split at h
  · exact orAt_length _ _ _ _ h
  · cases h; rfl

theorem dirStep_length (w : Int) (snake : List GameVec2) (b b' : List Nat) (i : Nat)
    (h : dirStep w snake b i = some b') : b'.length = b.length := by
  unfold dirStep at h
  simp only [Option.bind_eq_bind, Option.bind_eq_some] at h
  obtain ⟨b1, h1, b2, h2, b3, h3, b4, h4, h5⟩ := h
  cases h5
  rw [condOr_length _ _ _ _ _ h4, condOr_length _ _ _ _ _ h3, condOr_length _ _ _ _ _ h2,
    condOr_length _ _ _ _ _ h1]

theorem foldlM_length (f : List Nat → Nat → Option (List Nat))
    (hf : ∀ b i b', f b i = some b' → b'.length = b.length) (is : List Nat) :
    ∀ b b' : List Nat, is.foldlM f b = some b' → b'.length = b.length := by
  induction is with
  | nil => intro b b' h; cases h; rfl
  | cons i is ih =>
    intro b b' h
    rw [List.foldlM_cons] at h
    simp only [Option.bind_eq_bind, Option.bind_eq_some] at h
    obtain ⟨b1, h1, h2⟩ := h
    rw [ih b1 b' h2, hf b i b1 h1]

/-- `Emulator::setup_state` keeps the sizes of the backing stores. -/
theorem setup_state_sized {F : Type} (th th' : Emulator F) (s : GameState F) (hs : th.Sized)
    (h : th.setup_state s = some th') :
    th'.Sized ∧ th'.BOARD.length = th.BOARD.length ∧ th'.m_game = th.m_game ∧
      th'.RAM = th.RAM ∧ th'.ROM = th.ROM ∧ th'.ISR = th.ISR := by
  unfold Emulator.setup_state at h
  simp only [Option.bind_eq_bind, Option.bind_eq_some] at h
  obtain ⟨b1, h1, u, -, b2, h2, b3, h3, b4, h4, b5, h5, b6, h6, st, h7, h8⟩ := h
  cases h8
  have hb : b6.length = th.BOARD.length := by
    rw [foldlM_length _ (fun b i b' h => dirStep_length _ _ b b' i h) _ _ _ h6,
      orAt_length _ _ _ _ h5,
      foldlM_length _ (fun b i b' h => storeAt_length b b' _ _ h) _ _ _ h4,
      storeAt_length _ _ _ _ h3, storeAt_length _ _ _ _ h2, storeAt_length _ _ _ _ h1,
      List.length_replicate]
  have hst := storeAt_length _ _ _ _ h7
  exact ⟨⟨hs.ram, by rw [hb]; exact hs.board, by rw [hst]; exact hs.state, hs.rom, hs.isr⟩,
    hb, rfl, rfl, rfl, rfl⟩

/-! ## Lemmas on the cycle loop -/

theorem coreTrace_succ {C F : Type} (core : Core C F) (s : C × Emulator F × Nat) (k : Nat) :
    coreTrace core s (k + 1) = coreStep core (coreTrace core s k) := by
  unfold coreTrace
  exact Function.iterate_succ_apply' _ _ _

theorem coreStep_cycles {C F : Type} (core : Core C F) (s : C × Emulator F × Nat) :
    (coreStep core s).2.2 = (core.Run s.1 s.2.1 s.2.2).2.2 % 2 ^ 64 := rfl

theorem coreTrace_shift {C F : Type} (core : Core C F) (s : C × Emulator F × Nat) (k : Nat) :
    coreTrace core (coreStep core s) k = coreTrace core s (k + 1) := by
  unfold coreTrace
  exact (Function.iterate_succ_apply _ _ _).symm

/-- While the counter stays below the budget, a core that adds at least one
cycle per step without carrying the 64-bit counter past `2 ^ 64 - 1` has spent
at least `k` cycles after `k` steps. -/
theorem coreTrace_cycles_ge {C F : Type} (core : Core C F) (max : Nat)
    (hrun : ∀ c th cycles, cycles < max →
      cycles < (core.Run c th cycles).2.2 ∧ (core.Run c th cycles).2.2 < 2 ^ 64)
    (s : C × Emulator F × Nat) (k : Nat)
    (hlt : ∀ j, j < k → (coreTrace core s j).2.2 < max) :
    s.2.2 + k ≤ (coreTrace core s k).2.2 := by
  induction k with
  | zero => exact Nat.le_refl _
  | succ k ih =>
    have ih := ih (fun j hj => hlt j (by omega))
    rw [coreTrace_succ, coreStep_cycles]
    have := hrun (coreTrace core s k).1 (coreTrace core s k).2.1 (coreTrace core s k).2.2
      (hlt k (by omega))
    rw [Nat.mod_eq_of_lt this.2]
    omega

/-- The loop started after `m` steps ends after `n` steps, `n` being the first
step count at which the budget is reached, when no step sets DONE. -/
theorem cycleLoop_from {C F : Type} (core : Core C F) (max : Nat)
    (s : C × Emulator F × Nat) (n : Nat)
    (hlt : ∀ k, k < n → (coreTrace core s k).2.2 < max)
    (hge : max ≤ (coreTrace core s n).2.2)
    (hdone : ∀ k, k < n →
      (coreTrace core s (k + 1)).2.1.STATE.getD STATE_CONTROL 0 &&& STATE_DONE = 0) :
    ∀ d m, m + d = n → ∀ fuel, d < fuel →
      cycleLoop core max fuel (coreTrace core s m) = some (coreTrace core s n) := by
  intro d
  induction d with
  | zero =>
    intro m hm fuel hf
    obtain ⟨fuel, rfl⟩ : ∃ f, fuel = f + 1 := ⟨fuel - 1, by omega⟩
    have : m = n := by omega
    subst this
    rw [cycleLoop, if_neg (by omega)]
  | succ d ih =>
    intro m hm fuel hf
    obtain ⟨fuel, rfl⟩ : ∃ f, fuel = f + 1 := ⟨fuel - 1, by omega⟩
    have hmn : m < n := by omega
    rw [cycleLoop, if_pos (hlt m hmn), ← coreTrace_succ, if_neg (by rw [hdone m hmn]; simp)]
    exact ih (m + 1) (by omega) fuel (by omega)

/-- A core that, from a counter below the budget, adds at least one cycle
without carrying the counter past `2 ^ 64 - 1`, and never sets DONE, leaves the
loop after finitely many steps, at the first step count that reaches the
budget. -/
theorem cycleLoop_terminates {C F : Type} (core : Core C F) (max : Nat)
    (s : C × Emulator F × Nat)
    (hrun : ∀ c th cycles, cycles < max →
      cycles < (core.Run c th cycles).2.2 ∧ (core.Run c th cycles).2.2 < 2 ^ 64)
    (hdone : ∀ k, (coreTrace core s (k + 1)).2.1.STATE.getD STATE_CONTROL 0 &&& STATE_DONE = 0) :
    ∃ n, (∀ k, k < n → (coreTrace core s k).2.2 < max) ∧ max ≤ (coreTrace core s n).2.2 ∧
      (max ≤ s.2.2 → n = 0) ∧
      ∀ fuel, n < fuel → cycleLoop core max fuel s = some (coreTrace core s n) := by
  have hex : ∃ n, max ≤ (coreTrace core s n).2.2 := by
    by_contra hc
    have hall : ∀ n, (coreTrace core s n).2.2 < max := by
      intro n
      by_contra hn
      exact hc ⟨n, by omega⟩
    have := coreTrace_cycles_ge core max hrun s max (fun j _ => hall j)
    have := hall max
    omega
  refine ⟨Nat.find hex, ?_, Nat.find_spec hex, ?_, ?_⟩
  · intro k hk
    have := Nat.find_min hex hk
    omega
  · intro h0
    exact (Nat.find_eq_zero hex).mpr h0
  · intro fuel hf
    have := cycleLoop_from core max s (Nat.find hex)
      (fun k hk => by have := Nat.find_min hex hk; omega) (Nat.find_spec hex)
      (fun k _ => hdone k) (Nat.find hex) 0 (by omega) fuel hf
    exact this

/-- A loop whose counter never reaches the budget and whose core never sets
DONE does not end: no amount of fuel suffices. -/
theorem cycleLoop_none {C F : Type} (core : Core C F) (max : Nat) (fuel : Nat) :
    ∀ s : C × Emulator F × Nat, (∀ k, (coreTrace core s k).2.2 < max) →
      (∀ k, (coreTrace core s (k + 1)).2.1.STATE.getD STATE_CONTROL 0 &&& STATE_DONE = 0) →
      cycleLoop core max fuel s = none := by
  induction fuel with
  | zero => intro s _ _; rfl
  | succ fuel ih =>
    intro s hlt hdone
    have h0 : s.2.2 < max := hlt 0
    have h1 := hdone 0
    rw [coreTrace_succ] at h1
    change (coreStep core s).2.1.STATE.getD STATE_CONTROL 0 &&& STATE_DONE = 0 at h1
    rw [cycleLoop, if_pos h0, if_neg (by rw [h1]; simp)]
    apply ih
    · intro k
      rw [coreTrace_shift]
      exact hlt (k + 1)
    · intro k
      rw [coreTrace_shift]
      exact hdone (k + 1)

theorem spawnFood_counters {F : Type} (ops : DoubleOps F) (g : Game F) (rng : RngOutcome)
    (s : GameState F) :
    (g.spawnFood ops rng s).total_ticks = s.total_ticks ∧
    (g.spawnFood ops rng s).total_clock_cycles = s.total_clock_cycles ∧
    (g.spawnFood ops rng s).iteration_clock_cycles = s.iteration_clock_cycles ∧
    (g.spawnFood ops rng s).score = s.score := by
  unfold Game.spawnFood
  dsimp only
  split <;> exact ⟨rfl, rfl, rfl, rfl⟩

/-- A tick is defined on every non-empty snake and changes neither the board
dimensions nor the two cycle counters. -/
theorem tick_cycle_counters {F : Type} (ops : DoubleOps F) (g : Game F) (rng : RngOutcome)
    (d : Direction) (hne : g.state.snake ≠ []) :
    ∃ b g', g.tick ops rng d = some (b, g') ∧
      g'.state.total_clock_cycles = g.state.total_clock_cycles ∧
      g'.state.iteration_clock_cycles = g.state.iteration_clock_cycles ∧
      g'.board_width = g.board_width ∧ g'.board_height = g.board_height := by
  obtain ⟨a, l, hs⟩ := List.exists_cons_of_ne_nil hne
  rw [tick_cons ops g rng d a l hs]
  split_ifs
  · exact ⟨false, g, rfl, rfl, rfl, rfl, rfl⟩
  · exact ⟨false, g, rfl, rfl, rfl, rfl, rfl⟩
  · refine ⟨true, _, rfl, ?_, ?_, rfl, rfl⟩
    · exact (spawnFood_counters ops g rng _).2.1
    · exact (spawnFood_counters ops g rng _).2.2.1
  · exact ⟨true, _, rfl, rfl, rfl, rfl, rfl⟩
/-- What a completed `Emulator::setup_state` changes: the board and the
control/status registers, nothing else; the snake it encoded is non-empty. -/
theorem setup_state_frame {F : Type} (th th1 : Emulator F) (s : GameState F)
    (h : th.setup_state s = some th1) :
    th1 = { th with BOARD := th1.BOARD, STATE := th1.STATE } ∧
      th1.STATE.length = th.STATE.length ∧ 0 < th.STATE.length ∧ s.snake ≠ [] := by
  unfold Emulator.setup_state at h
  simp only [Option.bind_eq_bind, Option.bind_eq_some] at h
  obtain ⟨b1, h1, u, hu, b2, h2, b3, h3, b4, h4, b5, h5, b6, h6, st, h7, h8⟩ := h
  cases h8
  have hst := storeAt_length _ _ _ _ h7
  refine ⟨rfl, hst, ?_, ?_⟩
  · by_contra hc
    unfold storeAt at h7
    rw [if_neg (by simp only [STATE_CONTROL]; omega)] at h7
    cases h7
  · intro hnil
    simp [hnil] at hu

/-- The normal form of `Emulator::cycle` once `setup_state` has completed and
the loop has ended: the tick of the game whose state is the one read at line
88 with the two cycle counters of lines 96-108, in the direction decoded from
the direction register as the loop left it. -/
theorem cycle_of_loop {C F : Type} (ops : DoubleOps F) (core : Core C F) (fuel : Nat) (c : C)
    (th th1 : Emulator F) (rng : RngOutcome) (s : C × Emulator F × Nat)
    (hsetup : th.setup_state th.m_game.state = some th1)
    (hloop : cycleLoop core th.max_clock_cycles fuel
      (c, { th1 with STATE := th1.STATE.set 0 STATE_IRQ }, 0) = some s) :
    th.cycle ops core fuel c rng =
      (Game.tick ops
        { s.2.1.m_game with state :=
          { th.m_game.state with
            iteration_clock_cycles := s.2.2
            total_clock_cycles := (th.m_game.state.total_clock_cycles + s.2.2) % 2 ^ 64 } }
        rng (decodeDirection (s.2.1.STATE.getD STATE_SNAKE_DIRECTION 0))).map
        (fun r => (r.1, s.1, { s.2.1 with m_game := r.2 })) := by
  obtain ⟨hfr, hlen, hpos, hne⟩ := setup_state_frame th th1 _ hsetup
  have hmax : th1.max_clock_cycles = th.max_clock_cycles := by rw [hfr]
  have hstore : storeAt th1.STATE (STATE_CONTROL : Nat) STATE_IRQ =
      some (th1.STATE.set 0 STATE_IRQ) :=
    storeAt_eq _ _ _ (by simp [STATE_CONTROL]) (by simp only [STATE_CONTROL]; omega)
  rw [← hmax] at hloop
  unfold Emulator.cycle
  simp only [Option.bind_eq_bind]
  rw [hsetup, Option.some_bind, hstore, Option.some_bind]
  rw [hloop, Option.some_bind]
  unfold Emulator.submitDirection
  dsimp only
  cases Game.tick ops _ rng _ <;> rfl

/-- `Emulator::cycle` does not return when its loop does not end. -/
theorem cycle_of_loop_none {C F : Type} (ops : DoubleOps F) (core : Core C F) (fuel : Nat)
    (c : C) (th th1 : Emulator F) (rng : RngOutcome)
    (hsetup : th.setup_state th.m_game.state = some th1)
    (hloop : cycleLoop core th.max_clock_cycles fuel
      (c, { th1 with STATE := th1.STATE.set 0 STATE_IRQ }, 0) = none) :
    th.cycle ops core fuel c rng = none := by
  obtain ⟨hfr, hlen, hpos, hne⟩ := setup_state_frame th th1 _ hsetup
  have hmax : th1.max_clock_cycles = th.max_clock_cycles := by rw [hfr]
  have hstore : storeAt th1.STATE (STATE_CONTROL : Nat) STATE_IRQ =
      some (th1.STATE.set 0 STATE_IRQ) :=
    storeAt_eq _ _ _ (by simp [STATE_CONTROL]) (by simp only [STATE_CONTROL]; omega)
  rw [← hmax] at hloop
  unfold Emulator.cycle
  simp only [Option.bind_eq_bind]
  rw [hsetup, Option.some_bind, hstore, Option.some_bind]
  rw [hloop]
  rfl

/-- The direction decoded at lines 112-121 is the spec's priority chain on the
bits of the register byte. -/
theorem decodeDirection_eq_spec (c : Nat) : decodeDirection c =
    (if c.testBit 0 = true then Direction.DIR_LEFT
     else if c.testBit 2 = true then Direction.DIR_UP
     else if c.testBit 3 = true then Direction.DIR_DOWN
     else Direction.DIR_RIGHT) := by
  have h0 := and_two_pow_ne_zero c 0
  have h2 := and_two_pow_ne_zero c 2
  have h3 := and_two_pow_ne_zero c 3
  unfold decodeDirection TILE_DIRECTIN_LEFT TILE_DIRECTIN_UP TILE_DIRECTIN_DOWN
  simp only [Nat.one_shiftLeft]
  simp only [h0, h2, h3]

/-- One step of `steerCore` ends the loop with the byte `b` in the direction
register. -/
theorem steerCore_loop (b : Nat) (c : Unit) (th : Emulator DExpr) (max fuel : Nat)
    (hs : th.Sized) (hmax : 0 < max) :
    cycleLoop (steerCore b) max (fuel + 1) (c, th, 0) =
      some (c, (th.BusWrite 0x5001 b).BusWrite 0x5000 STATE_DONE, 8) ∧
    ((th.BusWrite 0x5001 b).BusWrite 0x5000 STATE_DONE).STATE.getD STATE_SNAKE_DIRECTION 0 = b ∧
    ((th.BusWrite 0x5001 b).BusWrite 0x5000 STATE_DONE).m_game = th.m_game := by
  have h1 := busWrite_stores th 0x5001 b hs
  have h2 := busWrite_stores (th.BusWrite 0x5001 b) 0x5000 STATE_DONE (busWrite_sized _ _ _ hs)
  have hst : ((th.BusWrite 0x5001 b).BusWrite 0x5000 STATE_DONE).STATE =
      (th.STATE.set 1 b).set 0 STATE_DONE := by
    rw [h2.2.2.1, h1.2.2.1, if_pos (by decide), if_pos (by decide)]
  have hlen := hs.state
  refine ⟨?_, ?_, ?_⟩
  · have hd : (coreStep (steerCore b) (c, th, 0)).2.1.STATE.getD STATE_CONTROL 0 &&& STATE_DONE
        ≠ 0 := by
      show ((th.BusWrite 0x5001 b).BusWrite 0x5000 STATE_DONE).STATE.getD STATE_CONTROL 0
        &&& STATE_DONE ≠ 0
      rw [hst]
      show ((th.STATE.set 1 b).set 0 STATE_DONE).getD 0 0 &&& STATE_DONE ≠ 0
      rw [getD_set_self _ _ _ (by rw [List.length_set]; omega)]
      decide
    rw [cycleLoop, if_pos hmax, if_pos hd]
    rfl
  · rw [hst]
    show ((th.STATE.set 1 b).set 0 STATE_DONE).getD 1 0 = b
    rw [getD_set_ne _ _ _ _ (by decide), getD_set_self _ _ _ (by omega)]
  · rw [h2.2.2.2.2.2, h1.2.2.2.2.2]

theorem idleCore_trace (s : Unit × Emulator DExpr × Nat) (k : Nat) :
    (coreTrace idleCore s k).2.1 = s.2.1 := by
  induction k with
  | zero => rfl
  | succ k ih =>
    rw [coreTrace_succ]
    exact ih

theorem evenCore_trace (c : Unit) (th : Emulator DExpr) (n k : Nat) :
    (coreTrace evenCore (c, th, n) k).2.1 = th ∧
      (coreTrace evenCore (c, th, n) k).2.2 % 2 = n % 2 ∧
      (n < 2 ^ 64 → (coreTrace evenCore (c, th, n) k).2.2 < 2 ^ 64) := by
  induction k with
  | zero => exact ⟨rfl, rfl, fun h => h⟩
  | succ k ih =>
    rw [coreTrace_succ]
    refine ⟨ih.1, ?_, ?_⟩
    · show ((coreTrace evenCore (c, th, n) k).2.2 + 2) % 2 ^ 64 % 2 = _
      have := ih.2.1
      omega
    · intro _
      show ((coreTrace evenCore (c, th, n) k).2.2 + 2) % 2 ^ 64 < 2 ^ 64
      exact Nat.mod_lt _ (by decide)

/-! ## Lemmas on a successful tick -/

theorem tick_nil {F : Type} (ops : DoubleOps F) (g : Game F) (rng : RngOutcome) (d : Direction)
    (hs : g.state.snake = []) : g.tick ops rng d = none := by
  unfold Game.tick
  simp [hs]

theorem dropLast_append_last (a : GameVec2) (l : List GameVec2) :
    (a :: l).dropLast ++ [(a :: l).getLast (List.cons_ne_nil a l)] = a :: l :=
  List.dropLast_append_getLast (List.cons_ne_nil a l)

/-- The two ways `Game::tick` returns `true`: the new head `p` is inside the
board and on no segment of the shifted body, and either it is the food cell
(the snake grows by the old tail, the score takes `food_value`, food is
respawned) or it is not (the tail is dropped, `food_value` decays). -/
theorem tick_true_cases {F : Type} (ops : DoubleOps F) (g g' : Game F) (rng : RngOutcome)
    (d : Direction) (ht : g.tick ops rng d = some (true, g')) :
    ∃ a l, g.state.snake = a :: l ∧
      inBoard g.board_width g.board_height
        (moveHead (effectiveDirection g.state.snakeDirection d) a) ∧
      moveHead (effectiveDirection g.state.snakeDirection d) a ∉ (a :: l).dropLast ∧
      ((moveHead (effectiveDirection g.state.snakeDirection d) a = g.state.food ∧
          g' = Game.mk g.board_width g.board_height (g.spawnFood ops rng
            { g.state with
              total_ticks := g.state.total_ticks + 1
              snakeDirection := effectiveDirection g.state.snakeDirection d
              snake := moveHead (effectiveDirection g.state.snakeDirection d) a :: a :: l
              score := ops.add g.state.score g.state.food_value })) ∨
        (moveHead (effectiveDirection g.state.snakeDirection d) a ≠ g.state.food ∧
          g' = Game.mk g.board_width g.board_height
            { g.state with
              total_ticks := g.state.total_ticks + 1
              snakeDirection := effectiveDirection g.state.snakeDirection d
              snake := moveHead (effectiveDirection g.state.snakeDirection d) a ::
                (a :: l).dropLast
              food_value := ops.mul g.state.food_value
                (ops.pow ops.half (ops.div ops.one
                  (ops.add (ops.ofInt g.board_width) (ops.ofInt g.board_height)))) })) := by
  cases hs : g.state.snake with
  | nil => rw [tick_nil ops g rng d hs] at ht; cases ht
  | cons a l =>
    refine ⟨a, l, rfl, ?_⟩
    rw [tick_cons ops g rng d a l hs] at ht
    split at ht
    · cases ht
    · rename_i hw
      split at ht
      · cases ht
      · rename_i hh
        refine ⟨by unfold inBoard; omega, hh, ?_⟩
        split at ht
        · rename_i hf
          left
          refine ⟨by cases hp : moveHead (effectiveDirection g.state.snakeDirection d) a
                     cases hq : g.state.food
                     rw [hp, hq] at hf
                     simp only at hf
                     rw [hf.1, hf.2], ?_⟩
          simp only [dropLast_append_last] at ht
          cases ht
          rfl
        · rename_i hf
          right
          refine ⟨fun he => hf (by rw [he]; exact ⟨rfl, rfl⟩), ?_⟩
          cases ht
          rfl
theorem spawnFood_of_open {F : Type} (ops : DoubleOps F) (g : Game F) (rng : RngOutcome)
    (s : GameState F) (h : openTiles g.board_width g.board_height s.snake ≠ []) :
    (g.spawnFood ops rng s).food ∈ openTiles g.board_width g.board_height s.snake ∧
      (g.spawnFood ops rng s).food_value = ops.one := by
  have hlen : ¬ (openTiles g.board_width g.board_height s.snake).length = 0 := by
    simpa [List.length_eq_zero] using h
  unfold Game.spawnFood
  dsimp only
  rw [if_neg hlen]
  refine ⟨?_, rfl⟩
  show (openTiles g.board_width g.board_height s.snake).getD _ origin ∈ _
  have hi : (rng ((openTiles g.board_width g.board_height s.snake).length - 1)).val <
      (openTiles g.board_width g.board_height s.snake).length := by
    have := (rng ((openTiles g.board_width g.board_height s.snake).length - 1)).isLt
    omega
  rw [List.getD_eq_getElem?_getD, List.getElem?_eq_getElem hi]
  exact List.getElem_mem hi

theorem spawnFood_of_full {F : Type} (ops : DoubleOps F) (g : Game F) (rng : RngOutcome)
    (s : GameState F) (h : openTiles g.board_width g.board_height s.snake = []) :
    g.spawnFood ops rng s = s := by
  unfold Game.spawnFood
  dsimp only
  rw [if_pos (by rw [h]; rfl)]

theorem openTiles_ne_nil_iff (w h : Int) (snake : List GameVec2) :
    openTiles w h snake ≠ [] ↔ ∃ q, inBoard w h q ∧ q ∉ snake := by
  constructor
  · intro hne
    obtain ⟨q, hq⟩ := List.exists_mem_of_ne_nil _ hne
    obtain ⟨hx, hy, hn⟩ := (mem_openTiles w h snake q).mp hq
    exact ⟨q, ⟨hx, hy⟩, hn⟩
  · rintro ⟨q, ⟨hx, hy⟩, hn⟩ hnil
    have := (mem_openTiles w h snake q).mpr ⟨hx, hy, hn⟩
    rw [hnil] at this
    exact List.not_mem_nil _ this

theorem openTiles_eq_nil_iff (w h : Int) (snake : List GameVec2) :
    openTiles w h snake = [] ↔ ∀ q, inBoard w h q → q ∈ snake := by
  constructor
  · intro hnil q hq
    by_contra hn
    exact (openTiles_ne_nil_iff w h snake).mpr ⟨q, hq, hn⟩ hnil
  · intro hall
    by_contra hne
    obtain ⟨q, hq, hn⟩ := (openTiles_ne_nil_iff w h snake).mp hne
    exact hn (hall q hq)

/-! ## Lemmas on well-formed states -/

theorem moveHead_adjacent (e : Direction) (a : GameVec2) : adjacent (moveHead e a) a := by
  cases a with
  | mk x y =>
    cases e <;> simp [moveHead, adjacent]

theorem chain_dropLast (a : GameVec2) (l : List GameVec2) (h : (a :: l).Chain' adjacent) :
    (a :: l).dropLast.Chain' adjacent :=
  h.prefix (List.dropLast_prefix _)

theorem head?_dropLast_cons (a : GameVec2) (l : List GameVec2) :
    ∀ y ∈ ((a :: l).dropLast).head?, y = a := by
  intro y hy
  cases l with
  | nil => simp at hy
  | cons b l => simp at hy; exact hy.symm

theorem newState_snake {F : Type} (ops : DoubleOps F) (g : Game F) (rng : RngOutcome)
    (fresh : GameState F) :
    (g.newState ops rng fresh).state.snake =
      [⟨Int.tdiv g.board_width 2, Int.tdiv g.board_height 2⟩,
       ⟨Int.tdiv g.board_width 2 - 1, Int.tdiv g.board_height 2⟩,
       ⟨Int.tdiv g.board_width 2 - 2, Int.tdiv g.board_height 2⟩,
       ⟨Int.tdiv g.board_width 2 - 3, Int.tdiv g.board_height 2⟩] ∧
    (g.newState ops rng fresh).state.snakeDirection = Direction.DIR_RIGHT ∧
    (g.newState ops rng fresh).board_width = g.board_width ∧
    (g.newState ops rng fresh).board_height = g.board_height := by
  unfold Game.newState
  dsimp only
  refine ⟨?_, ?_, rfl, rfl⟩
  · rw [spawnFood_snake]
    simp [List.range, List.range.loop]
  · rw [spawnFood_snakeDirection]
theorem newState_wellFormed {F : Type} (ops : DoubleOps F) (g : Game F) (rng : RngOutcome)
    (fresh : GameState F) (hw : 6 ≤ g.board_width) (hh : 1 ≤ g.board_height) :
    (g.newState ops rng fresh).WellFormed := by
  obtain ⟨hsn, -, hbw, hbh⟩ := newState_snake ops g rng fresh
  have hc : Int.tdiv g.board_width 2 = g.board_width / 2 :=
    Int.tdiv_eq_ediv (by omega) (by decide)
  have hy : Int.tdiv g.board_height 2 = g.board_height / 2 :=
    Int.tdiv_eq_ediv (by omega) (by decide)
  unfold Game.WellFormed
  rw [hsn, hbw, hbh, hc, hy]
  refine ⟨?_, ?_, ?_⟩
  · intro p hp
    simp only [List.mem_cons, List.mem_singleton, List.not_mem_nil, or_false] at hp
    unfold inBoard
    rcases hp with rfl | rfl | rfl | rfl <;> dsimp only <;> omega
  · have hopen : openTiles g.board_width g.board_height
        [⟨g.board_width / 2, g.board_height / 2⟩, ⟨g.board_width / 2 - 1, g.board_height / 2⟩,
         ⟨g.board_width / 2 - 2, g.board_height / 2⟩,
         ⟨g.board_width / 2 - 3, g.board_height / 2⟩] ≠ [] := by
      apply (openTiles_ne_nil_iff _ _ _).mpr
      refine ⟨⟨g.board_width / 2 + 1, g.board_height / 2⟩, ?_, ?_⟩
      · unfold inBoard; dsimp only; omega
      · simp only [List.mem_cons, List.mem_singleton, List.not_mem_nil, or_false,
          GameVec2.mk.injEq, not_or, not_and]
        refine ⟨?_, ?_, ?_, ?_⟩ <;> intro h <;> omega
    unfold Game.newState
    dsimp only
    have hsnake : ∀ s : GameState F, s.snake =
        [⟨g.board_width / 2, g.board_height / 2⟩, ⟨g.board_width / 2 - 1, g.board_height / 2⟩,
         ⟨g.board_width / 2 - 2, g.board_height / 2⟩,
         ⟨g.board_width / 2 - 3, g.board_height / 2⟩] →
        inBoard g.board_width g.board_height (g.spawnFood ops rng s).food := by
      intro s hs
      have := (spawnFood_of_open ops g rng s (by rw [hs]; exact hopen)).1
      obtain ⟨hx, hy', -⟩ := (mem_openTiles _ _ _ _).mp this
      exact ⟨hx, hy'⟩
    apply hsnake
    simp [List.range, List.range.loop, hc, hy]
  · simp [adjacent]
theorem tick_wellFormed {F : Type} (ops : DoubleOps F) (g g' : Game F) (rng : RngOutcome)
    (d : Direction) (hwf : g.WellFormed) (ht : g.tick ops rng d = some (true, g')) :
    g'.WellFormed := by
  obtain ⟨a, l, hs, hin, -, hcase⟩ := tick_true_cases ops g g' rng d ht
  obtain ⟨hseg, hfood, hchain⟩ := hwf
  rw [hs] at hseg hchain
  rcases hcase with ⟨-, rfl⟩ | ⟨-, rfl⟩
  · have hsn : (g.spawnFood ops rng
        { g.state with
          total_ticks := g.state.total_ticks + 1
          snakeDirection := effectiveDirection g.state.snakeDirection d
          snake := moveHead (effectiveDirection g.state.snakeDirection d) a :: a :: l
          score := ops.add g.state.score g.state.food_value }).snake =
        moveHead (effectiveDirection g.state.snakeDirection d) a :: a :: l :=
      spawnFood_snake ops g rng _
    refine ⟨?_, ?_, ?_⟩
    · show ∀ p ∈ (g.spawnFood ops rng _).snake, inBoard g.board_width g.board_height p
      rw [hsn]
      intro p hp
      rcases List.mem_cons.mp hp with rfl | hp
      · exact hin
      · exact hseg p hp
    · show inBoard g.board_width g.board_height (g.spawnFood ops rng _).food
      by_cases hopen : openTiles g.board_width g.board_height
          (moveHead (effectiveDirection g.state.snakeDirection d) a :: a :: l) = []
      · rw [spawnFood_of_full ops g rng _ hopen]
        exact hfood
      · have := (spawnFood_of_open ops g rng
          { g.state with
            total_ticks := g.state.total_ticks + 1
            snakeDirection := effectiveDirection g.state.snakeDirection d
            snake := moveHead (effectiveDirection g.state.snakeDirection d) a :: a :: l
            score := ops.add g.state.score g.state.food_value } hopen).1
        obtain ⟨hx, hy, -⟩ := (mem_openTiles _ _ _ _).mp this
        exact ⟨hx, hy⟩
    · show (g.spawnFood ops rng _).snake.Chain' adjacent
      rw [hsn]
      exact List.Chain'.cons (moveHead_adjacent _ _) hchain
  · refine ⟨?_, hfood, ?_⟩
    · intro p hp
      rcases List.mem_cons.mp hp with rfl | hp
      · exact hin
      · exact hseg p (List.mem_of_mem_dropLast hp)
    · show (moveHead _ a :: (a :: l).dropLast).Chain' adjacent
      rw [List.chain'_cons']
      refine ⟨?_, chain_dropLast a l hchain⟩
      intro y hy
      rw [head?_dropLast_cons a l y hy]
      exact moveHead_adjacent _ _

theorem squareGame_wellFormed : squareGame.WellFormed :=
  ⟨by decide, by decide, by simp [squareGame, adjacent]⟩

/-! ## Lemmas on the constructor -/

/-- What `Emulator::Emulator` builds when it does not throw. -/
theorem new_ok {F : Type} (game : Game F) (m : Nat) (th : Emulator F)
    (h : Emulator.new game m = .ok th) :
    th.BOARD = List.replicate ((game.board_width * game.board_height) % 2 ^ 32).toNat 0 ∧
    ((game.board_width * game.board_height) % 2 ^ 32).toNat ≤ 0x1000 ∧
    th.ROM = [] ∧
    th.ISR = [0, 0, 0, 0, 0, 0, 0, 0, 0, 0, 0x00, 0x80, 0x00, 0x80, 0x00, 0x80] ∧
    th.m_game = game ∧ th.max_clock_cycles = m := by
  unfold Emulator.new at h
  dsimp only at h
  split at h
  · cases h
  · rename_i hb
    cases h
    exact ⟨rfl, by omega, rfl, rfl, rfl, rfl⟩

/-- Without overflow of the 32-bit product, the constructor throws exactly when
the board has more than 4096 cells and otherwise builds a zeroed board of
`width * height` bytes. -/
theorem new_in_range {F : Type} (game : Game F) (m : Nat)
    (hw : 0 < game.board_width) (hh : 0 < game.board_height)
    (hlt : game.board_width * game.board_height < 2 ^ 32) :
    ((∃ e, Emulator.new game m = .error e) ↔ 4096 < game.board_width * game.board_height) ∧
    (∀ th, Emulator.new game m = .ok th →
      th.BOARD = List.replicate (game.board_width * game.board_height).toNat 0) := by
  have hpos : 0 ≤ game.board_width * game.board_height :=
    Int.le_of_lt (Int.mul_pos hw hh)
  have hmod : (game.board_width * game.board_height) % 2 ^ 32 =
      game.board_width * game.board_height := Int.emod_eq_of_lt hpos hlt
  constructor
  · unfold Emulator.new
    dsimp only
    rw [hmod]
    constructor
    · rintro ⟨e, he⟩
      split at he
      · rename_i hb
        have hb' : 4096 < (game.board_width * game.board_height).toNat := hb
        omega
      · cases he
    · intro hgt
      rw [if_pos (show (game.board_width * game.board_height).toNat > 0x1000 by
        show 4096 < (game.board_width * game.board_height).toNat
        omega)]
      exact ⟨_, rfl⟩
  · intro th hth
    rw [(new_ok game m th hth).1, hmod]

/-! ## Lemmas on the decay of `food_value` -/

/-- A tick that returns `true` and keeps the snake length is the decay branch:
`food_value` is multiplied by the decay factor, score, food and board stay. -/
theorem tick_quiet {F : Type} (ops : DoubleOps F) (g g' : Game F) (rng : RngOutcome)
    (d : Direction) (ht : g.tick ops rng d = some (true, g'))
    (hlen : g'.state.snake.length = g.state.snake.length) :
    g'.state.food_value = ops.mul g.state.food_value (decayFactor ops g) ∧
    g'.state.score = g.state.score ∧ g'.state.food = g.state.food ∧
    g'.board_width = g.board_width ∧ g'.board_height = g.board_height := by
  obtain ⟨a, l, hs, -, -, hcase⟩ := tick_true_cases ops g g' rng d ht
  rcases hcase with ⟨-, rfl⟩ | ⟨-, rfl⟩
  · exfalso
    have hl : (g.spawnFood ops rng _).snake.length = g.state.snake.length := hlen
    rw [spawnFood_snake, hs] at hl
    simp at hl
  · exact ⟨rfl, rfl, rfl, rfl, rfl⟩

theorem quietRun_frame {F : Type} (ops : DoubleOps F) (n : Nat) (g g' : Game F)
    (h : QuietRun ops n g g') :
    g'.state.food_value = (fun v => ops.mul v (decayFactor ops g))^[n] g.state.food_value ∧
    g'.state.score = g.state.score ∧ g'.state.food = g.state.food ∧
    g'.board_width = g.board_width ∧ g'.board_height = g.board_height := by
  induction h with
  | refl g => exact ⟨rfl, rfl, rfl, rfl, rfl⟩
  | @step n g g₁ g₂ rng d ht hlen _ ih =>
    obtain ⟨h1, h2, h3, h4, h5⟩ := tick_quiet ops g g₁ rng d ht hlen
    obtain ⟨i1, i2, i3, i4, i5⟩ := ih
    have hk : decayFactor ops g₁ = decayFactor ops g := by
      unfold decayFactor; rw [h4, h5]
    refine ⟨?_, by rw [i2, h2], by rw [i3, h3], by rw [i4, h4], by rw [i5, h5]⟩
    rw [i1, hk, h1, Function.iterate_succ_apply]

theorem iterate_mul_real (k v : ℝ) (n : Nat) : (fun x : ℝ => x * k)^[n] v = v * k ^ n := by
  induction n generalizing v with
  | zero => simp
  | succ n ih => rw [Function.iterate_succ_apply, ih, pow_succ]; ring

theorem half_root_pow (m : Nat) (hm : 0 < m) :
    ((1 / 2 : ℝ) ^ (1 / (m : ℝ))) ^ m = 1 / 2 := by
  have hm' : (m : ℝ) ≠ 0 := Nat.cast_ne_zero.mpr (by omega)
  rw [← Real.rpow_natCast, ← Real.rpow_mul (by norm_num : (0 : ℝ) ≤ 1 / 2),
    one_div_mul_cancel hm', Real.rpow_one]

theorem decayFactor_real (g : Game ℝ) (m : Nat)
    (hdim : g.board_width + g.board_height = (m : Int)) :
    decayFactor realOps g = (1 / 2 : ℝ) ^ (1 / (m : ℝ)) := by
  unfold decayFactor realOps
  dsimp only
  have : ((g.board_width : ℝ) + (g.board_height : ℝ)) = (m : ℝ) := by
    have := congrArg (fun i : Int => (i : ℝ)) hdim
    simpa using this
  rw [this]
theorem tick_of_quietOk {F : Type} (ops : DoubleOps F) (g : Game F) (rng : RngOutcome)
    (d : Direction) (h : g.quietOk d = true) :
    g.tick ops rng d = some (true, g.decayStep ops d) ∧
      (g.decayStep ops d).state.snake.length = g.state.snake.length := by
  unfold Game.quietOk at h
  unfold Game.decayStep
  cases hs : g.state.snake with
  | nil => rw [hs] at h; cases h
  | cons a l =>
    rw [hs] at h
    simp only [decide_eq_true_eq] at h
    obtain ⟨hin, hh, hf⟩ := h
    obtain ⟨⟨hx0, hx1⟩, hy0, hy1⟩ := hin
    refine ⟨?_, ?_⟩
    · rw [tick_cons ops g rng d a l hs, if_neg (by omega), if_neg hh, if_neg]
      intro hxy
      apply hf
      cases hp : moveHead (effectiveDirection g.state.snakeDirection d) a
      cases hq : g.state.food
      rw [hp, hq] at hxy
      simp only at hxy
      rw [hxy.1, hxy.2]
    · simp

/-- The half-life law of the spec, in the idealisation `realOps`: on a board
with `board_width + board_height = m ≥ 2`, each tick that returns `true`
without eating multiplies `food_value` by `0.5^(1/m)`, and `m` such ticks
multiply it by exactly `0.5`. -/
theorem quietRun_real_half_life (g g' : Game ℝ) (m : Nat) (hm : 2 ≤ m)
    (hdim : g.board_width + g.board_height = (m : Int))
    (hrun : QuietRun realOps m g g') :
    g'.state.food_value = 0.5 * g.state.food_value ∧
    g'.state.score = g.state.score ∧ g'.state.food = g.state.food ∧
    (∀ (rng : RngOutcome) (d : Direction) (g₁ : Game ℝ),
      g.tick realOps rng d = some (true, g₁) →
      g₁.state.snake.length = g.state.snake.length →
      g₁.state.food_value = g.state.food_value * (0.5 : ℝ) ^ (1 / (m : ℝ))) := by
  obtain ⟨h1, h2, h3, -, -⟩ := quietRun_frame realOps m g g' hrun
  have hk := decayFactor_real g m hdim
  refine ⟨?_, h2, h3, ?_⟩
  · rw [h1, hk]
    show (fun x : ℝ => x * (1 / 2 : ℝ) ^ (1 / (m : ℝ)))^[m] g.state.food_value = _
    rw [iterate_mul_real, half_root_pow m (by omega)]
    norm_num
    ring
  · intro rng d g₁ ht hlen
    rw [(tick_quiet realOps g g₁ rng d ht hlen).1, hk]
    show g.state.food_value * (1 / 2 : ℝ) ^ (1 / (m : ℝ)) = _
    norm_num

/-- Five quiet ticks of the one-segment snake on the 3x2 board: right, down,
left, up, right, around the food-free 2x2 block. -/
theorem loopGame_run {F : Type} (ops : DoubleOps F) :
    QuietRun ops 5 (loopGame ops) ((loopGame ops).fiveSteps ops) :=
  QuietRun.step rngFirst .DIR_RIGHT
    (tick_of_quietOk ops _ rngFirst .DIR_RIGHT (by rfl)).1
    (tick_of_quietOk ops _ rngFirst .DIR_RIGHT (by rfl)).2
  (QuietRun.step rngFirst .DIR_DOWN
    (tick_of_quietOk ops _ rngFirst .DIR_DOWN (by rfl)).1
    (tick_of_quietOk ops _ rngFirst .DIR_DOWN (by rfl)).2
  (QuietRun.step rngFirst .DIR_LEFT
    (tick_of_quietOk ops _ rngFirst .DIR_LEFT (by rfl)).1
    (tick_of_quietOk ops _ rngFirst .DIR_LEFT (by rfl)).2
  (QuietRun.step rngFirst .DIR_UP
    (tick_of_quietOk ops _ rngFirst .DIR_UP (by rfl)).1
    (tick_of_quietOk ops _ rngFirst .DIR_UP (by rfl)).2
  (QuietRun.step rngFirst .DIR_RIGHT
    (tick_of_quietOk ops _ rngFirst .DIR_RIGHT (by rfl)).1
    (tick_of_quietOk ops _ rngFirst .DIR_RIGHT (by rfl)).2
  (QuietRun.refl _)))))

set_option maxRecDepth 8192 in
/-- The double `1.0 / (3.0 + 2.0)` is `0x1.999999999999ap-3`, whatever `std::pow`
returns. -/
theorem binary64_fifth (pw : Option Dyadic → Option Dyadic → Option Dyadic) :
    (binary64Ops pw).div (binary64Ops pw).one
      ((binary64Ops pw).add ((binary64Ops pw).ofInt 3) ((binary64Ops pw).ofInt 2)) =
    some ⟨7205759403792794, -55⟩ := by
  simp only [binary64Ops]
  decide

theorem loopGame_factor {F : Type} (ops : DoubleOps F) :
    decayFactor ops (loopGame ops) =
      ops.pow ops.half (ops.div ops.one (ops.add (ops.ofInt 3) (ops.ofInt 2))) := rfl

theorem powFifth_at (r : Nat) :
    powFifth r (some ⟨4503599627370496, -53⟩) (some ⟨7205759403792794, -55⟩) =
      some ⟨(r : Int), -53⟩ := by
  unfold powFifth
  rw [if_pos ⟨rfl, rfl⟩]

theorem loopGame_factor64 (r : Nat) :
    decayFactor (binary64Ops (powFifth r)) (loopGame (binary64Ops (powFifth r))) =
      some ⟨(r : Int), -53⟩ := by
  rw [loopGame_factor, binary64_fifth]
  exact powFifth_at r

/-- The `food_value` the five quiet ticks leave on the 3x2 board in binary64
arithmetic when `pow(0.5, 0.2)` is `r * 2 ^ -53`: five rounded products. -/
theorem loopGame_value (r : Nat) :
    ((loopGame (binary64Ops (powFifth r))).fiveSteps (binary64Ops (powFifth r))).state.food_value
      = (fun v : Option Dyadic => v.bind (fun x => x.mul ⟨(r : Int), -53⟩))^[5]
        (some ⟨4503599627370496, -52⟩) := by
  rw [(quietRun_frame _ 5 _ _ (loopGame_run (binary64Ops (powFifth r)))).1, loopGame_factor64]
  simp only [binary64Ops, loopGame, Function.iterate_succ, Function.iterate_zero,
    Function.comp_apply, id_eq, Option.some_bind, Option.bind_eq_bind]

/-! ## Lemmas on tracing the body through the board bytes -/

theorem dirBits_adjacent (p q : GameVec2) (h : adjacent p q) :
    (dirBits (p.x - q.x) (p.y - q.y) = TILE_DIRECTIN_LEFT ∧ q = ⟨p.x - 1, p.y⟩) ∨
    (dirBits (p.x - q.x) (p.y - q.y) = TILE_DIRECTIN_RIGHT ∧ q = ⟨p.x + 1, p.y⟩) ∨
    (dirBits (p.x - q.x) (p.y - q.y) = TILE_DIRECTIN_UP ∧ q = ⟨p.x, p.y - 1⟩) ∨
    (dirBits (p.x - q.x) (p.y - q.y) = TILE_DIRECTIN_DOWN ∧ q = ⟨p.x, p.y + 1⟩) := by
  obtain ⟨px, py⟩ := p
  obtain ⟨qx, qy⟩ := q
  simp only [adjacent] at h
  have hc : (px - qx = 1 ∧ py - qy = 0) ∨ (px - qx = -1 ∧ py - qy = 0) ∨
      (px - qx = 0 ∧ py - qy = 1) ∨ (px - qx = 0 ∧ py - qy = -1) := by omega
  rcases hc with ⟨h1, h2⟩ | ⟨h1, h2⟩ | ⟨h1, h2⟩ | ⟨h1, h2⟩
  · left
    refine ⟨by simp only [h1, h2, dirBits]; decide, ?_⟩
    have e1 : qx = px - 1 := by omega
    have e2 : qy = py := by omega
    rw [e1, e2]
  · right; left
    refine ⟨by simp only [h1, h2, dirBits]; decide, ?_⟩
    have e1 : qx = px + 1 := by omega
    have e2 : qy = py := by omega
    rw [e1, e2]
  · right; right; left
    refine ⟨by simp only [h1, h2, dirBits]; decide, ?_⟩
    have e1 : qx = px := by omega
    have e2 : qy = py - 1 := by omega
    rw [e1, e2]
  · right; right; right
    refine ⟨by simp only [h1, h2, dirBits]; decide, ?_⟩
    have e1 : qx = px := by omega
    have e2 : qy = py + 1 := by omega
    rw [e1, e2]

theorem specNeighbour_of_bit (b : Nat) (p q : GameVec2)
    (h : (b = TILE_DIRECTIN_LEFT ∧ q = ⟨p.x - 1, p.y⟩) ∨
      (b = TILE_DIRECTIN_RIGHT ∧ q = ⟨p.x + 1, p.y⟩) ∨
      (b = TILE_DIRECTIN_UP ∧ q = ⟨p.x, p.y - 1⟩) ∨
      (b = TILE_DIRECTIN_DOWN ∧ q = ⟨p.x, p.y + 1⟩)) :
    specNeighbour b p = some q := by
  rcases h with ⟨rfl, rfl⟩ | ⟨rfl, rfl⟩ | ⟨rfl, rfl⟩ | ⟨rfl, rfl⟩ <;> rfl

theorem chain_adjacent_getD (snake : List GameVec2) (hadj : snake.Chain' adjacent) (i : Nat)
    (hi : i + 1 < snake.length) :
    adjacent (snake.getD (i + 1) origin) (snake.getD i origin) := by
  have h := List.chain'_iff_get.mp hadj i (by omega)
  rw [List.getD_eq_getElem?_getD, List.getD_eq_getElem?_getD,
    List.getElem?_eq_getElem hi, List.getElem?_eq_getElem (by omega)]
  simp only [List.get_eq_getElem, adjacent] at h
  simp only [Option.getD_some, adjacent]
  omega

theorem encodedBoard_dir_nibble (w h : Int) (N : Nat) (hN : (N : Int) = w * h)
    (snake : List GameVec2) (food : GameVec2) (d : Direction) (hnd : snake.Nodup)
    (hin : ∀ p ∈ snake, inBoard w h p) (i : Nat) (hi : i + 1 < snake.length) :
    (encodedBoard w N snake food d).getD (cellIndex w (snake.getD (i + 1) origin)).toNat 0 % 16 =
      dirBits ((snake.getD (i + 1) origin).x - (snake.getD i origin).x)
        ((snake.getD (i + 1) origin).y - (snake.getD i origin).y) := by
  rw [encodedBoard_segment _ _ _ hN _ _ _ hnd hin (i + 1) hi,
    (type_or_bits_div _ _ (segType_cases _ _) (segBits_lt _ _ _)).2]
  unfold segBits
  rw [if_neg (by omega), Nat.add_sub_cancel]

theorem followBits_trace {F : Type} (th : Emulator F) (snake : List GameVec2)
    (hstep : ∀ i, i + 1 < snake.length →
      specNeighbour (th.cellAt (snake.getD (i + 1) origin) % 16) (snake.getD (i + 1) origin) =
        some (snake.getD i origin)) :
    ∀ k j, j + k < snake.length →
      followBits th k (snake.getD (j + k) origin) = some (snake.getD j origin) := by
  intro k
  induction k with
  | zero => intro j _; rfl
  | succ k ih =>
    intro j hj
    show (specNeighbour (th.cellAt (snake.getD (j + k + 1) origin) % 16)
      (snake.getD (j + k + 1) origin)).bind (followBits th k) = _
    rw [hstep (j + k) (by omega), Option.some_bind]
    exact ih j (by omega)

/-! ## Lemmas on the encoder when the food index is in range -/

/-- A completed `Emulator::setup_state` has stored the food tile inside the
board region (line 134). -/
theorem setup_state_food_range {F : Type} (th th1 : Emulator F) (s : GameState F)
    (h : th.setup_state s = some th1) :
    0 ≤ cellIndex th.m_game.board_width s.food ∧
      cellIndex th.m_game.board_width s.food < th.BOARD.length := by
  unfold Emulator.setup_state at h
  simp only [Option.bind_eq_bind, Option.bind_eq_some] at h
  obtain ⟨b1, h1, -⟩ := h
  unfold storeAt at h1
  split at h1
  · rename_i hr
    rw [List.length_replicate] at hr
    exact hr
  · cases h1

/-- With the segments in the board, `Emulator::setup_state` has a defined
result exactly when the snake is non-empty and the food index is inside the
board region. -/
theorem setup_state_defined_iff {F : Type} (th : Emulator F) (s : GameState F)
    (hsz : th.Sized)
    (hN : (th.BOARD.length : Int) = th.m_game.board_width * th.m_game.board_height)
    (hin : ∀ p ∈ s.snake, inBoard th.m_game.board_width th.m_game.board_height p) :
    (∃ th', th.setup_state s = some th') ↔
      s.snake ≠ [] ∧ 0 ≤ cellIndex th.m_game.board_width s.food ∧
        cellIndex th.m_game.board_width s.food < th.BOARD.length := by
  constructor
  · rintro ⟨th', h⟩
    exact ⟨(setup_state_frame th th' s h).2.2.2, setup_state_food_range th th' s h⟩
  · rintro ⟨hne, hfood⟩
    have hst : 0 < th.STATE.length := by rw [hsz.state]; decide
    have hseg : ∀ p ∈ s.snake, 0 ≤ cellIndex th.m_game.board_width p ∧
        cellIndex th.m_game.board_width p < th.BOARD.length := by
      intro p hp
      have := cellIndex_range _ _ p (hin p hp)
      rw [hN]; exact this
    exact ⟨_, setup_state_eq_encoded th s hst hne hseg hfood⟩

/-- The direction bits `Emulator::setup_state` leaves when the food index is
inside the board region. -/
theorem direction_bits_in_range {F : Type} (th : Emulator F) (s : GameState F)
    (hsz : th.Sized)
    (hN : (th.BOARD.length : Int) = th.m_game.board_width * th.m_game.board_height)
    (a : GameVec2) (l : List GameVec2) (hs : s.snake = a :: l) (hnd : s.snake.Nodup)
    (hin : ∀ p ∈ s.snake, inBoard th.m_game.board_width th.m_game.board_height p)
    (hfood : 0 ≤ cellIndex th.m_game.board_width s.food ∧
      cellIndex th.m_game.board_width s.food < th.BOARD.length) :
    ∃ th', th.setup_state s = some th' ∧
      th'.cellAt a % 16 = specDirBit s.snakeDirection ∧
      (∀ i p q, s.snake[i + 1]? = some p → s.snake[i]? = some q →
        ((th'.cellAt p).testBit 1 = true ↔ p.x - q.x < 0) ∧
        ((th'.cellAt p).testBit 0 = true ↔ p.x - q.x > 0) ∧
        ((th'.cellAt p).testBit 3 = true ↔ p.y - q.y < 0) ∧
        ((th'.cellAt p).testBit 2 = true ↔ p.y - q.y > 0)) ∧
      (∀ i p, s.snake[i]? = some p →
        th'.cellAt p / 16 = if i + 1 = s.snake.length then 3 else if i = 0 then 1 else 2) := by
  have hne : s.snake ≠ [] := by rw [hs]; exact List.cons_ne_nil _ _
  have hlen : 0 < s.snake.length := List.length_pos.mpr hne
  have hst : 0 < th.STATE.length := by rw [hsz.state]; decide
  have hseg : ∀ p ∈ s.snake, 0 ≤ cellIndex th.m_game.board_width p ∧
      cellIndex th.m_game.board_width p < th.BOARD.length := by
    intro p hp
    have := cellIndex_range _ _ p (hin p hp)
    rw [hN]; exact this
  have hget : ∀ i p, s.snake[i]? = some p → i < s.snake.length ∧ p = s.snake.getD i origin := by
    intro i p hp
    have hi : i < s.snake.length := by
      by_contra hc
      rw [List.getElem?_eq_none (by omega)] at hp
      cases hp
    exact ⟨hi, by rw [List.getD_eq_getElem?_getD, hp]; rfl⟩
  refine ⟨_, setup_state_eq_encoded th s hst hne hseg hfood, ?_, ?_, ?_⟩
  · have ha : a = s.snake.getD 0 origin := by rw [hs]; rfl
    show (encodedBoard _ _ _ _ _).getD (cellIndex th.m_game.board_width a).toNat 0 % 16 = _
    rw [ha, encodedBoard_segment _ _ _ hN _ _ _ hnd hin 0 hlen,
      (type_or_bits_div _ _ (segType_cases _ _) (segBits_lt _ _ _)).2]
    unfold segBits
    rw [if_pos rfl, headDir_eq_spec]
  · intro i p q hp hq
    obtain ⟨hi, hpe⟩ := hget _ _ hp
    obtain ⟨-, hqe⟩ := hget _ _ hq
    have hval : (encodedBoard th.m_game.board_width th.BOARD.length s.snake s.food
        s.snakeDirection).getD (cellIndex th.m_game.board_width p).toNat 0 % 16 =
        dirBits (p.x - q.x) (p.y - q.y) := by
      rw [hpe, encodedBoard_segment _ _ _ hN _ _ _ hnd hin (i + 1) hi,
        (type_or_bits_div _ _ (segType_cases _ _) (segBits_lt _ _ _)).2]
      unfold segBits
      rw [if_neg (by omega), Nat.add_sub_cancel, ← hqe]
    have hb := dirBits_testBit (p.x - q.x) (p.y - q.y)
    rw [← hval] at hb
    show (((encodedBoard _ _ _ _ _).getD (cellIndex th.m_game.board_width p).toNat 0).testBit 1
        = true ↔ _) ∧
      (((encodedBoard _ _ _ _ _).getD (cellIndex th.m_game.board_width p).toNat 0).testBit 0
        = true ↔ _) ∧
      (((encodedBoard _ _ _ _ _).getD (cellIndex th.m_game.board_width p).toNat 0).testBit 3
        = true ↔ _) ∧
      (((encodedBoard _ _ _ _ _).getD (cellIndex th.m_game.board_width p).toNat 0).testBit 2
        = true ↔ _)
    rw [testBit_low _ 1 (by decide), testBit_low _ 0 (by decide), testBit_low _ 3 (by decide),
      testBit_low _ 2 (by decide)]
    exact hb
  · intro i p hp
    obtain ⟨hi, hpe⟩ := hget _ _ hp
    show (encodedBoard _ _ _ _ _).getD (cellIndex th.m_game.board_width p).toNat 0 / 16 = _
    rw [hpe, encodedBoard_segment _ _ _ hN _ _ _ hnd hin i hi,
      (type_or_bits_div _ _ (segType_cases _ _) (segBits_lt _ _ _)).1]
    unfold segType
    split_ifs <;> first | omega | rfl

/-- The trace from the tail to the head that `Emulator::setup_state` leaves
when the food index is inside the board region. -/
theorem traceable_in_range {F : Type} (th : Emulator F) (s : GameState F)
    (hsz : th.Sized)
    (hN : (th.BOARD.length : Int) = th.m_game.board_width * th.m_game.board_height)
    (a : GameVec2) (l : List GameVec2) (hs : s.snake = a :: l) (hnd : s.snake.Nodup)
    (hin : ∀ p ∈ s.snake, inBoard th.m_game.board_width th.m_game.board_height p)
    (hadj : s.snake.Chain' adjacent)
    (hfood : 0 ≤ cellIndex th.m_game.board_width s.food ∧
      cellIndex th.m_game.board_width s.food < th.BOARD.length) :
    ∃ th', th.setup_state s = some th' ∧
      (∀ i p q, s.snake[i + 1]? = some p → s.snake[i]? = some q →
        (th'.cellAt p % 16 = TILE_DIRECTIN_LEFT ∧ q = ⟨p.x - 1, p.y⟩) ∨
        (th'.cellAt p % 16 = TILE_DIRECTIN_RIGHT ∧ q = ⟨p.x + 1, p.y⟩) ∨
        (th'.cellAt p % 16 = TILE_DIRECTIN_UP ∧ q = ⟨p.x, p.y - 1⟩) ∨
        (th'.cellAt p % 16 = TILE_DIRECTIN_DOWN ∧ q = ⟨p.x, p.y + 1⟩)) ∧
      (∀ k, k < s.snake.length →
        followBits th' k (s.snake.getD (s.snake.length - 1) origin) =
          some (s.snake.getD (s.snake.length - 1 - k) origin)) ∧
      followBits th' (s.snake.length - 1) (s.snake.getD (s.snake.length - 1) origin) = some a := by
  have hne : s.snake ≠ [] := by rw [hs]; exact List.cons_ne_nil _ _
  have hlen : 0 < s.snake.length := List.length_pos.mpr hne
  have hst : 0 < th.STATE.length := by rw [hsz.state]; decide
  have hseg : ∀ p ∈ s.snake, 0 ≤ cellIndex th.m_game.board_width p ∧
      cellIndex th.m_game.board_width p < th.BOARD.length := by
    intro p hp
    have := cellIndex_range _ _ p (hin p hp)
    rw [hN]; exact this
  have hget : ∀ i p, s.snake[i]? = some p → i < s.snake.length ∧ p = s.snake.getD i origin := by
    intro i p hp
    have hi : i < s.snake.length := by
      by_contra hc
      rw [List.getElem?_eq_none (by omega)] at hp
      cases hp
    exact ⟨hi, by rw [List.getD_eq_getElem?_getD, hp]; rfl⟩
  have hbit : ∀ i, i + 1 < s.snake.length →
      (encodedBoard th.m_game.board_width th.BOARD.length s.snake s.food
        s.snakeDirection).getD
          (cellIndex th.m_game.board_width (s.snake.getD (i + 1) origin)).toNat 0 % 16 =
        dirBits ((s.snake.getD (i + 1) origin).x - (s.snake.getD i origin).x)
          ((s.snake.getD (i + 1) origin).y - (s.snake.getD i origin).y) :=
    fun i hi => encodedBoard_dir_nibble _ _ _ hN _ _ _ hnd hin i hi
  have hstep : ∀ i, i + 1 < s.snake.length →
      specNeighbour ((encodedBoard th.m_game.board_width th.BOARD.length s.snake s.food
        s.snakeDirection).getD
          (cellIndex th.m_game.board_width (s.snake.getD (i + 1) origin)).toNat 0 % 16)
        (s.snake.getD (i + 1) origin) = some (s.snake.getD i origin) := by
    intro i hi
    rw [hbit i hi]
    exact specNeighbour_of_bit _ _ _ (dirBits_adjacent _ _ (chain_adjacent_getD _ hadj i hi))
  have htrace := followBits_trace
    ({ th with
      BOARD := encodedBoard th.m_game.board_width th.BOARD.length s.snake s.food s.snakeDirection
      STATE := th.STATE.set 0 0 } : Emulator F) s.snake hstep
  refine ⟨_, setup_state_eq_encoded th s hst hne hseg hfood, ?_, ?_, ?_⟩
  · intro i p q hp hq
    obtain ⟨hi, hpe⟩ := hget _ _ hp
    obtain ⟨-, hqe⟩ := hget _ _ hq
    have hd := dirBits_adjacent _ _ (chain_adjacent_getD _ hadj i hi)
    rw [← hbit i hi, ← hpe, ← hqe] at hd
    exact hd
  · intro k hk
    have h := htrace k (s.snake.length - 1 - k) (by omega)
    rw [show s.snake.length - 1 - k + k = s.snake.length - 1 by omega] at h
    exact h
  · have h := htrace (s.snake.length - 1) 0 (by omega)
    rw [Nat.zero_add] at h
    rw [h, hs]
    rfl

/-! ## The claims -/

/-- C1: wall collision is an atomic game-over. For every game whose stored
snake is non-empty and every requested direction, if the old head moved one
cell in the effective heading has `x < 0`, `x ≥ board_width`, `y < 0` or
`y ≥ board_height`, then `Game::tick` returns `false` and the game afterwards,
the stored state with all its fields included, is the game before the call. -/
theorem tick_wall_collision {F : Type} (ops : DoubleOps F) (g : Game F) (rng : RngOutcome)
    (d : Direction) (hne : g.state.snake ≠ [])
    (hw : (moveHead (effectiveDirection g.state.snakeDirection d) (g.state.snake.head hne)).x < 0 ∨
      (moveHead (effectiveDirection g.state.snakeDirection d) (g.state.snake.head hne)).x
        ≥ g.board_width ∨
      (moveHead (effectiveDirection g.state.snakeDirection d) (g.state.snake.head hne)).y < 0 ∨
      (moveHead (effectiveDirection g.state.snakeDirection d) (g.state.snake.head hne)).y
        ≥ g.board_height) :
    g.tick ops rng d = some (false, g) := by
  obtain ⟨a, l, hs⟩ := List.exists_cons_of_ne_nil hne
  have hhead : g.state.snake.head hne = a := by simp [hs]
  rw [hhead] at hw
  rw [tick_cons ops g rng d a l hs, if_pos hw]

/-- Witness for C1: on the 3x1 board the snake at `(1,0),(0,0)` asked to go up leaves
the board at `y = -1`; the tick returns `false` and the game is unchanged. -/
theorem tick_wall_collision_witness :
    wallGame.state.snake ≠ [] ∧ wallGame.tick symOps rngFirst .DIR_UP = some (false, wallGame) :=
  ⟨by decide, tick_wall_collision symOps wallGame rngFirst .DIR_UP (by decide) (by decide)⟩

/-- C2 (as amended): self-collision is checked against the body after the
shift, so the pre-tick tail cell is free. For every game whose snake has
`n ≥ 2` pairwise distinct segments and every requested direction, if the new
head is inside the board then: if it equals the pre-tick position of a segment
of index `1 .. n-2`, `Game::tick` returns `false` (and the game is unchanged);
if it equals the pre-tick position of the tail (index `n-1`), `Game::tick`
returns `true`. -/
theorem tick_self_collision {F : Type} (ops : DoubleOps F) (g : Game F) (rng : RngOutcome)
    (d : Direction) (a : GameVec2) (l : List GameVec2) (hs : g.state.snake = a :: l)
    (hn : 2 ≤ g.state.snake.length) (hnd : g.state.snake.Nodup)
    (hin : (0 ≤ (moveHead (effectiveDirection g.state.snakeDirection d) a).x ∧
        (moveHead (effectiveDirection g.state.snakeDirection d) a).x < g.board_width) ∧
      (0 ≤ (moveHead (effectiveDirection g.state.snakeDirection d) a).y ∧
        (moveHead (effectiveDirection g.state.snakeDirection d) a).y < g.board_height)) :
    (∀ i, 1 ≤ i → i + 1 < g.state.snake.length →
        g.state.snake[i]? = some (moveHead (effectiveDirection g.state.snakeDirection d) a) →
        g.tick ops rng d = some (false, g)) ∧
    (g.state.snake.getLast? = some (moveHead (effectiveDirection g.state.snakeDirection d) a) →
        ∃ g', g.tick ops rng d = some (true, g')) := by
  have hw : ¬ ((moveHead (effectiveDirection g.state.snakeDirection d) a).x < 0 ∨
          (moveHead (effectiveDirection g.state.snakeDirection d) a).x ≥ g.board_width ∨
          (moveHead (effectiveDirection g.state.snakeDirection d) a).y < 0 ∨
          (moveHead (effectiveDirection g.state.snakeDirection d) a).y ≥ g.board_height) := by
    omega
  rw [tick_cons ops g rng d a l hs, if_neg hw]
  constructor
  · intro i h1 h2 hi
    have hmem : moveHead (effectiveDirection g.state.snakeDirection d) a ∈ (a :: l).dropLast := by
      rw [List.mem_iff_getElem?]
      refine ⟨i, ?_⟩
      rw [← hs, List.dropLast_eq_take, List.getElem?_take, if_pos (by omega)]
      exact hi
    rw [if_pos hmem]
  · intro hlast
    have hnm : moveHead (effectiveDirection g.state.snakeDirection d) a ∉ (a :: l).dropLast := by
      intro hmem
      have hsplit : (a :: l).dropLast ++ [moveHead (effectiveDirection g.state.snakeDirection d) a]
          = a :: l := by
        rw [hs] at hlast
        have := List.dropLast_append_getLast? _ hlast
        exact this
      have hnd2 : ((a :: l).dropLast ++
          [moveHead (effectiveDirection g.state.snakeDirection d) a]).Nodup := by
        rw [hsplit, ← hs]; exact hnd
      rw [List.nodup_append] at hnd2
      exact hnd2.2.2 hmem (List.mem_singleton_self _)
    rw [if_neg hnm]
    split
    · exact ⟨_, rfl⟩
    · exact ⟨_, rfl⟩

/-- Witness for C2 (as amended): the five-segment snake turning left runs into its
segment 3 of indices `0..4` and the tick returns `false`; the four-segment
snake moving onto its pre-tick tail cell gets `true`. -/
theorem tick_self_collision_witness :
    (coilGame.state.snake[3]? =
        some (moveHead (effectiveDirection coilGame.state.snakeDirection .DIR_LEFT) ⟨1, 1⟩) ∧
      coilGame.tick symOps rngFirst .DIR_LEFT = some (false, coilGame)) ∧
    (squareGame.state.snake.getLast? =
        some (moveHead (effectiveDirection squareGame.state.snakeDirection .DIR_DOWN) ⟨0, 0⟩) ∧
      ∃ g', squareGame.tick symOps rngFirst .DIR_DOWN = some (true, g')) :=
  ⟨⟨by decide,
    (tick_self_collision symOps coilGame rngFirst .DIR_LEFT ⟨1, 1⟩
      [⟨1, 0⟩, ⟨0, 0⟩, ⟨0, 1⟩, ⟨0, 2⟩] rfl (by decide) (by decide) (by decide)).1 3
      (by decide) (by decide) (by decide)⟩,
   ⟨by decide,
    (tick_self_collision symOps squareGame rngFirst .DIR_DOWN ⟨0, 0⟩
      [⟨1, 0⟩, ⟨1, 1⟩, ⟨0, 1⟩] rfl (by decide) (by decide) (by decide)).2 (by decide)⟩⟩

/-- C2 (as stated) fails: on the 4x4 board the snake `(0,0),(1,0),(1,1),(0,1)`
heading left is asked to go down; the new head `(0,1)` is inside the board and
is the pre-tick position of segment 3, the tail, yet `Game::tick` returns
`true`. -/
theorem tick_self_collision_counterexample :
    2 ≤ squareGame.state.snake.length ∧ squareGame.state.snake.Nodup ∧
    ((0 ≤ (moveHead (effectiveDirection squareGame.state.snakeDirection .DIR_DOWN) ⟨0, 0⟩).x ∧
        (moveHead (effectiveDirection squareGame.state.snakeDirection .DIR_DOWN) ⟨0, 0⟩).x <
          squareGame.board_width) ∧
      (0 ≤ (moveHead (effectiveDirection squareGame.state.snakeDirection .DIR_DOWN) ⟨0, 0⟩).y ∧
        (moveHead (effectiveDirection squareGame.state.snakeDirection .DIR_DOWN) ⟨0, 0⟩).y <
          squareGame.board_height)) ∧
    squareGame.state.snake.head? = some ⟨0, 0⟩ ∧
    squareGame.state.snake[3]? =
      some (moveHead (effectiveDirection squareGame.state.snakeDirection .DIR_DOWN) ⟨0, 0⟩) ∧
    (squareGame.tick symOps rngFirst .DIR_DOWN).map Prod.fst = some true := by
  decide

/-- C3: direction-reversal suppression. With `e` the current heading when the
request is its exact opposite and the request otherwise, `Game::tick` on a
non-empty snake returns; it returns `true` exactly when the old head moved one
cell in direction `e` (LEFT `x-1`, RIGHT `x+1`, UP `y-1`, DOWN `y+1`) is inside
the board and on no segment of the shifted body; whenever it returns `true`
the stored heading is `e` and the stored head is that cell; and a request
opposite to the current heading leaves the stored heading as it was, whatever
the tick returns. -/
theorem tick_direction {F : Type} (ops : DoubleOps F) (g : Game F) (rng : RngOutcome)
    (d : Direction) (a : GameVec2) (l : List GameVec2) (hs : g.state.snake = a :: l) :
    ∃ b g', g.tick ops rng d = some (b, g') ∧
      (b = true ↔
        ((0 ≤ (specMove (specHeading g.state.snakeDirection d) a).x ∧
            (specMove (specHeading g.state.snakeDirection d) a).x < g.board_width) ∧
          (0 ≤ (specMove (specHeading g.state.snakeDirection d) a).y ∧
            (specMove (specHeading g.state.snakeDirection d) a).y < g.board_height)) ∧
        specMove (specHeading g.state.snakeDirection d) a ∉ (a :: l).dropLast) ∧
      (b = true →
        g'.state.snakeDirection = specHeading g.state.snakeDirection d ∧
        g'.state.snake.head? = some (specMove (specHeading g.state.snakeDirection d) a)) ∧
      (specOpposite d g.state.snakeDirection = true →
        g'.state.snakeDirection = g.state.snakeDirection) := by
  have hopp : specOpposite d g.state.snakeDirection = true →
      specHeading g.state.snakeDirection d = g.state.snakeDirection := by
    intro h; simp [specHeading, h]
  rw [tick_cons ops g rng d a l hs, effectiveDirection_eq_spec, moveHead_eq_spec]
  by_cases hw : (specMove (specHeading g.state.snakeDirection d) a).x < 0 ∨
      (specMove (specHeading g.state.snakeDirection d) a).x ≥ g.board_width ∨
      (specMove (specHeading g.state.snakeDirection d) a).y < 0 ∨
      (specMove (specHeading g.state.snakeDirection d) a).y ≥ g.board_height
  · rw [if_pos hw]
    refine ⟨false, g, rfl, ?_, ?_, fun _ => rfl⟩
    · constructor
      · intro h; cases h
      · rintro ⟨hin, -⟩; omega
    · intro h; cases h
  · rw [if_neg hw]
    have hin : (0 ≤ (specMove (specHeading g.state.snakeDirection d) a).x ∧
            (specMove (specHeading g.state.snakeDirection d) a).x < g.board_width) ∧
          (0 ≤ (specMove (specHeading g.state.snakeDirection d) a).y ∧
            (specMove (specHeading g.state.snakeDirection d) a).y < g.board_height) := by
      omega
    by_cases hh : specMove (specHeading g.state.snakeDirection d) a ∈ (a :: l).dropLast
    · rw [if_pos hh]
      refine ⟨false, g, rfl, ?_, ?_, fun _ => rfl⟩
      · constructor
        · intro h; cases h
        · rintro ⟨-, hnot⟩; exact absurd hh hnot
      · intro h; cases h
    · rw [if_neg hh]
      split
      · refine ⟨true, _, rfl, ?_, ?_, ?_⟩
        · exact ⟨fun _ => ⟨hin, hh⟩, fun _ => rfl⟩
        · intro _
          exact ⟨by rw [spawnFood_snakeDirection], by rw [spawnFood_snake]; rfl⟩
        · intro h
          show (g.spawnFood ops rng _).snakeDirection = _
          rw [spawnFood_snakeDirection]
          exact hopp h
      · refine ⟨true, _, rfl, ?_, ?_, ?_⟩
        · exact ⟨fun _ => ⟨hin, hh⟩, fun _ => rfl⟩
        · intro _
          exact ⟨rfl, rfl⟩
        · intro h
          exact hopp h

/-- Witness for C3: heading right, the request LEFT is suppressed; the snake moves
right onto `(2,0)` and the stored heading stays RIGHT. -/
theorem tick_direction_witness :
    ∃ g', wallGame.tick symOps rngFirst .DIR_LEFT = some (true, g') ∧
      g'.state.snakeDirection = .DIR_RIGHT ∧ g'.state.snake.head? = some ⟨2, 0⟩ := by
  obtain ⟨b, g', ht, hb, htrue, -⟩ :=
    tick_direction symOps wallGame rngFirst .DIR_LEFT ⟨1, 0⟩ [⟨0, 0⟩] rfl
  have hbt : b = true := hb.mpr (by decide)
  subst hbt
  exact ⟨g', ht, htrue rfl⟩


/-- C4 (as amended): tick growth. If the new head is inside the board, hits
no body segment and equals the food position, `Game::tick` returns `true` and
the stored snake is exactly one segment longer; `food_value` is exactly `1.0`
provided some cell of the board is free of the grown snake, and keeps its
pre-tick value when the grown snake fills the board (`spawnFood` then returns
early). -/
theorem tick_growth {F : Type} (ops : DoubleOps F) (g : Game F) (rng : RngOutcome)
    (d : Direction) (a : GameVec2) (l : List GameVec2) (hs : g.state.snake = a :: l)
    (hin : (0 ≤ (moveHead (effectiveDirection g.state.snakeDirection d) a).x ∧
        (moveHead (effectiveDirection g.state.snakeDirection d) a).x < g.board_width) ∧
      (0 ≤ (moveHead (effectiveDirection g.state.snakeDirection d) a).y ∧
        (moveHead (effectiveDirection g.state.snakeDirection d) a).y < g.board_height))
    (hbody : ∀ q ∈ l, q ≠ moveHead (effectiveDirection g.state.snakeDirection d) a)
    (hfood : moveHead (effectiveDirection g.state.snakeDirection d) a = g.state.food) :
    ∃ g', g.tick ops rng d = some (true, g') ∧
      g'.state.snake.length = g.state.snake.length + 1 ∧
      ((∃ q : GameVec2, (0 ≤ q.x ∧ q.x < g.board_width) ∧ (0 ≤ q.y ∧ q.y < g.board_height) ∧
          q ∉ g'.state.snake) → g'.state.food_value = ops.one) ∧
      ((∀ q : GameVec2, (0 ≤ q.x ∧ q.x < g.board_width) ∧ (0 ≤ q.y ∧ q.y < g.board_height) →
          q ∈ g'.state.snake) → g'.state.food_value = g.state.food_value) := by
  have hw : ¬ ((moveHead (effectiveDirection g.state.snakeDirection d) a).x < 0 ∨
          (moveHead (effectiveDirection g.state.snakeDirection d) a).x ≥ g.board_width ∨
          (moveHead (effectiveDirection g.state.snakeDirection d) a).y < 0 ∨
          (moveHead (effectiveDirection g.state.snakeDirection d) a).y ≥ g.board_height) := by
    omega
  have hnm : moveHead (effectiveDirection g.state.snakeDirection d) a ∉ (a :: l).dropLast := by
    intro hmem
    have hmem2 := List.mem_of_mem_dropLast hmem
    rcases List.mem_cons.mp hmem2 with h | h
    · exact moveHead_ne _ _ h
    · exact hbody _ h rfl
  have hf : (moveHead (effectiveDirection g.state.snakeDirection d) a).x = g.state.food.x ∧
      (moveHead (effectiveDirection g.state.snakeDirection d) a).y = g.state.food.y := by
    rw [hfood]; exact ⟨rfl, rfl⟩
  rw [tick_cons ops g rng d a l hs, if_neg hw, if_neg hnm, if_pos hf]
  refine ⟨_, rfl, ?_, ?_, ?_⟩
  · show (g.spawnFood ops rng _).snake.length = _
    rw [spawnFood_snake, hs]
    simp only [List.length_cons, List.length_append, List.length_dropLast, List.length_singleton,
      List.length_nil]
    omega
  · rintro ⟨q, hqx, hqy, hq⟩
    show (g.spawnFood ops rng _).food_value = _
    rw [spawnFood_food_value, if_neg]
    intro hnil
    have hq' : q ∉ (g.spawnFood ops rng _).snake := hq
    rw [spawnFood_snake] at hq'
    have hmem := (mem_openTiles g.board_width g.board_height _ q).mpr ⟨hqx, hqy, hq'⟩
    rw [hnil] at hmem
    exact List.not_mem_nil _ hmem
  · intro hall
    show (g.spawnFood ops rng _).food_value = _
    rw [spawnFood_food_value, if_pos]
    rw [List.eq_nil_iff_forall_not_mem]
    intro q hq
    obtain ⟨hqx, hqy, hqn⟩ := (mem_openTiles g.board_width g.board_height _ q).mp hq
    have hq' : q ∈ (g.spawnFood ops rng _).snake := hall q ⟨hqx, hqy⟩
    rw [spawnFood_snake] at hq'
    exact hqn hq'

/-- Witness for C4 (as amended): on the 4x4 board the two-segment snake eats the
food; it has 3 segments afterwards and `food_value` is `1.0`. -/
theorem tick_growth_witness :
    ∃ g', eatGame.tick symOps rngFirst .DIR_RIGHT = some (true, g') ∧
      g'.state.snake.length = 3 ∧ g'.state.food_value = DExpr.one := by
  obtain ⟨g', ht, hlen, hone, -⟩ :=
    tick_growth symOps eatGame rngFirst .DIR_RIGHT ⟨1, 0⟩ [⟨0, 0⟩] rfl
      (by decide) (by decide) (by decide)
  refine ⟨g', ht, hlen, hone ⟨⟨3, 3⟩, by decide, by decide, ?_⟩⟩
  have hc : eatGame.tick symOps rngFirst .DIR_RIGHT =
      some (true, ⟨4, 4, ⟨[⟨2, 0⟩, ⟨1, 0⟩, ⟨0, 0⟩], .DIR_RIGHT, ⟨0, 1⟩,
        .add .zero .half, .one, 6, 0, 0⟩⟩) := by decide
  rw [hc] at ht
  cases ht
  decide

/-- C4 (as stated) fails: on the 3x1 board the snake `(1,0),(0,0)` eats the
food at `(2,0)`; the tick returns `true` and the snake has 3 segments, but the
board is then full and `food_value` stays `0.5`, not `1.0`. -/
theorem tick_growth_counterexample :
    wallGame.state.snake = [⟨1, 0⟩, ⟨0, 0⟩] ∧
    ((0 ≤ (moveHead (effectiveDirection wallGame.state.snakeDirection .DIR_RIGHT) ⟨1, 0⟩).x ∧
        (moveHead (effectiveDirection wallGame.state.snakeDirection .DIR_RIGHT) ⟨1, 0⟩).x <
          wallGame.board_width) ∧
      (0 ≤ (moveHead (effectiveDirection wallGame.state.snakeDirection .DIR_RIGHT) ⟨1, 0⟩).y ∧
        (moveHead (effectiveDirection wallGame.state.snakeDirection .DIR_RIGHT) ⟨1, 0⟩).y <
          wallGame.board_height)) ∧
    (∀ q ∈ wallGame.state.snake,
      q ≠ moveHead (effectiveDirection wallGame.state.snakeDirection .DIR_RIGHT) ⟨1, 0⟩) ∧
    moveHead (effectiveDirection wallGame.state.snakeDirection .DIR_RIGHT) ⟨1, 0⟩ =
      wallGame.state.food ∧
    (wallGame.tick symOps rngFirst .DIR_RIGHT).map
        (fun r => (r.1, r.2.state.snake.length, r.2.state.food_value)) =
      some (true, 3, DExpr.half) ∧
    DExpr.half ≠ symOps.one := by
  decide

/-- C5: direction-register decode priority. Once `setup_state` has completed
and the loop of `Emulator::cycle` has ended, for the byte `b` the direction
register (`STATE[1]`, bus address `0x5001`) then holds, `Emulator::cycle` is
the tick of the game, with the cycle counters of this cycle, in the direction
LEFT if bit 0 of `b` is set, otherwise UP if bit 2 is set, otherwise DOWN if
bit 3 is set, otherwise RIGHT; so LEFT+UP decodes to LEFT, UP+DOWN to UP, and
`0x00`, the RIGHT bit alone and any byte with only high-nibble bits decode to
RIGHT. -/
theorem decodeDirection_priority {C F : Type} (ops : DoubleOps F) (core : Core C F)
    (fuel : Nat) (c : C) (th th1 : Emulator F) (rng : RngOutcome) (s : C × Emulator F × Nat)
    (b : Nat)
    (hsetup : th.setup_state th.m_game.state = some th1)
    (hloop : cycleLoop core th.max_clock_cycles fuel
      (c, { th1 with STATE := th1.STATE.set 0 STATE_IRQ }, 0) = some s)
    (hb : s.2.1.STATE.getD STATE_SNAKE_DIRECTION 0 = b) :
    th.cycle ops core fuel c rng =
      (Game.tick ops
        { s.2.1.m_game with state :=
          { th.m_game.state with
            iteration_clock_cycles := s.2.2
            total_clock_cycles := (th.m_game.state.total_clock_cycles + s.2.2) % 2 ^ 64 } }
        rng
        (if b.testBit 0 = true then Direction.DIR_LEFT
         else if b.testBit 2 = true then Direction.DIR_UP
         else if b.testBit 3 = true then Direction.DIR_DOWN
         else Direction.DIR_RIGHT)).map
        (fun r => (r.1, s.1, { s.2.1 with m_game := r.2 })) ∧
    (s.2.1.Sized → (s.2.1.BusRead 0x5001).1 = b) ∧
    decodeDirection (0x01 ||| 0x04) = Direction.DIR_LEFT ∧
    decodeDirection (0x04 ||| 0x08) = Direction.DIR_UP ∧
    decodeDirection 0x00 = Direction.DIR_RIGHT ∧
    decodeDirection 0x02 = Direction.DIR_RIGHT ∧
    (b.testBit 0 = false → b.testBit 2 = false → b.testBit 3 = false →
      decodeDirection b = Direction.DIR_RIGHT) ∧
    decodeDirection (b &&& 0xF0) = Direction.DIR_RIGHT := by
  have key := decodeDirection_eq_spec
  refine ⟨?_, ?_, by decide, by decide, by decide, by decide, ?_, ?_⟩
  · rw [cycle_of_loop ops core fuel c th th1 rng s hsetup hloop, hb, key b]
  · intro hs
    rw [← hb, busRead_fst s.2.1 0x5001 hs, if_neg (by decide),
      if_neg (by have := hs.board; omega), if_pos (by decide)]
    rfl
  · intro e0 e2 e3
    rw [key b]
    simp [e0, e2, e3]
  · rw [key]
    have e0 : (b &&& 0xF0).testBit 0 = false := by
      rw [Nat.testBit_and, show Nat.testBit 0xF0 0 = false by decide, Bool.and_false]
    have e2 : (b &&& 0xF0).testBit 2 = false := by
      rw [Nat.testBit_and, show Nat.testBit 0xF0 2 = false by decide, Bool.and_false]
    have e3 : (b &&& 0xF0).testBit 3 = false := by
      rw [Nat.testBit_and, show Nat.testBit 0xF0 3 = false by decide, Bool.and_false]
    simp [e0, e2, e3]

/-- Witness for C5: on `encEmu` (head at `(0,0)` heading LEFT) a core that
writes `0x0C`, UP+DOWN, to the direction register makes `Emulator::cycle` tick
UP, into the wall, and one that writes `0x08` makes it tick DOWN, onto the
cell the tail leaves. -/
theorem decodeDirection_priority_witness :
    (encEmu.cycle symOps (steerCore 0x0C) 1 () rngFirst).map (fun r => r.1) = some false ∧
    (encEmu.cycle symOps (steerCore 0x08) 1 () rngFirst).map (fun r => r.1) = some true := by
  have hsetup := setup_state_eq_encoded encEmu encEmu.m_game.state (by decide) (by decide)
    (by decide) (by decide)
  have hs1 := (setup_state_sized encEmu _ _ encEmu_sized hsetup).1
  have hl := fun b => steerCore_loop b () _ 100 0
    (⟨hs1.ram, hs1.board, by decide, hs1.rom, hs1.isr⟩ :
      Emulator.Sized ({ ({ encEmu with
        BOARD := encodedBoard encEmu.m_game.board_width encEmu.BOARD.length
          encEmu.m_game.state.snake encEmu.m_game.state.food encEmu.m_game.state.snakeDirection
        STATE := encEmu.STATE.set 0 0 } : Emulator DExpr) with
        STATE := (encEmu.STATE.set 0 0).set 0 STATE_IRQ })) (by decide)
  constructor
  · rw [(decodeDirection_priority symOps (steerCore 0x0C) 1 () encEmu _ rngFirst _ 0x0C hsetup
      (hl 0x0C).1 (hl 0x0C).2.1).1, (hl 0x0C).2.2]
    rfl
  · rw [(decodeDirection_priority symOps (steerCore 0x08) 1 () encEmu _ rngFirst _ 0x08 hsetup
      (hl 0x08).1 (hl 0x08).2.1).1, (hl 0x08).2.2]
    rfl

/-- C6: board encoder tile types, with full overwrite. For every emulator
whose board region has `board_width * board_height` bytes, whatever they hold,
and every state whose snake has `n ≥ 2` pairwise distinct in-board segments
and whose food is in the board and on no segment, `Emulator::setup_state`
completes and afterwards the cell at index `x + y*board_width` has tile-type
nibble 1 at segment 0, 3 at segment `n-1` and 2 at every segment between, the
food cell is exactly `0x40`, every other cell of the board region is exactly
`0x00`, and the board is the one any other previous content would have given. -/
theorem setup_state_tile_types {F : Type} (th : Emulator F) (s : GameState F)
    (hsz : th.Sized)
    (hN : (th.BOARD.length : Int) = th.m_game.board_width * th.m_game.board_height)
    (hn : 2 ≤ s.snake.length) (hnd : s.snake.Nodup)
    (hin : ∀ p ∈ s.snake, inBoard th.m_game.board_width th.m_game.board_height p)
    (hf : inBoard th.m_game.board_width th.m_game.board_height s.food)
    (hfs : s.food ∉ s.snake) :
    ∃ th', th.setup_state s = some th' ∧
      (∀ i p, s.snake[i]? = some p →
        th'.cellAt p / 16 = if i = 0 then 1 else if i + 1 = s.snake.length then 3 else 2) ∧
      th'.cellAt s.food = 0x40 ∧
      th'.BOARD.length = th.BOARD.length ∧
      (∀ k, k < th'.BOARD.length →
        (∀ p ∈ s.snake, (cellIndex th.m_game.board_width p).toNat ≠ k) →
        (cellIndex th.m_game.board_width s.food).toNat ≠ k → th'.BOARD.getD k 0 = 0x00) ∧
      (∀ previous : List Nat, previous.length = th.BOARD.length →
        ({ th with BOARD := previous }.setup_state s).map (fun r : Emulator F => r.BOARD) =
          some th'.BOARD) := by
  have hne : s.snake ≠ [] := by
    intro h; rw [h] at hn; simp at hn
  have hrange : ∀ p, inBoard th.m_game.board_width th.m_game.board_height p →
      0 ≤ cellIndex th.m_game.board_width p ∧
      cellIndex th.m_game.board_width p < th.BOARD.length := by
    intro p hp
    have := cellIndex_range _ _ p hp
    rw [hN]; exact this
  have hst : 0 < th.STATE.length := by rw [hsz.state]; decide
  have hseg : ∀ p ∈ s.snake, 0 ≤ cellIndex th.m_game.board_width p ∧
      cellIndex th.m_game.board_width p < th.BOARD.length := fun p hp => hrange p (hin p hp)
  refine ⟨_, setup_state_eq_encoded th s hst hne hseg (hrange _ hf), ?_, ?_, ?_, ?_, ?_⟩
  · intro i p hp
    have hi : i < s.snake.length := by
      by_contra hc
      rw [List.getElem?_eq_none (by omega)] at hp
      cases hp
    have hpe : p = s.snake.getD i origin := by
      rw [List.getD_eq_getElem?_getD, hp]; rfl
    show (encodedBoard _ _ _ _ _).getD (cellIndex th.m_game.board_width p).toNat 0 / 16 = _
    rw [hpe, encodedBoard_segment _ _ _ hN _ _ _ hnd hin i hi,
      (type_or_bits_div _ _ (segType_cases _ _) (segBits_lt _ _ _)).1]
    unfold segType
    split_ifs <;> first | omega | rfl
  · show (encodedBoard _ _ _ _ _).getD (cellIndex th.m_game.board_width s.food).toNat 0 = _
    rw [encodedBoard_off_snake _ _ _ _ _ _ (by omega)
      (by
        intro i hi he
        have h1 := hseg _ (getD_mem s.snake i hi)
        have h2 := hrange _ hf
        have : cellIndex th.m_game.board_width (s.snake.getD i origin) =
            cellIndex th.m_game.board_width s.food := by omega
        have := cellIndex_inj _ _ _ _ (hin _ (getD_mem s.snake i hi)) hf this
        exact hfs (this ▸ getD_mem s.snake i hi)),
      if_pos ⟨rfl, by have := hrange _ hf; omega⟩]
    rfl
  · exact encodedBoard_length _ _ _ _ _
  · intro k _ hk hkf
    show (encodedBoard _ _ _ _ _).getD k 0 = _
    rw [encodedBoard_off_snake _ _ _ _ _ _ (by omega)
      (fun i hi => hk _ (getD_mem s.snake i hi)), if_neg (fun h => hkf h.1)]
  · intro previous hp
    have hseg' : ∀ p ∈ s.snake, 0 ≤ cellIndex th.m_game.board_width p ∧
        cellIndex th.m_game.board_width p < previous.length := by
      intro p hpm; rw [hp]; exact hseg p hpm
    have hfood' : 0 ≤ cellIndex th.m_game.board_width s.food ∧
        cellIndex th.m_game.board_width s.food < previous.length := by
      rw [hp]; exact hrange _ hf
    rw [setup_state_eq_encoded { th with BOARD := previous } s hst hne hseg' hfood']
    show some (encodedBoard _ previous.length _ _ _) = _
    rw [hp]

/-- Witness for C6: the board written for `squareGame` over stale `0xFF` bytes. -/
theorem setup_state_tile_types_witness :
    ∃ th', encEmu.setup_state squareGame.state = some th' ∧
      th'.BOARD = [0x11, 0x21, 0, 0, 0x32, 0x24, 0, 0, 0, 0, 0, 0, 0, 0, 0, 0x40] := by
  obtain ⟨th', h1, -, -, -, -, -⟩ :=
    setup_state_tile_types encEmu squareGame.state encEmu_sized (by decide) (by decide)
      (by decide) (by decide) (by decide) (by decide)
  refine ⟨th', h1, ?_⟩
  have hc : (encEmu.setup_state squareGame.state).map (fun r : Emulator DExpr => r.BOARD) =
      some [0x11, 0x21, 0, 0, 0x32, 0x24, 0, 0, 0, 0, 0, 0, 0, 0, 0, 0x40] := by decide
  rw [h1] at hc
  exact Option.some.inj hc

/-- C7: board encoder direction bits. For every emulator whose board region has
`board_width * board_height` bytes and every state whose snake has pairwise
distinct in-board segments, after `Emulator::setup_state` the low nibble of the
head cell is exactly the single bit of `snakeDirection` (LEFT `0x1`, RIGHT
`0x2`, UP `0x4`, DOWN `0x8`); for every segment `i ≥ 1`, with `(dx, dy) =
snake[i] - snake[i-1]`, bit 1 (RIGHT) of its cell is set iff `dx < 0`, bit 0
(LEFT) iff `dx > 0`, bit 3 (DOWN) iff `dy < 0` and bit 2 (UP) iff `dy > 0`; and
every segment cell keeps the tile-type nibble placed on it (3 at the tail,
else 1 at the head, else 2). The call has a defined result exactly when the
snake is non-empty and the food index `food.x + food.y * board_width` is
inside the board region, as it is in every state the game stores. -/
theorem setup_state_direction_bits {F : Type} (th : Emulator F) (s : GameState F)
    (hsz : th.Sized)
    (hN : (th.BOARD.length : Int) = th.m_game.board_width * th.m_game.board_height)
    (hnd : s.snake.Nodup)
    (hin : ∀ p ∈ s.snake, inBoard th.m_game.board_width th.m_game.board_height p) :
    (∀ th', th.setup_state s = some th' →
      (∀ a, s.snake.head? = some a → th'.cellAt a % 16 = specDirBit s.snakeDirection) ∧
      (∀ i p q, s.snake[i + 1]? = some p → s.snake[i]? = some q →
        ((th'.cellAt p).testBit 1 = true ↔ p.x - q.x < 0) ∧
        ((th'.cellAt p).testBit 0 = true ↔ p.x - q.x > 0) ∧
        ((th'.cellAt p).testBit 3 = true ↔ p.y - q.y < 0) ∧
        ((th'.cellAt p).testBit 2 = true ↔ p.y - q.y > 0)) ∧
      (∀ i p, s.snake[i]? = some p →
        th'.cellAt p / 16 = if i + 1 = s.snake.length then 3 else if i = 0 then 1 else 2)) ∧
    ((∃ th', th.setup_state s = some th') ↔
      s.snake ≠ [] ∧ 0 ≤ cellIndex th.m_game.board_width s.food ∧
        cellIndex th.m_game.board_width s.food < th.BOARD.length) := by
  refine ⟨?_, setup_state_defined_iff th s hsz hN hin⟩
  intro th' h
  obtain ⟨a, l, hs⟩ := List.exists_cons_of_ne_nil (setup_state_frame th th' s h).2.2.2
  obtain ⟨th2, h2, p1, p2, p3⟩ := direction_bits_in_range th s hsz hN a l hs hnd hin
    (setup_state_food_range th th' s h)
  rw [h] at h2
  cases h2
  refine ⟨?_, p2, p3⟩
  intro b hb
  rw [hs] at hb
  cases hb
  exact p1

/-- Witness for C7: `Emulator::setup_state` completes on `squareGame`, the head
cell carries the LEFT bit and the tail cell at `(0,1)`, whose predecessor is
`(1,1)`, the RIGHT bit. -/
theorem setup_state_direction_bits_witness :
    ∃ th', encEmu.setup_state squareGame.state = some th' ∧
      th'.cellAt ⟨0, 0⟩ % 16 = 0x1 ∧ (th'.cellAt ⟨0, 1⟩).testBit 1 = true := by
  have h := setup_state_direction_bits encEmu squareGame.state encEmu_sized (by decide)
    (by decide) (by decide)
  obtain ⟨th', h1⟩ := h.2.mpr ⟨by decide, by decide⟩
  obtain ⟨h2, h3, -⟩ := h.1 th' h1
  exact ⟨th', h1, h2 ⟨0, 0⟩ rfl, (h3 2 ⟨0, 1⟩ ⟨1, 1⟩ rfl rfl).1.mpr (by decide)⟩

/-- C8: bus read dispatch follows the address map. For every address `a` and
every emulator whose stores have their constructed sizes (board at most
`0x1000` bytes, ROM at most 32752), `Emulator::BusRead` returns `RAM[a]` for
`a < 0x4000`, `BOARD[a-0x4000]` for `0x4000 ≤ a < 0x4000+B`, `STATE[a-0x5000]`
for `0x5000 ≤ a ≤ 0x5002`, `ROM[a-0x8000]` for `0x8000 ≤ a < 0x8000+R`,
`ISR[a-0xFFF0]` for `0xFFF0 ≤ a ≤ 0xFFFF`, and `0` for every other address;
the ROM ends at or before `0xFFEF`, at most one of the five ranges contains `a`
(so the order of the checks is immaterial), and the read leaves the five
backing stores as they were. -/
theorem busRead_dispatch {F : Type} (th : Emulator F) (a : Nat) (hs : th.Sized) :
    (a < 0x4000 → th.RAM[a]? = some (th.BusRead a).1) ∧
    (0x4000 ≤ a → a < 0x4000 + th.BOARD.length →
      th.BOARD[a - 0x4000]? = some (th.BusRead a).1) ∧
    (0x5000 ≤ a → a ≤ 0x5002 → th.STATE[a - 0x5000]? = some (th.BusRead a).1) ∧
    (0x8000 ≤ a → a < 0x8000 + th.ROM.length → th.ROM[a - 0x8000]? = some (th.BusRead a).1) ∧
    (0xFFF0 ≤ a → a ≤ 0xFFFF → th.ISR[a - 0xFFF0]? = some (th.BusRead a).1) ∧
    (¬ a < 0x4000 → ¬ (0x4000 ≤ a ∧ a < 0x4000 + th.BOARD.length) →
      ¬ (0x5000 ≤ a ∧ a ≤ 0x5002) → ¬ (0x8000 ≤ a ∧ a < 0x8000 + th.ROM.length) →
      ¬ (0xFFF0 ≤ a ∧ a ≤ 0xFFFF) → (th.BusRead a).1 = 0) ∧
    0x8000 + th.ROM.length ≤ 0xFFF0 ∧
    List.count true [decide (a < 0x4000), decide (0x4000 ≤ a ∧ a < 0x4000 + th.BOARD.length),
      decide (0x5000 ≤ a ∧ a ≤ 0x5002), decide (0x8000 ≤ a ∧ a < 0x8000 + th.ROM.length),
      decide (0xFFF0 ≤ a ∧ a ≤ 0xFFFF)] ≤ 1 ∧
    ((th.BusRead a).2.RAM = th.RAM ∧ (th.BusRead a).2.BOARD = th.BOARD ∧
      (th.BusRead a).2.STATE = th.STATE ∧ (th.BusRead a).2.ROM = th.ROM ∧
      (th.BusRead a).2.ISR = th.ISR) := by
  have h1 := hs.ram
  have h2 := hs.board
  have h3 := hs.state
  have h4 := hs.rom
  have h5 := hs.isr
  have hget : ∀ (l : List Nat) (i : Nat), i < l.length → l[i]? = some (l.getD i 0) := by
    intro l i hi
    rw [List.getD_eq_getElem?_getD, List.getElem?_eq_getElem hi]; rfl
  rw [busRead_fst th a hs]
  refine ⟨?_, ?_, ?_, ?_, ?_, ?_, by omega, ?_, ?_⟩
  · intro c; rw [if_pos c]; exact hget _ _ (by omega)
  · intro c c'; rw [if_neg (by omega), if_pos c']; exact hget _ _ (by omega)
  · intro c c'
    rw [if_neg (by omega), if_neg (by omega), if_pos ⟨c, c'⟩]; exact hget _ _ (by omega)
  · intro c c'
    rw [if_neg (by omega), if_neg (by omega), if_neg (by omega), if_pos ⟨c, c'⟩]
    exact hget _ _ (by omega)
  · intro c c'
    rw [if_neg (by omega), if_neg (by omega), if_neg (by omega), if_neg (by omega),
      if_pos ⟨c, c'⟩]
    exact hget _ _ (by omega)
  · intro c1 c2 c3 c4 c5
    rw [if_neg c1, if_neg (by omega), if_neg c3, if_neg c4, if_neg c5]
  · by_cases c1 : a < 0x4000
    · have c2 : ¬ (0x4000 ≤ a ∧ a < 0x4000 + th.BOARD.length) := by omega
      have c3 : ¬ (0x5000 ≤ a ∧ a ≤ 0x5002) := by omega
      have c4 : ¬ (0x8000 ≤ a ∧ a < 0x8000 + th.ROM.length) := by omega
      have c5 : ¬ (0xFFF0 ≤ a ∧ a ≤ 0xFFFF) := by omega
      simp [c1, c2, c3, c4, c5]
    · by_cases c2 : (0x4000 ≤ a ∧ a < 0x4000 + th.BOARD.length)
      · have c3 : ¬ (0x5000 ≤ a ∧ a ≤ 0x5002) := by omega
        have c4 : ¬ (0x8000 ≤ a ∧ a < 0x8000 + th.ROM.length) := by omega
        have c5 : ¬ (0xFFF0 ≤ a ∧ a ≤ 0xFFFF) := by omega
        simp [c1, c2, c3, c4, c5]
      · by_cases c3 : (0x5000 ≤ a ∧ a ≤ 0x5002)
        · have c4 : ¬ (0x8000 ≤ a ∧ a < 0x8000 + th.ROM.length) := by omega
          have c5 : ¬ (0xFFF0 ≤ a ∧ a ≤ 0xFFFF) := by omega
          simp [c1, c2, c3, c4, c5]
        · by_cases c4 : (0x8000 ≤ a ∧ a < 0x8000 + th.ROM.length)
          · have c5 : ¬ (0xFFF0 ≤ a ∧ a ≤ 0xFFFF) := by omega
            simp [c1, c2, c3, c4, c5]
          · by_cases c5 : (0xFFF0 ≤ a ∧ a ≤ 0xFFFF) <;> simp [c1, c2, c3, c4, c5]
  · obtain ⟨r1, r2, r3, r4, r5, -⟩ := busRead_snd th a
    exact ⟨r1, r2, r3, r4, r5⟩

/-- Witness for C8: reads of a vector byte, a ROM byte and an unmapped address. -/
theorem busRead_dispatch_witness :
    busEmu.Sized ∧ (busEmu.BusRead 0xFFFB).1 = 0x80 ∧ (busEmu.BusRead 0x8002).1 = 0x8D ∧
      (busEmu.BusRead 0x6000).1 = 0 := by
  have h := busRead_dispatch busEmu 0xFFFB busEmu_sized
  have h5 := h.2.2.2.2.1 (by decide) (by decide)
  have h' := busRead_dispatch busEmu 0x8002 busEmu_sized
  have h4 := h'.2.2.2.1 (by decide) (by decide)
  have h'' := busRead_dispatch busEmu 0x6000 busEmu_sized
  have h6 := h''.2.2.2.2.2.1 (by decide) (by decide) (by decide) (by decide) (by decide)
  refine ⟨busEmu_sized, ?_, ?_, h6⟩
  · have : busEmu.ISR[0xFFFB - 0xFFF0]? = some 0x80 := by decide
    rw [this] at h5
    exact (Option.some.inj h5).symm
  · have : busEmu.ROM[0x8002 - 0x8000]? = some 0x8D := by decide
    rw [this] at h4
    exact (Option.some.inj h4).symm

/-- C9: out-of-bounds and read-only writes are dropped. For every address `a`
outside program RAM (`0x0000-0x3FFF`), the control/status registers
(`0x5000-0x5002`) and the interrupt vector table (`0xFFF0-0xFFFF`), the board
and ROM windows included, and every value `v`, `Emulator::BusWrite(a, v)`
leaves RAM, BOARD, STATE, ROM and ISR unchanged, so `BusRead` of every address
returns the byte it returned before the write. -/
theorem busWrite_dropped {F : Type} (th : Emulator F) (a v : Nat) (hs : th.Sized)
    (h1 : ¬ a < 0x4000) (h2 : ¬ (0x5000 ≤ a ∧ a ≤ 0x5002))
    (h3 : ¬ (0xFFF0 ≤ a ∧ a ≤ 0xFFFF)) :
    ((th.BusWrite a v).RAM = th.RAM ∧ (th.BusWrite a v).BOARD = th.BOARD ∧
      (th.BusWrite a v).STATE = th.STATE ∧ (th.BusWrite a v).ROM = th.ROM ∧
      (th.BusWrite a v).ISR = th.ISR) ∧
    ∀ a' : Nat, ((th.BusWrite a v).BusRead a').1 = (th.BusRead a').1 := by
  obtain ⟨r1, r2, r3, r4, r5, -⟩ := busWrite_stores th a v hs
  rw [if_neg h1] at r1
  rw [if_neg h2] at r3
  rw [if_neg h3] at r5
  refine ⟨⟨r1, r2, r3, r4, r5⟩, ?_⟩
  intro a'
  rw [busRead_fst _ a' (busWrite_sized th a v hs), busRead_fst th a' hs, r1, r2, r3, r4, r5]

/-- Witness for C9: a write into the board window and a write into the ROM window
change no read. -/
theorem busWrite_dropped_witness :
    (∀ a' : Nat, ((busEmu.BusWrite 0x4001 0x55).BusRead a').1 = (busEmu.BusRead a').1) ∧
    (∀ a' : Nat, ((busEmu.BusWrite 0x8002 0x55).BusRead a').1 = (busEmu.BusRead a').1) :=
  ⟨(busWrite_dropped busEmu 0x4001 0x55 busEmu_sized (by decide) (by decide) (by decide)).2,
   (busWrite_dropped busEmu 0x8002 0x55 busEmu_sized (by decide) (by decide) (by decide)).2⟩

/-- C10: read-after-write on the writable regions. For every address `a` in
program RAM, the control/status registers (the debug register `0x5002`
included) or the interrupt vector table and every byte `v`, after
`Emulator::BusWrite(a, v)` a `BusRead(a)` returns `v` and `BusRead(a')` returns
its previous value for every `a' ≠ a`. -/
theorem busWrite_read_back {F : Type} (th : Emulator F) (a v : Nat) (hs : th.Sized)
    (ha : a < 0x4000 ∨ (0x5000 ≤ a ∧ a ≤ 0x5002) ∨ (0xFFF0 ≤ a ∧ a ≤ 0xFFFF)) :
    ((th.BusWrite a v).BusRead a).1 = v ∧
    ∀ a' : Nat, a' ≠ a → ((th.BusWrite a v).BusRead a').1 = (th.BusRead a').1 := by
  have h1 := hs.ram
  have h2 := hs.board
  have h3 := hs.state
  have h4 := hs.rom
  have h5 := hs.isr
  obtain ⟨r1, r2, r3, r4, r5, -⟩ := busWrite_stores th a v hs
  constructor
  · rw [busRead_fst _ a (busWrite_sized th a v hs), r1, r2, r3, r4, r5]
    rcases ha with c | c | c
    · rw [if_pos c, if_pos c]; exact getD_set_self _ _ _ (by omega)
    · rw [if_neg (by omega), if_neg (by omega), if_pos c, if_pos c]
      exact getD_set_self _ _ _ (by omega)
    · rw [if_neg (by omega), if_neg (by omega), if_neg (by omega), if_neg (by omega),
        if_pos c, if_pos c]
      exact getD_set_self _ _ _ (by omega)
  · intro a' hne
    rw [busRead_fst _ a' (busWrite_sized th a v hs), busRead_fst th a' hs, r1, r2, r3, r4, r5]
    by_cases d1 : a' < 0x4000
    · rw [if_pos d1, if_pos d1]
      split
      · exact getD_set_ne _ _ _ _ (by omega)
      · rfl
    · rw [if_neg d1, if_neg d1]
      by_cases d2 : a' < 0x4000 + th.BOARD.length
      · rw [if_pos d2, if_pos d2]
      · rw [if_neg d2, if_neg d2]
        by_cases d3 : 0x5000 ≤ a' ∧ a' ≤ 0x5002
        · rw [if_pos d3, if_pos d3]
          split
          · exact getD_set_ne _ _ _ _ (by omega)
          · rfl
        · rw [if_neg d3, if_neg d3]
          by_cases d4 : 0x8000 ≤ a' ∧ a' < 0x8000 + th.ROM.length
          · rw [if_pos d4, if_pos d4]
          · rw [if_neg d4, if_neg d4]
            by_cases d5 : 0xFFF0 ≤ a' ∧ a' ≤ 0xFFFF
            · rw [if_pos d5, if_pos d5]
              split
              · exact getD_set_ne _ _ _ _ (by omega)
              · rfl
            · rw [if_neg d5, if_neg d5]

/-- Witness for C10: the debug register reads back the byte written and the
direction register keeps its value. -/
theorem busWrite_read_back_witness :
    ((busEmu.BusWrite 0x5002 0x2A).BusRead 0x5002).1 = 0x2A ∧
    ((busEmu.BusWrite 0x5002 0x2A).BusRead 0x5001).1 = (busEmu.BusRead 0x5001).1 :=
  ⟨(busWrite_read_back busEmu 0x5002 0x2A busEmu_sized (by decide)).1,
   (busWrite_read_back busEmu 0x5002 0x2A busEmu_sized (by decide)).2 0x5001 (by decide)⟩

/-- C11 (as amended): cycle budget enforcement. The CPU core is any pair of
functions `Run`, `IRQ` on its own state and the emulator such that, from every
counter below `max_clock_cycles`, `Run` leaves a larger counter that still fits
the 64-bit variable. If `setup_state` completes and no step of the core sets
the DONE bit (bit 1 of register 0), then the loop of `Emulator::cycle` ends
after some `n` steps and `cycle` returns: a step is executed only from a
counter below `max_clock_cycles`, `n` is the first step count at which the
counter has reached `max_clock_cycles` (`n = 0` when the budget is 0), the
stored `iteration_clock_cycles` is that counter, and `total_clock_cycles` has
grown by it modulo `2 ^ 64`, so by exactly it when the sum fits 64 bits. -/
theorem cycle_budget {C F : Type} (ops : DoubleOps F) (core : Core C F) (c : C)
    (th th1 : Emulator F) (rng : RngOutcome)
    (hsetup : th.setup_state th.m_game.state = some th1)
    (hrun : ∀ c th' cycles, cycles < th.max_clock_cycles →
      cycles < (core.Run c th' cycles).2.2 ∧ (core.Run c th' cycles).2.2 < 2 ^ 64)
    (hdone : ∀ k, (coreTrace core (c, { th1 with STATE := th1.STATE.set 0 STATE_IRQ }, 0)
      (k + 1)).2.1.STATE.getD STATE_CONTROL 0 &&& STATE_DONE = 0) :
    ∃ n,
      (∀ k, k < n → (coreTrace core (c, { th1 with STATE := th1.STATE.set 0 STATE_IRQ }, 0)
        k).2.2 < th.max_clock_cycles) ∧
      th.max_clock_cycles ≤ (coreTrace core
        (c, { th1 with STATE := th1.STATE.set 0 STATE_IRQ }, 0) n).2.2 ∧
      (th.max_clock_cycles = 0 → n = 0) ∧
      (∀ fuel, n < fuel →
        cycleLoop core th.max_clock_cycles fuel
          (c, { th1 with STATE := th1.STATE.set 0 STATE_IRQ }, 0) =
        some (coreTrace core (c, { th1 with STATE := th1.STATE.set 0 STATE_IRQ }, 0) n)) ∧
      ∃ b c' th', (∀ fuel, n < fuel → th.cycle ops core fuel c rng = some (b, c', th')) ∧
        th'.m_game.state.iteration_clock_cycles =
          (coreTrace core (c, { th1 with STATE := th1.STATE.set 0 STATE_IRQ }, 0) n).2.2 ∧
        th'.m_game.state.total_clock_cycles =
          (th.m_game.state.total_clock_cycles +
            (coreTrace core (c, { th1 with STATE := th1.STATE.set 0 STATE_IRQ }, 0) n).2.2)
            % 2 ^ 64 ∧
        (th.m_game.state.total_clock_cycles +
            (coreTrace core (c, { th1 with STATE := th1.STATE.set 0 STATE_IRQ }, 0) n).2.2
            < 2 ^ 64 →
          th'.m_game.state.total_clock_cycles =
            th.m_game.state.total_clock_cycles +
              (coreTrace core (c, { th1 with STATE := th1.STATE.set 0 STATE_IRQ }, 0) n).2.2) := by
  obtain ⟨hfr, hlen, hpos, hne⟩ := setup_state_frame th th1 _ hsetup
  obtain ⟨n, h1, h2, h3, h4⟩ := cycleLoop_terminates core th.max_clock_cycles
    (c, { th1 with STATE := th1.STATE.set 0 STATE_IRQ }, 0) hrun hdone
  refine ⟨n, h1, h2, fun h0 => h3 (by simp [h0]), h4, ?_⟩
  generalize hT : coreTrace core (c, { th1 with STATE := th1.STATE.set 0 STATE_IRQ }, 0) n = T
    at h4 ⊢
  obtain ⟨b, g', ht, ht1, ht2, -, -⟩ := tick_cycle_counters ops
    { T.2.1.m_game with state :=
      { th.m_game.state with
        iteration_clock_cycles := T.2.2
        total_clock_cycles := (th.m_game.state.total_clock_cycles + T.2.2) % 2 ^ 64 } } rng
    (decodeDirection (T.2.1.STATE.getD STATE_SNAKE_DIRECTION 0)) hne
  refine ⟨b, T.1, { T.2.1 with m_game := g' }, ?_, ht2, ht1, ?_⟩
  · intro fuel hf
    rw [cycle_of_loop ops core fuel c th th1 rng T hsetup (h4 fuel hf), ht]
    rfl
  · intro hfit
    rw [← Nat.mod_eq_of_lt hfit]
    exact ht1

/-- Witness for C11 (as amended): the idle core, three cycles per step, on
`encEmu` with a budget of 100 cycles. -/
theorem cycle_budget_witness :
    ∃ n b c' th', (∀ fuel, n < fuel →
        encEmu.cycle symOps idleCore fuel () rngFirst = some (b, c', th')) ∧
      100 ≤ th'.m_game.state.iteration_clock_cycles ∧
      th'.m_game.state.total_clock_cycles = th'.m_game.state.iteration_clock_cycles := by
  have hsetup := setup_state_eq_encoded encEmu encEmu.m_game.state (by decide) (by decide)
    (by decide) (by decide)
  obtain ⟨n, h1, h2, -, -, b, c', th', h5, h6, h7, -⟩ :=
    cycle_budget symOps idleCore () encEmu _ rngFirst hsetup
      (fun _ _ cycles hc => ⟨Nat.lt_add_of_pos_right (by decide), by
        have hc' : cycles < 100 := hc
        show cycles + 3 < 2 ^ 64
        omega⟩)
      (fun k => by rw [idleCore_trace]; decide)
  refine ⟨n, b, c', th', h5, ?_, ?_⟩
  · rw [h6]; exact h2
  · rw [h7, h6]
    show (0 + _) % 2 ^ 64 = _
    rw [Nat.zero_add]
    cases n with
    | zero => rfl
    | succ n =>
      rw [coreTrace_succ, coreStep_cycles]
      exact Nat.mod_mod _ _

/-- C11 (as stated) fails: `evenCore` adds two cycles per `Run(1)` call and
never sets DONE, and the budget of `budgetEmu` is `0xFFFFFFFFFFFFFFFF`, the
default of `main.cpp`. The 64-bit counter takes even values only and wraps from
`2 ^ 64 - 2` to `0`, so it never reaches the odd budget: `setup_state`
completes, every step starts below the budget, and the loop does not end
whatever the fuel, so `Emulator::cycle` does not return. -/
theorem cycle_budget_counterexample :
    (∀ c th cycles, cycles + 1 ≤ (evenCore.Run c th cycles).2.2) ∧
    ∃ th1, budgetEmu.setup_state budgetEmu.m_game.state = some th1 ∧
      (∀ k, (coreTrace evenCore ((), { th1 with STATE := th1.STATE.set 0 STATE_IRQ }, 0)
        k).2.1.STATE.getD STATE_CONTROL 0 &&& STATE_DONE = 0) ∧
      (∀ k, (coreTrace evenCore ((), { th1 with STATE := th1.STATE.set 0 STATE_IRQ }, 0)
        k).2.2 < budgetEmu.max_clock_cycles) ∧
      (∀ fuel, cycleLoop evenCore budgetEmu.max_clock_cycles fuel
        ((), { th1 with STATE := th1.STATE.set 0 STATE_IRQ }, 0) = none) ∧
      (∀ fuel, budgetEmu.cycle symOps evenCore fuel () rngFirst = none) := by
  have hsetup := setup_state_eq_encoded budgetEmu budgetEmu.m_game.state (by decide)
    (by decide) (by decide) (by decide)
  have hdone : ∀ k, (coreTrace evenCore ((), { ({ budgetEmu with
      BOARD := encodedBoard budgetEmu.m_game.board_width budgetEmu.BOARD.length
        budgetEmu.m_game.state.snake budgetEmu.m_game.state.food
        budgetEmu.m_game.state.snakeDirection
      STATE := budgetEmu.STATE.set 0 0 } : Emulator DExpr) with
      STATE := (budgetEmu.STATE.set 0 0).set 0 STATE_IRQ }, 0)
        k).2.1.STATE.getD STATE_CONTROL 0 &&& STATE_DONE = 0 := by
    intro k
    rw [(evenCore_trace _ _ _ k).1]
    decide
  have hlt : ∀ k, (coreTrace evenCore ((), { ({ budgetEmu with
      BOARD := encodedBoard budgetEmu.m_game.board_width budgetEmu.BOARD.length
        budgetEmu.m_game.state.snake budgetEmu.m_game.state.food
        budgetEmu.m_game.state.snakeDirection
      STATE := budgetEmu.STATE.set 0 0 } : Emulator DExpr) with
      STATE := (budgetEmu.STATE.set 0 0).set 0 STATE_IRQ }, 0)
        k).2.2 < budgetEmu.max_clock_cycles := by
    intro k
    obtain ⟨-, h2, h3⟩ := evenCore_trace () ({ ({ budgetEmu with
      BOARD := encodedBoard budgetEmu.m_game.board_width budgetEmu.BOARD.length
        budgetEmu.m_game.state.snake budgetEmu.m_game.state.food
        budgetEmu.m_game.state.snakeDirection
      STATE := budgetEmu.STATE.set 0 0 } : Emulator DExpr) with
      STATE := (budgetEmu.STATE.set 0 0).set 0 STATE_IRQ }) 0 k
    have h3 := h3 (by decide)
    show _ < 0xFFFFFFFFFFFFFFFF
    generalize (coreTrace evenCore _ k).2.2 = t at h2 h3 ⊢
    have e : (2 : Nat) ^ 64 = 18446744073709551616 := by norm_num
    rw [e] at h3
    omega
  have hloop := fun fuel => cycleLoop_none evenCore budgetEmu.max_clock_cycles fuel _ hlt
    (fun k => hdone (k + 1))
  exact ⟨fun _ _ cycles => by show cycles + 1 ≤ cycles + 2; omega,
    _, hsetup, hdone, hlt, hloop,
    fun fuel => cycle_of_loop_none symOps evenCore fuel () budgetEmu _ rngFirst hsetup
      (hloop fuel)⟩

/-- C12: no duplicate snake positions is preserved by a tick. For every game
whose snake segments are pairwise distinct and whose food lies on no segment,
and every requested direction, if `Game::tick` returns `true` then the stored
snake afterwards has pairwise distinct segments, in the eating case (the
pre-shift tail is appended) as in the non-eating case. -/
theorem tick_nodup {F : Type} (ops : DoubleOps F) (g g' : Game F) (rng : RngOutcome)
    (d : Direction) (hnd : g.state.snake.Nodup) (hfood : g.state.food ∉ g.state.snake)
    (ht : g.tick ops rng d = some (true, g')) : g'.state.snake.Nodup := by
  obtain ⟨a, l, hs, -, hh, hcase⟩ := tick_true_cases ops g g' rng d ht
  rw [hs] at hnd hfood
  rcases hcase with ⟨hp, rfl⟩ | ⟨-, rfl⟩
  · show (g.spawnFood ops rng _).snake.Nodup
    rw [spawnFood_snake]
    exact List.nodup_cons.mpr ⟨by rw [hp]; exact hfood, hnd⟩
  · exact List.nodup_cons.mpr ⟨hh, hnd.sublist (List.dropLast_sublist _)⟩

/-- Witness for C12: the coiled snake of `squareGame` steps onto its vacated
tail cell and stays duplicate-free; the snake of `eatGame` eats and stays
duplicate-free. -/
theorem tick_nodup_witness :
    (∀ g', squareGame.tick symOps rngFirst .DIR_DOWN = some (true, g') →
      g'.state.snake.Nodup) ∧
    (∀ g', eatGame.tick symOps rngFirst .DIR_RIGHT = some (true, g') →
      g'.state.snake.Nodup) ∧
    (squareGame.tick symOps rngFirst .DIR_DOWN).map Prod.fst = some true ∧
    (eatGame.tick symOps rngFirst .DIR_RIGHT).map Prod.fst = some true :=
  ⟨fun g' => tick_nodup symOps squareGame g' rngFirst .DIR_DOWN (by decide) (by decide),
   fun g' => tick_nodup symOps eatGame g' rngFirst .DIR_RIGHT (by decide) (by decide),
   by decide, by decide⟩

/-- C13 (as amended): food stays off the snake unless the board is full. For
every game whose food lies on no snake segment, every requested direction and
every RNG outcome, if `Game::tick` returns `true` then the food of the stored
state differs from every stored segment, provided the tick did not eat (the
snake kept its length) or some cell of the board is free of the stored snake;
if the tick ate and the stored snake covers the board, the food is left on
the eaten cell, which is the new head. -/
theorem tick_food_off_snake {F : Type} (ops : DoubleOps F) (g g' : Game F) (rng : RngOutcome)
    (d : Direction) (hfood : g.state.food ∉ g.state.snake)
    (ht : g.tick ops rng d = some (true, g')) :
    ((g'.state.snake.length = g.state.snake.length ∨
        ∃ q, inBoard g.board_width g.board_height q ∧ q ∉ g'.state.snake) →
      g'.state.food ∉ g'.state.snake) ∧
    (g'.state.snake.length = g.state.snake.length + 1 →
      (∀ q, inBoard g.board_width g.board_height q → q ∈ g'.state.snake) →
      g'.state.food = g.state.food ∧ g'.state.snake.head? = some g'.state.food) := by
  obtain ⟨a, l, hs, -, hh, hcase⟩ := tick_true_cases ops g g' rng d ht
  rw [hs] at hfood
  rcases hcase with ⟨hp, rfl⟩ | ⟨hp, rfl⟩
  · have hsn : (g.spawnFood ops rng
        { g.state with
          total_ticks := g.state.total_ticks + 1
          snakeDirection := effectiveDirection g.state.snakeDirection d
          snake := moveHead (effectiveDirection g.state.snakeDirection d) a :: a :: l
          score := ops.add g.state.score g.state.food_value }).snake =
        moveHead (effectiveDirection g.state.snakeDirection d) a :: a :: l :=
      spawnFood_snake ops g rng _
    constructor
    · intro hor
      show (g.spawnFood ops rng _).food ∉ (g.spawnFood ops rng _).snake
      rw [hsn]
      have hopen : openTiles g.board_width g.board_height
          (moveHead (effectiveDirection g.state.snakeDirection d) a :: a :: l) ≠ [] := by
        rcases hor with hl | ⟨q, hq, hn⟩
        · have hl' : (g.spawnFood ops rng _).snake.length = g.state.snake.length := hl
          rw [hsn, hs] at hl'
          simp at hl'
        · have hn' : q ∉ (g.spawnFood ops rng _).snake := hn
          rw [hsn] at hn'
          exact (openTiles_ne_nil_iff _ _ _).mpr ⟨q, hq, hn'⟩
      have hmem := (spawnFood_of_open ops g rng
        { g.state with
          total_ticks := g.state.total_ticks + 1
          snakeDirection := effectiveDirection g.state.snakeDirection d
          snake := moveHead (effectiveDirection g.state.snakeDirection d) a :: a :: l
          score := ops.add g.state.score g.state.food_value } hopen).1
      exact ((mem_openTiles _ _ _ _).mp hmem).2.2
    · intro _ hall
      have hall' : ∀ q, inBoard g.board_width g.board_height q →
          q ∈ (g.spawnFood ops rng _).snake := hall
      rw [hsn] at hall'
      have hfull := (openTiles_eq_nil_iff _ _ _).mpr hall'
      have heq := spawnFood_of_full ops g rng
        { g.state with
          total_ticks := g.state.total_ticks + 1
          snakeDirection := effectiveDirection g.state.snakeDirection d
          snake := moveHead (effectiveDirection g.state.snakeDirection d) a :: a :: l
          score := ops.add g.state.score g.state.food_value } hfull
      show (g.spawnFood ops rng _).food = _ ∧ (g.spawnFood ops rng _).snake.head? = _
      rw [heq]
      exact ⟨rfl, by rw [hp]; rfl⟩
  · constructor
    · intro _
      show g.state.food ∉ moveHead (effectiveDirection g.state.snakeDirection d) a ::
        (a :: l).dropLast
      intro hmem
      rcases List.mem_cons.mp hmem with h | h
      · exact hp h.symm
      · exact hfood (List.mem_of_mem_dropLast h)
    · intro hl
      have hl' : (moveHead (effectiveDirection g.state.snakeDirection d) a ::
          (a :: l).dropLast).length = g.state.snake.length + 1 := hl
      rw [hs] at hl'
      simp at hl'

/-- Witness for C13 (as amended): `eatGame` eats on a board with free cells and
the new food is off the snake. -/
theorem tick_food_off_snake_witness :
    (eatGame.tick symOps rngFirst .DIR_RIGHT).map Prod.fst = some true ∧
    ∀ g', eatGame.tick symOps rngFirst .DIR_RIGHT = some (true, g') →
      g'.state.food ∉ g'.state.snake := by
  refine ⟨by decide, fun g' ht => ?_⟩
  refine (tick_food_off_snake symOps eatGame g' rngFirst .DIR_RIGHT (by decide) ht).1
    (Or.inr ⟨⟨3, 3⟩, by decide, ?_⟩)
  have hc : eatGame.tick symOps rngFirst .DIR_RIGHT =
      some (true, ⟨4, 4, ⟨[⟨2, 0⟩, ⟨1, 0⟩, ⟨0, 0⟩], .DIR_RIGHT, ⟨0, 1⟩,
        .add .zero .half, .one, 6, 0, 0⟩⟩) := by decide
  rw [hc] at ht
  cases ht
  decide

/-- C13 (as stated) fails: on the 2x1 board the one-segment snake at `(0,0)` eats
the food at `(1,0)`; its segments were distinct and the food was on none of
them, the tick returns `true`, and afterwards the snake covers the board and
the food is still at `(1,0)`, under the new head. -/
theorem tick_food_off_snake_counterexample :
    tinyGame.state.snake.Nodup ∧ tinyGame.state.food ∉ tinyGame.state.snake ∧
    (tinyGame.tick symOps rngFirst .DIR_RIGHT).map
        (fun r => (r.1, r.2.state.food, r.2.state.snake)) =
      some (true, ⟨1, 0⟩, [⟨1, 0⟩, ⟨0, 0⟩]) ∧
    (⟨1, 0⟩ : GameVec2) ∈ [(⟨1, 0⟩ : GameVec2), ⟨0, 0⟩] := by
  decide

/-- C14: the `spawnFood` contract. For every game, state and RNG outcome: if
some cell of `[0, board_width) x [0, board_height)` carries no snake segment,
then after `Game::spawnFood` the food is such a cell and `food_value` is
`1.0`, with snake, direction, score and the three counters unchanged; if every
cell carries a segment, `Game::spawnFood` leaves the whole state unchanged. -/
theorem spawnFood_contract {F : Type} (ops : DoubleOps F) (g : Game F) (rng : RngOutcome)
    (s : GameState F) :
    ((∃ q, inBoard g.board_width g.board_height q ∧ q ∉ s.snake) →
      inBoard g.board_width g.board_height (g.spawnFood ops rng s).food ∧
      (g.spawnFood ops rng s).food ∉ s.snake ∧
      (g.spawnFood ops rng s).food_value = ops.one ∧
      g.spawnFood ops rng s =
        { s with food := (g.spawnFood ops rng s).food, food_value := ops.one }) ∧
    ((∀ q, inBoard g.board_width g.board_height q → q ∈ s.snake) →
      g.spawnFood ops rng s = s) := by
  constructor
  · intro hex
    have hopen := (openTiles_ne_nil_iff _ _ _).mpr hex
    obtain ⟨hmem, hval⟩ := spawnFood_of_open ops g rng s hopen
    obtain ⟨hx, hy, hn⟩ := (mem_openTiles _ _ _ _).mp hmem
    refine ⟨⟨hx, hy⟩, hn, hval, ?_⟩
    have hlen : ¬ (openTiles g.board_width g.board_height s.snake).length = 0 := by
      simpa [List.length_eq_zero] using hopen
    unfold Game.spawnFood
    dsimp only
    rw [if_neg hlen]
  · intro hall
    exact spawnFood_of_full ops g rng s ((openTiles_eq_nil_iff _ _ _).mpr hall)

/-- Witness for C14: on the 4x4 board of `squareGame` the first and the last
open cell are drawn; on the full 3x1 board nothing changes. -/
theorem spawnFood_contract_witness :
    (squareGame.spawnFood symOps rngFirst squareGame.state).food = ⟨0, 2⟩ ∧
    (squareGame.spawnFood symOps rngLast squareGame.state).food = ⟨3, 3⟩ ∧
    (squareGame.spawnFood symOps rngLast squareGame.state).food_value = DExpr.one ∧
    wallGame.spawnFood symOps rngFirst
        { wallGame.state with snake := [⟨2, 0⟩, ⟨1, 0⟩, ⟨0, 0⟩] } =
      { wallGame.state with snake := [⟨2, 0⟩, ⟨1, 0⟩, ⟨0, 0⟩] } :=
  ⟨by decide, by decide,
   ((spawnFood_contract symOps squareGame rngLast squareGame.state).1
      ⟨⟨3, 3⟩, by decide, by decide⟩).2.2.1,
   (spawnFood_contract symOps wallGame rngFirst
      { wallGame.state with snake := [⟨2, 0⟩, ⟨1, 0⟩, ⟨0, 0⟩] }).2 (by
        intro q hq
        obtain ⟨⟨hx0, hx1⟩, hy0, hy1⟩ := hq
        have hy : q.y = 0 := by
          have : wallGame.board_height = 1 := rfl
          omega
        have hx : q.x = 0 ∨ q.x = 1 ∨ q.x = 2 := by
          have : wallGame.board_width = 3 := rfl
          omega
        cases q with
        | mk x y =>
          simp only at hx hy
          subst hy
          rcases hx with rfl | rfl | rfl <;> decide)⟩

/-- C18: exact snake shape after a successful tick. For every game with snake
`s = a :: l` and every requested direction for which `Game::tick` returns
`true`, with `p` the new head: if `p` is not the food position the stored snake
is `p` followed by `s` without its last segment (same length) and the score is
unchanged; if `p` is the food position the stored snake is `p` followed by all
of `s` (one segment longer, the new tail on the pre-shift tail cell) and the
score is the old score plus the pre-tick `food_value`. In both cases
`total_ticks` has grown by exactly 1. -/
theorem tick_snake_shape {F : Type} (ops : DoubleOps F) (g g' : Game F) (rng : RngOutcome)
    (d : Direction) (a : GameVec2) (l : List GameVec2) (hs : g.state.snake = a :: l)
    (ht : g.tick ops rng d = some (true, g')) :
    (moveHead (effectiveDirection g.state.snakeDirection d) a ≠ g.state.food →
      g'.state.snake =
        moveHead (effectiveDirection g.state.snakeDirection d) a :: g.state.snake.dropLast ∧
      g'.state.snake.length = g.state.snake.length ∧
      g'.state.score = g.state.score) ∧
    (moveHead (effectiveDirection g.state.snakeDirection d) a = g.state.food →
      g'.state.snake =
        moveHead (effectiveDirection g.state.snakeDirection d) a :: g.state.snake ∧
      g'.state.snake.length = g.state.snake.length + 1 ∧
      g'.state.snake.getLast? = g.state.snake.getLast? ∧
      g'.state.score = ops.add g.state.score g.state.food_value) ∧
    g'.state.total_ticks = g.state.total_ticks + 1 := by
  obtain ⟨a', l', hs', -, -, hcase⟩ := tick_true_cases ops g g' rng d ht
  have hal : a' = a ∧ l' = l := by
    rw [hs] at hs'
    cases hs'
    exact ⟨rfl, rfl⟩
  obtain ⟨rfl, rfl⟩ := hal
  rcases hcase with ⟨hp, rfl⟩ | ⟨hp, rfl⟩
  · refine ⟨fun hne => absurd hp hne, fun _ => ?_, ?_⟩
    · have hsn : (g.spawnFood ops rng
          { g.state with
            total_ticks := g.state.total_ticks + 1
            snakeDirection := effectiveDirection g.state.snakeDirection d
            snake := moveHead (effectiveDirection g.state.snakeDirection d) a' :: a' :: l'
            score := ops.add g.state.score g.state.food_value }).snake =
          moveHead (effectiveDirection g.state.snakeDirection d) a' :: a' :: l' :=
        spawnFood_snake ops g rng _
      refine ⟨?_, ?_, ?_, ?_⟩
      · show (g.spawnFood ops rng _).snake = _
        rw [hsn, hs]
      · show (g.spawnFood ops rng _).snake.length = _
        rw [hsn, hs]; rfl
      · show (g.spawnFood ops rng _).snake.getLast? = _
        rw [hsn, hs]; rfl
      · exact (spawnFood_counters ops g rng _).2.2.2
    · exact (spawnFood_counters ops g rng _).1
  · refine ⟨fun _ => ?_, fun he => absurd he hp, rfl⟩
    refine ⟨?_, ?_, rfl⟩
    · show moveHead _ a' :: (a' :: l').dropLast = _
      rw [hs]
    · show (moveHead _ a' :: (a' :: l').dropLast).length = _
      rw [hs]
      simp

/-- Witness for C18: `squareGame` moves without eating, `eatGame` eats. -/
theorem tick_snake_shape_witness :
    (∀ g', squareGame.tick symOps rngFirst .DIR_DOWN = some (true, g') →
      g'.state.snake = [⟨0, 1⟩, ⟨0, 0⟩, ⟨1, 0⟩, ⟨1, 1⟩] ∧ g'.state.total_ticks = 6) ∧
    (∀ g', eatGame.tick symOps rngFirst .DIR_RIGHT = some (true, g') →
      g'.state.snake = [⟨2, 0⟩, ⟨1, 0⟩, ⟨0, 0⟩] ∧
      g'.state.score = DExpr.add DExpr.zero DExpr.half) ∧
    (squareGame.tick symOps rngFirst .DIR_DOWN).map Prod.fst = some true ∧
    (eatGame.tick symOps rngFirst .DIR_RIGHT).map Prod.fst = some true :=
  ⟨fun g' ht =>
    ⟨((tick_snake_shape symOps squareGame g' rngFirst .DIR_DOWN ⟨0, 0⟩
        [⟨1, 0⟩, ⟨1, 1⟩, ⟨0, 1⟩] rfl ht).1 (by decide)).1,
     (tick_snake_shape symOps squareGame g' rngFirst .DIR_DOWN ⟨0, 0⟩
        [⟨1, 0⟩, ⟨1, 1⟩, ⟨0, 1⟩] rfl ht).2.2⟩,
   fun g' ht =>
    ⟨((tick_snake_shape symOps eatGame g' rngFirst .DIR_RIGHT ⟨1, 0⟩ [⟨0, 0⟩] rfl ht).2.1
        (by decide)).1,
     ((tick_snake_shape symOps eatGame g' rngFirst .DIR_RIGHT ⟨1, 0⟩ [⟨0, 0⟩] rfl ht).2.1
        (by decide)).2.2.2⟩,
   by decide, by decide⟩

/-- C19: geometric well-formedness is an inductive invariant of the game. A
game is well-formed when every snake segment and the food lie in
`[0, board_width) x [0, board_height)` and consecutive segments are orthogonal
neighbours. For every RNG outcome: on a board with `board_width ≥ 6` and
`board_height ≥ 1` the state built by `Game::newState` (four segments running
left from `(width/2, height/2)`, heading RIGHT) is well-formed; if the game is
well-formed and `Game::tick` returns `true`, the game afterwards is
well-formed; and for a well-formed game every index `x + y*board_width` the
encoder computes, for the food and for each segment, is in
`[0, board_width*board_height)`. -/
theorem wellFormed_invariant {F : Type} (ops : DoubleOps F) (g : Game F) (rng : RngOutcome) :
    (∀ fresh : GameState F, 6 ≤ g.board_width → 1 ≤ g.board_height →
      (g.newState ops rng fresh).WellFormed ∧
      (g.newState ops rng fresh).state.snake =
        [⟨Int.tdiv g.board_width 2, Int.tdiv g.board_height 2⟩,
         ⟨Int.tdiv g.board_width 2 - 1, Int.tdiv g.board_height 2⟩,
         ⟨Int.tdiv g.board_width 2 - 2, Int.tdiv g.board_height 2⟩,
         ⟨Int.tdiv g.board_width 2 - 3, Int.tdiv g.board_height 2⟩] ∧
      (g.newState ops rng fresh).state.snakeDirection = Direction.DIR_RIGHT) ∧
    (∀ (d : Direction) (g' : Game F), g.WellFormed → g.tick ops rng d = some (true, g') →
      g'.WellFormed) ∧
    (g.WellFormed → ∀ p, p = g.state.food ∨ p ∈ g.state.snake →
      0 ≤ cellIndex g.board_width p ∧
      cellIndex g.board_width p < g.board_width * g.board_height) := by
  refine ⟨?_, ?_, ?_⟩
  · intro fresh hw hh
    obtain ⟨h1, h2, -, -⟩ := newState_snake ops g rng fresh
    exact ⟨newState_wellFormed ops g rng fresh hw hh, h1, h2⟩
  · intro d g' hwf ht
    exact tick_wellFormed ops g g' rng d hwf ht
  · intro hwf p hp
    rcases hp with rfl | hp
    · exact cellIndex_range _ _ _ hwf.2.1
    · exact cellIndex_range _ _ _ (hwf.1 p hp)

/-- Witness for C19: the initial state on the 6x1 board is well-formed for the
first and for the last RNG outcome, and so is the state after a tick from the
well-formed `squareGame`. -/
theorem wellFormed_invariant_witness :
    (sixGame.newState symOps rngFirst sixGame.state).WellFormed ∧
    (sixGame.newState symOps rngLast sixGame.state).WellFormed ∧
    squareGame.WellFormed ∧
    (squareGame.tick symOps rngFirst .DIR_DOWN).map Prod.fst = some true ∧
    (∀ g', squareGame.tick symOps rngFirst .DIR_DOWN = some (true, g') → g'.WellFormed) :=
  ⟨((wellFormed_invariant symOps sixGame rngFirst).1 sixGame.state (by decide) (by decide)).1,
   ((wellFormed_invariant symOps sixGame rngLast).1 sixGame.state (by decide) (by decide)).1,
   squareGame_wellFormed, by decide,
   fun g' => (wellFormed_invariant symOps squareGame rngFirst).2.1 .DIR_DOWN g'
     squareGame_wellFormed⟩

/-- C15 at the failing input: for the positive dimensions 65536 x 65536 the
mathematical product is `2^32 > 4096`, but its 32-bit value is 0, so
`Emulator::Emulator` does not throw and builds an empty board region. -/
theorem new_overflow_accepts :
    0 < hugeGame.board_width ∧ 0 < hugeGame.board_height ∧
    4096 < hugeGame.board_width * hugeGame.board_height ∧
    (Emulator.new hugeGame 100).toOption.map (fun th => th.BOARD) = some [] := by
  decide

/-- C16: default interrupt vectors. Right after a construction that did not
throw, the three little-endian words at `0xFFFA`, `0xFFFC` and `0xFFFE` read
back as `0x8000` through `Emulator::BusRead` (low byte `0x00`, high byte
`0x80`), and every other vector byte `0xFFF0-0xFFF9` reads 0. -/
theorem default_vectors {F : Type} (game : Game F) (m : Nat) (th : Emulator F)
    (h : Emulator.new game m = .ok th) :
    ((th.BusRead 0xFFFA).1 = 0x00 ∧ (th.BusRead 0xFFFB).1 = 0x80) ∧
    ((th.BusRead 0xFFFC).1 = 0x00 ∧ (th.BusRead 0xFFFD).1 = 0x80) ∧
    ((th.BusRead 0xFFFE).1 = 0x00 ∧ (th.BusRead 0xFFFF).1 = 0x80) ∧
    ((th.BusRead 0xFFFA).1 + 256 * (th.BusRead 0xFFFB).1 = 0x8000 ∧
      (th.BusRead 0xFFFC).1 + 256 * (th.BusRead 0xFFFD).1 = 0x8000 ∧
      (th.BusRead 0xFFFE).1 + 256 * (th.BusRead 0xFFFF).1 = 0x8000) ∧
    ∀ a, 0xFFF0 ≤ a → a ≤ 0xFFF9 → (th.BusRead a).1 = 0 := by
  have hs := new_sized game m th h
  obtain ⟨-, -, hrom, hisr, -, -⟩ := new_ok game m th h
  have hb := hs.board
  have key : ∀ a, 0xFFF0 ≤ a → a ≤ 0xFFFF → (th.BusRead a).1 =
      [0, 0, 0, 0, 0, 0, 0, 0, 0, 0, 0x00, 0x80, 0x00, 0x80, 0x00, 0x80].getD (a - 0xFFF0) 0 := by
    intro a h1 h2
    rw [busRead_fst th a hs, hrom, hisr, if_neg (by omega), if_neg (by omega),
      if_neg (by omega), if_neg (by simp), if_pos ⟨h1, h2⟩]
  have e0 := key 0xFFFA (by decide) (by decide)
  have e1 := key 0xFFFB (by decide) (by decide)
  have e2 := key 0xFFFC (by decide) (by decide)
  have e3 := key 0xFFFD (by decide) (by decide)
  have e4 := key 0xFFFE (by decide) (by decide)
  have e5 := key 0xFFFF (by decide) (by decide)
  refine ⟨⟨e0, e1⟩, ⟨e2, e3⟩, ⟨e4, e5⟩, ⟨by rw [e0, e1]; rfl, by rw [e2, e3]; rfl,
    by rw [e4, e5]; rfl⟩, ?_⟩
  intro a h1 h2
  rw [key a h1 (by omega)]
  obtain ⟨k, rfl⟩ : ∃ k, a = 0xFFF0 + k := ⟨a - 0xFFF0, by omega⟩
  have hk : k ≤ 9 := by omega
  rw [Nat.add_sub_cancel_left]
  interval_cases k <;> rfl

/-- Witness for C16: the emulator built for `wallGame`. -/
theorem default_vectors_witness :
    (∃ th, Emulator.new wallGame 100 = .ok th) ∧
    ∀ th, Emulator.new wallGame 100 = .ok th →
      (th.BusRead 0xFFFC).1 = 0x00 ∧ (th.BusRead 0xFFFD).1 = 0x80 :=
  ⟨⟨_, rfl⟩, fun th h => (default_vectors wallGame 100 th h).2.1⟩

/-- C17 (as amended): tick decay. For every interpretation of the `double`
arithmetic, IEEE binary64 among them, every tick that returns `true` without
eating replaces `food_value` by its product with `pow(0.5, 1.0 / (w + h))`,
`w` and `h` being the board sizes converted to `double`, and leaves score and
food position; so after `n` consecutive such ticks `food_value` is the
starting value multiplied `n` times by that factor, one product of the
arithmetic at a time, with score and food position as at the start. -/
theorem tick_decay {F : Type} (ops : DoubleOps F) (g g' : Game F) (n : Nat)
    (hrun : QuietRun ops n g g') :
    g'.state.food_value =
      (fun v => ops.mul v (ops.pow ops.half (ops.div ops.one
        (ops.add (ops.ofInt g.board_width) (ops.ofInt g.board_height)))))^[n]
        g.state.food_value ∧
    g'.state.score = g.state.score ∧ g'.state.food = g.state.food ∧
    (∀ (rng : RngOutcome) (d : Direction) (g₁ : Game F),
      g.tick ops rng d = some (true, g₁) →
      g₁.state.snake.length = g.state.snake.length →
      g₁.state.food_value = ops.mul g.state.food_value (ops.pow ops.half (ops.div ops.one
        (ops.add (ops.ofInt g.board_width) (ops.ofInt g.board_height)))) ∧
      g₁.state.score = g.state.score ∧ g₁.state.food = g.state.food) := by
  obtain ⟨h1, h2, h3, -, -⟩ := quietRun_frame ops n g g' hrun
  refine ⟨h1, h2, h3, ?_⟩
  intro rng d g₁ ht hlen
  obtain ⟨q1, q2, q3, -, -⟩ := tick_quiet ops g g₁ rng d ht hlen
  exact ⟨q1, q2, q3⟩

set_option maxRecDepth 8192 in
/-- Witness for C17 (as amended): in binary64 arithmetic, with the C library's
`pow(0.5, 0.2)`, five quiet ticks on the 3x2 board take the food worth `1.0`
to `0x1.fffffffffffffp-2`, five rounded products, with the food still at
`(2,1)`. -/
theorem tick_decay_witness :
    ∃ g', QuietRun (binary64Ops (powFifth fifthRoot)) 5
        (loopGame (binary64Ops (powFifth fifthRoot))) g' ∧
      g'.state.food_value = some ⟨9007199254740991, -54⟩ ∧ g'.state.food = ⟨2, 1⟩ := by
  have h := tick_decay (binary64Ops (powFifth fifthRoot)) _ _ 5
    (loopGame_run (binary64Ops (powFifth fifthRoot)))
  refine ⟨_, loopGame_run _, ?_, h.2.2.1⟩
  rw [h.1]
  show (fun v => (binary64Ops (powFifth fifthRoot)).mul v
    (decayFactor (binary64Ops (powFifth fifthRoot))
      (loopGame (binary64Ops (powFifth fifthRoot)))))^[5] _ = _
  rw [loopGame_factor64]
  decide

set_option maxRecDepth 8192 in
/-- C17 (as stated) fails in the arithmetic of the program. On the 3x2 board
(`m = 5`) five ticks run right, down, left, up, right without eating. The
factor is the double the C library returns for `pow(0.5, 0.2)`,
`fifthRoot * 2 ^ -53`, the binary64 number nearest to the fifth root of `1/2`
(the root lies within half a step of it: `(2 * fifthRoot - 1)^5 < 2^269 <
(2 * fifthRoot + 1)^5`). Five rounded products of `1.0` by it give
`0x1.fffffffffffffp-2`, which is `0.5 - 2^-54` and not `0.5 * 1.0`; and none of
the nine doubles within four steps of it gives `0.5` either. -/
theorem decay_half_life_counterexample :
    QuietRun (binary64Ops (powFifth fifthRoot)) 5 (loopGame (binary64Ops (powFifth fifthRoot)))
      ((loopGame (binary64Ops (powFifth fifthRoot))).fiveSteps
        (binary64Ops (powFifth fifthRoot))) ∧
    (loopGame (binary64Ops (powFifth fifthRoot))).board_width +
      (loopGame (binary64Ops (powFifth fifthRoot))).board_height = 5 ∧
    (2 * fifthRoot - 1) ^ 5 < 2 ^ 69 * 2 ^ 200 ∧ 2 ^ 69 * 2 ^ 200 < (2 * fifthRoot + 1) ^ 5 ∧
    ((loopGame (binary64Ops (powFifth fifthRoot))).fiveSteps
      (binary64Ops (powFifth fifthRoot))).state.food_value = some ⟨9007199254740991, -54⟩ ∧
    ((loopGame (binary64Ops (powFifth fifthRoot))).fiveSteps
      (binary64Ops (powFifth fifthRoot))).state.food_value ≠
      (binary64Ops (powFifth fifthRoot)).mul (binary64Ops (powFifth fifthRoot)).half
        (loopGame (binary64Ops (powFifth fifthRoot))).state.food_value ∧
    (∀ k ∈ List.range 9,
      ((loopGame (binary64Ops (powFifth (fifthRoot - 4 + k)))).fiveSteps
        (binary64Ops (powFifth (fifthRoot - 4 + k)))).state.food_value ≠
      (binary64Ops (powFifth (fifthRoot - 4 + k))).mul
        (binary64Ops (powFifth (fifthRoot - 4 + k))).half
        (loopGame (binary64Ops (powFifth (fifthRoot - 4 + k)))).state.food_value) := by
  refine ⟨loopGame_run _, by decide, by decide, by decide, ?_, ?_, ?_⟩
  · rw [loopGame_value]
    decide
  · rw [loopGame_value]
    decide
  · intro k hk
    rw [loopGame_value]
    revert k
    decide

/-- C20: body connectivity can be traced from the board bytes. For every
emulator whose board region has `board_width * board_height` bytes and every
state whose snake segments are pairwise distinct, in the board and
consecutively orthogonally adjacent, after `Emulator::setup_state` the low
nibble of the cell of every segment `i ≥ 1` is exactly one direction bit, and
the neighbour in that direction (LEFT `x-1`, RIGHT `x+1`, UP `y-1`, DOWN
`y+1`) is segment `i-1`; so following direction bits for `k` steps from the
tail cell arrives at segment `n-1-k`, and after `n-1` steps at the head. The
call has a defined result exactly when the snake is non-empty and the food
index is inside the board region, as it is in every state the game stores. -/
theorem setup_state_traceable {F : Type} (th : Emulator F) (s : GameState F)
    (hsz : th.Sized)
    (hN : (th.BOARD.length : Int) = th.m_game.board_width * th.m_game.board_height)
    (hnd : s.snake.Nodup)
    (hin : ∀ p ∈ s.snake, inBoard th.m_game.board_width th.m_game.board_height p)
    (hadj : s.snake.Chain' adjacent) :
    (∀ th', th.setup_state s = some th' →
      (∀ i p q, s.snake[i + 1]? = some p → s.snake[i]? = some q →
        (th'.cellAt p % 16 = TILE_DIRECTIN_LEFT ∧ q = ⟨p.x - 1, p.y⟩) ∨
        (th'.cellAt p % 16 = TILE_DIRECTIN_RIGHT ∧ q = ⟨p.x + 1, p.y⟩) ∨
        (th'.cellAt p % 16 = TILE_DIRECTIN_UP ∧ q = ⟨p.x, p.y - 1⟩) ∨
        (th'.cellAt p % 16 = TILE_DIRECTIN_DOWN ∧ q = ⟨p.x, p.y + 1⟩)) ∧
      (∀ k, k < s.snake.length →
        followBits th' k (s.snake.getD (s.snake.length - 1) origin) =
          some (s.snake.getD (s.snake.length - 1 - k) origin)) ∧
      (∀ a, s.snake.head? = some a →
        followBits th' (s.snake.length - 1) (s.snake.getD (s.snake.length - 1) origin) =
          some a)) ∧
    ((∃ th', th.setup_state s = some th') ↔
      s.snake ≠ [] ∧ 0 ≤ cellIndex th.m_game.board_width s.food ∧
        cellIndex th.m_game.board_width s.food < th.BOARD.length) := by
  refine ⟨?_, setup_state_defined_iff th s hsz hN hin⟩
  intro th' h
  obtain ⟨a, l, hs⟩ := List.exists_cons_of_ne_nil (setup_state_frame th th' s h).2.2.2
  obtain ⟨th2, h2, p1, p2, p3⟩ := traceable_in_range th s hsz hN a l hs hnd hin hadj
    (setup_state_food_range th th' s h)
  rw [h] at h2
  cases h2
  refine ⟨p1, p2, ?_⟩
  intro b hb
  rw [hs] at hb
  cases hb
  exact p3

/-- Witness for C20: `Emulator::setup_state` completes on `squareGame`, the tail
cell `(0,1)` carries the RIGHT bit alone and three steps along the direction
bits lead from it to the head `(0,0)`. -/
theorem setup_state_traceable_witness :
    ∃ th', encEmu.setup_state squareGame.state = some th' ∧
      th'.cellAt ⟨0, 1⟩ % 16 = TILE_DIRECTIN_RIGHT ∧
      followBits th' 3 ⟨0, 1⟩ = some ⟨0, 0⟩ := by
  have h := setup_state_traceable encEmu squareGame.state encEmu_sized (by decide)
    (by decide) (by decide) (by simp [squareGame, adjacent])
  obtain ⟨th', h1⟩ := h.2.mpr ⟨by decide, by decide⟩
  obtain ⟨h2, -, h4⟩ := h.1 th' h1
  refine ⟨th', h1, ?_, h4 ⟨0, 0⟩ rfl⟩
  rcases h2 2 ⟨0, 1⟩ ⟨1, 1⟩ rfl rfl with ⟨-, hq⟩ | ⟨hb, -⟩ | ⟨-, hq⟩ | ⟨-, hq⟩
  · exact absurd hq (by decide)
  · exact hb
  · exact absurd hq (by decide)
  · exact absurd hq (by decide)

end SnakeBot
